import Mathlib

/-!
Verification of the AIVERSE matching engine and world state machine
(src/core/types.py, src/core/exchange.py, src/core/world.py).

Shallow embedding conventions:
* Python `float` money/quantity values are modeled as `ℚ`.  All concrete
  inputs used below are exactly representable in IEEE-754 doubles and the
  arithmetic on them (add/sub/mul of small integers and halves) is exact,
  so every concrete evaluation agrees with the Python float computation.
* Python dicts are association lists (`Dict α`) that preserve insertion
  order; key lookup takes the first match, mutation rewrites the matching
  entry in place, exactly like CPython dicts whose keys are never removed
  and re-added.  Reachable states keep keys unique (`Dict.Uniq`).
* Mutable object references: `Order` objects are shared between
  `Exchange.orders` and the order books.  The books store the order id and
  every read goes through the `orders` store, which models the shared
  mutable object.
* Wall-clock values that the code only writes and never branches on
  (`Trade.timestamp`, `Trade.id`, `Order.filled_at`, `Agent.created_at`,
  `price_history` timestamps) are dropped; `Order.created_at` is kept as a
  rational (Python `datetime.timestamp()`) because the book orders by it.
-/

-- `Rat.mul` and friends are `@[irreducible]` only as an elaborator hint
-- (the kernel ignores reducibility); reopening them lets `decide`
-- evaluate the concrete scenarios below.
attribute [local semireducible] Rat.mul Rat.add Rat.sub Rat.inv

/-- Python `str.upper()` / `str.lower()` as the engine applies them to
ASCII tickers; identical to `String.toUpper` / `String.toLower`, written
over the character list so that concrete evaluations reduce in the
kernel. -/
def String.upper (s : String) : String := ⟨s.data.map Char.toUpper⟩

def String.lower (s : String) : String := ⟨s.data.map Char.toLower⟩

namespace AIVerse

/-- Association list with string keys, modeling a Python dict. -/
abbrev Dict (α : Type) := List (String × α)

namespace Dict

/-- `d[k]` lookup returning an option (Python `dict.get`): the first
entry with the key (dict keys are unique, so the only one). -/
def get? {α : Type} : Dict α → String → Option α
  | [], _ => none
  | p :: rest, k => if p.1 = k then some p.2 else get? rest k

/-- Key membership (Python `k in d`). -/
def containsKey {α : Type} : Dict α → String → Bool
  | [], _ => false
  | p :: rest, k => p.1 = k || containsKey rest k

/-- `d[k] = v`: overwrite in place if the key exists, else append
(CPython dict insertion order). -/
def set {α : Type} (d : Dict α) (k : String) (v : α) : Dict α :=
  if d.containsKey k then d.map (fun p => if p.1 = k then (p.1, v) else p)
  else d ++ [(k, v)]

/-- Mutate the value stored under `k`; no-op when the key is absent.
The source writes `self.agents[agent_id].field = ...` only at points
where the key is guaranteed present, so the no-op branch is unreachable
in the flows verified below. -/
def modify {α : Type} (d : Dict α) (k : String) (f : α → α) : Dict α :=
  d.map (fun p => if p.1 = k then (p.1, f p.2) else p)

/-- `del d[k]` (Python removes the unique entry under the key). -/
def erase {α : Type} : Dict α → String → Dict α
  | [], _ => []
  | p :: rest, k => if p.1 = k then erase rest k else p :: erase rest k

/-- Key uniqueness: holds for every Python dict. -/
def Uniq {α : Type} (d : Dict α) : Prop := (d.map Prod.fst).Nodup

def keys {α : Type} (d : Dict α) : List String := d.map Prod.fst

end Dict

/-- `OrderSide` from src/core/types.py. -/
inductive OrderSide where
  | buy
  | sell
  deriving DecidableEq, Repr

/-- `OrderType` from src/core/types.py. -/
inductive OrderType where
  | market
  | limit
  deriving DecidableEq, Repr

/-- `OrderStatus` from src/core/types.py; Python calls the third
constructor `PARTIAL`. -/
inductive OrderStatus where
  | pending
  | filled
  | partialFilled
  | cancelled
  deriving DecidableEq, Repr

/-- `CompanyStatus` from src/core/types.py; Python calls the first and
third constructors `PRIVATE` and `PUBLIC`. -/
inductive CompanyStatus where
  | privateC
  | ipoC
  | publicC
  | bankrupt
  deriving DecidableEq, Repr

/-- `Agent` dataclass (src/core/types.py).  `created_at` dropped
(wall clock, never read). -/
structure Agent where
  id : String
  name : String
  balance : ℚ
  reputation : ℚ := 100
  total_trades : ℕ := 0
  total_pnl : ℚ := 0
  portfolio : Dict ℚ := []
  deriving DecidableEq, Repr

/-- `Company` dataclass (src/core/types.py).  `total_shares` is a Python
int; it only ever meets rational arithmetic, so it is ℚ here. -/
structure Company where
  id : String
  ticker : String
  name : String
  description : String
  founder_id : String
  status : CompanyStatus := .privateC
  total_shares : ℚ := 1000000
  public_shares : ℚ := 0
  share_price : ℚ := 1
  market_cap : ℚ := 0
  daily_active_users : ℕ := 0
  total_api_calls : ℕ := 0
  revenue : ℚ := 0
  service_type : String := "generic"
  service_cost : ℚ := 1
  deriving DecidableEq, Repr

/-- `Order` dataclass (src/core/types.py).  `price` is `Optional[float]`
in the source (`None` for market orders).  `filled_at` dropped (wall
clock, never read).  `created_at` is `datetime.timestamp()` as ℚ. -/
structure Order where
  id : String
  agent_id : String := ""
  ticker : String := ""
  side : OrderSide := .buy
  order_type : OrderType := .limit
  quantity : ℚ := 0
  price : Option ℚ := none
  status : OrderStatus := .pending
  filled_quantity : ℚ := 0
  filled_price : ℚ := 0
  created_at : ℚ := 0
  deriving DecidableEq, Repr

/-- `Trade` dataclass (src/core/types.py).  `id` (uuid) and `timestamp`
(wall clock) dropped: both are written and never read by the core. -/
structure Trade where
  ticker : String := ""
  buyer_id : String := ""
  seller_id : String := ""
  quantity : ℚ := 0
  price : ℚ := 0
  buyer_order_id : String := ""
  seller_order_id : String := ""
  deriving DecidableEq, Repr

end AIVerse

namespace AIVerse

/-- A heap entry `(price-key, timestamp, order)` as pushed by
`OrderBook.add_order`; the shared `Order` object is referenced by id. -/
structure BookEntry where
  key1 : ℚ
  key2 : ℚ
  oid : String
  deriving DecidableEq, Repr

/-- Python tuple `<` on the first two components.  When both keys are
equal, CPython would go on to compare the `Order` dataclasses and raise
`TypeError` (made explicit by `entryLT_exc` below); this total model
returns `false` there, which only matters on inputs that crash the
source. -/
def entryLT (a b : BookEntry) : Bool :=
  decide (a.key1 < b.key1) || (decide (a.key1 = b.key1) && decide (a.key2 < b.key2))

/-- `heapq._siftdown(heap, 0, pos)`: bubble the element at `pos` up
towards the root while it is strictly smaller than its parent.  The fuel
only bounds the ascent; the position strictly decreases at every step,
so `siftUp` passing `pos` itself always suffices. -/
def siftUpF (l : List BookEntry) (pos : ℕ) : ℕ → List BookEntry
  | 0 => l
  | fuel+1 =>
    if pos = 0 then l
    else
      match l[pos]?, l[(pos - 1) / 2]? with
      | some x, some p =>
          if entryLT x p then siftUpF ((l.set pos p).set ((pos - 1) / 2) x) ((pos - 1) / 2) fuel
          else l
      | _, _ => l

def siftUp (l : List BookEntry) (pos : ℕ) : List BookEntry :=
  siftUpF l pos pos

/-- `heapq.heappush`: append, then sift up from the last position. -/
def heappush (l : List BookEntry) (e : BookEntry) : List BookEntry :=
  siftUp (l ++ [e]) l.length

/-- Percolate the element at `pos` down, the functional equivalent of
`heapq._siftup(heap, pos)`.  CPython walks the min-child path down to a
leaf and then bubbles the moved element back up; on tie-free inputs both
strategies yield a valid min-heap over the same multiset, and no caller
observes the internal array layout. The fuel only bounds the descent;
`siftDown` passes the list length, which always suffices since the child
index strictly grows. -/
def pickChild (l : List BookEntry) (pos : ℕ) : ℕ :=
  -- Python: childpos = 2*pos+1; if the right child exists and the left is
  -- not strictly smaller, pick the right child.
  match l[2 * pos + 1]?, l[2 * pos + 2]? with
  | some e1, some e2 => if !(entryLT e1 e2) then 2 * pos + 2 else 2 * pos + 1
  | _, _ => 2 * pos + 1

def siftDownF (l : List BookEntry) (pos : ℕ) : ℕ → List BookEntry
  | 0 => l
  | fuel+1 =>
    match l[pos]?, l[pickChild l pos]? with
    | some x, some ec =>
        if entryLT ec x then
          siftDownF ((l.set pos ec).set (pickChild l pos) x) (pickChild l pos) fuel
        else l
    | _, _ => l

def siftDown (l : List BookEntry) (pos : ℕ) : List BookEntry :=
  siftDownF l pos l.length

/-- `heapq.heappop`: return the root, move the last element to the root
slot and sift it down.  CPython raises `IndexError` on an empty heap;
callers below never pop an empty one. -/
def heappop (l : List BookEntry) : Option BookEntry × List BookEntry :=
  match l with
  | [] => (none, l)
  | [x] => (some x, [])
  | x :: y :: ys =>
      (some x, siftDown (((x :: y :: ys).getLast (by simp)) :: (y :: ys).dropLast) 0)

/-- The loop body of `OrderBook.best_bid` / `best_ask`: look at the root
entry, return its order if that order is PENDING, otherwise pop the
entry and retry.  `orders` is the shared order store (the Python heap
holds the `Order` objects themselves; an id missing from the store
cannot arise in the source and is treated as non-pending garbage).  The
fuel only bounds the iteration count; each non-returning step pops one
entry, so the initial list length always suffices. -/
def bestOfF (orders : Dict Order) : List BookEntry → ℕ → Option Order × List BookEntry
  | l, 0 => (none, l)
  | [], _ => (none, [])
  | e :: rest, fuel+1 =>
    match orders.get? e.oid with
    | some o =>
      if o.status = .pending then (some o, e :: rest)
      else bestOfF orders (heappop (e :: rest)).2 fuel
    | none => bestOfF orders (heappop (e :: rest)).2 fuel

def bestOf (orders : Dict Order) (l : List BookEntry) : Option Order × List BookEntry :=
  bestOfF orders l l.length

/-- `OrderBook` (src/core/exchange.py): per-ticker heapq lists of resting
orders; bids carry key `(-price, created_at)`, asks `(price, created_at)`. -/
structure OrderBook where
  ticker : String
  bids : List BookEntry := []
  asks : List BookEntry := []
  deriving DecidableEq, Repr

/-- `OrderBook.add_order`.  The source computes `-order.price` or
`order.price` on the raw value; a `None` price would raise `TypeError`
(only admitted LIMIT orders reach the book and those carry a price), so
the `getD 0` branch is unreachable in the verified flows. -/
def OrderBook.add_order (b : OrderBook) (o : Order) : OrderBook :=
  let e : BookEntry :=
    { key1 := if o.side = .buy then -(o.price.getD 0) else o.price.getD 0,
      key2 := o.created_at,
      oid := o.id }
  if o.side = .buy then { b with bids := heappush b.bids e }
  else { b with asks := heappush b.asks e }

/-- `OrderBook.best_bid`; the lazy pops mutate the book. -/
def OrderBook.best_bid (b : OrderBook) (orders : Dict Order) : Option Order × OrderBook :=
  let r := bestOf orders b.bids
  (r.1, { b with bids := r.2 })

/-- `OrderBook.best_ask`; the lazy pops mutate the book. -/
def OrderBook.best_ask (b : OrderBook) (orders : Dict Order) : Option Order × OrderBook :=
  let r := bestOf orders b.asks
  (r.1, { b with asks := r.2 })

end AIVerse

namespace AIVerse

/-- `Exchange` (src/core/exchange.py).  `price_history` is omitted: the
engine only appends `(utcnow, price)` pairs to it, and the sole reader is
`get_market_data`, which no claim touches. -/
structure Exchange where
  agents : Dict Agent := []
  companies : Dict Company := []
  order_books : Dict OrderBook := []
  trades : List Trade := []
  orders : Dict Order := []
  deriving DecidableEq, Repr

namespace Exchange

/-- Mutation of one agent record through the shared store. -/
def updateAgent (s : Exchange) (aid : String) (f : Agent → Agent) : Exchange :=
  { s with agents := s.agents.modify aid f }

/-- Mutation of one order record through the shared store. -/
def updateOrder (s : Exchange) (oid : String) (f : Order → Order) : Exchange :=
  { s with orders := s.orders.modify oid f }

/-- `Exchange.register_agent`: idempotent, returns the existing agent. -/
def register_agent (s : Exchange) (agent_id name : String) (initial_balance : ℚ) :
    Agent × Exchange :=
  match s.agents.get? agent_id with
  | some a => (a, s)
  | none =>
    let a : Agent := { id := agent_id, name := name, balance := initial_balance }
    (a, { s with agents := s.agents.set agent_id a })

/-- `Exchange.daily_income`: +1000 to every agent. -/
def daily_income (s : Exchange) : Exchange :=
  { s with agents := s.agents.map (fun p => (p.1, { p.2 with balance := p.2.balance + 1000 })) }

/-- `Exchange.create_company`.  Note that the duplicate-ticker test is on
the RAW `ticker` string while companies are stored under
`ticker.upper()` (claim C7). -/
def create_company (s : Exchange) (founder_id ticker name description service_type : String)
    (service_cost : ℚ) : Option Company × Exchange :=
  match s.agents.get? founder_id with
  | none => (none, s)
  | some founder =>
    if founder.balance < 10000 then (none, s)
    else if (s.companies.get? ticker).isSome then (none, s)
    else
      let s1 := s.updateAgent founder_id (fun a => { a with balance := a.balance - 10000 })
      let company : Company :=
        { id := ticker.lower, ticker := ticker.upper, name := name,
          description := description, founder_id := founder_id,
          service_type := service_type, service_cost := service_cost }
      let s2 := { s1 with
        companies := s1.companies.set ticker.upper company,
        order_books := s1.order_books.set ticker.upper { ticker := ticker.upper } }
      let s3 := s2.updateAgent founder_id
        (fun a => { a with portfolio := a.portfolio.set ticker.upper company.total_shares })
      (some company, s3)

/-- `Exchange._get_market_price`.  The fallback
`self.companies[ticker].share_price` raises `KeyError` when the ticker is
unknown (made explicit by `get_market_price_exc`, claim C6); this total
model returns 0 there, a branch unreachable in admitted flows.  The lazy
pops done by the best-of-side lookups mutate the book and persist. -/
def get_market_price (s : Exchange) (ticker : String) (side : OrderSide) : ℚ × Exchange :=
  match s.order_books.get? ticker with
  | none => (((s.companies.get? ticker).map (·.share_price)).getD 0, s)
  | some book =>
    if side = .buy then
      let r := book.best_ask s.orders
      let s1 := { s with order_books := s.order_books.set ticker r.2 }
      match r.1 with
      | some a => (a.price.getD 0, s1)
      | none => (((s1.companies.get? ticker).map (·.share_price)).getD 0, s1)
    else
      let r := book.best_bid s.orders
      let s1 := { s with order_books := s.order_books.set ticker r.2 }
      match r.1 with
      | some b => (b.price.getD 0, s1)
      | none => (((s1.companies.get? ticker).map (·.share_price)).getD 0, s1)

/-- `Exchange._execute_trade(order1, order2, quantity, price)`: `oid1` is
the incoming order, `oid2` the resting counterparty.  In the source both
`Order` objects and both agents are held directly; ids or agents missing
from the stores cannot arise in the verified flows (the submit path
indexes the incoming order first, counters come from the store, and
agents of admitted orders exist and are never deleted), so the lookups
default to no-ops.  The update sequence follows the source line by line;
aliasing (buyer agent = seller agent on a self-trade) is automatic
because each step reads the current store. -/
def execute_trade (s : Exchange) (oid1 oid2 : String) (quantity price : ℚ) : Exchange :=
  match s.orders.get? oid1, s.orders.get? oid2 with
  | some o1, some o2 =>
    let buyer_order := if o1.side = .buy then o1 else o2
    let seller_order := if o1.side = .buy then o2 else o1
    let ticker := o1.ticker
    let total_cost := quantity * price
    let s := s.updateAgent buyer_order.agent_id
      (fun a => { a with balance := a.balance - total_cost })
    let s := s.updateAgent seller_order.agent_id
      (fun a => { a with balance := a.balance + total_cost })
    let s := s.updateAgent buyer_order.agent_id (fun a =>
      { a with portfolio := a.portfolio.set ticker ((a.portfolio.get? ticker).getD 0 + quantity) })
    let s := s.updateAgent seller_order.agent_id (fun a =>
      let pf := a.portfolio.set ticker ((a.portfolio.get? ticker).getD 0 - quantity)
      { a with portfolio := if ((pf.get? ticker).getD 0) ≤ 0 then pf.erase ticker else pf })
    let s := s.updateOrder buyer_order.id (fun o =>
      let o := { o with filled_quantity := o.filled_quantity + quantity, filled_price := price }
      if o.filled_quantity ≥ o.quantity then { o with status := .filled } else o)
    let s := s.updateOrder seller_order.id (fun o =>
      let o := { o with filled_quantity := o.filled_quantity + quantity, filled_price := price }
      if o.filled_quantity ≥ o.quantity then { o with status := .filled } else o)
    let s := s.updateAgent buyer_order.agent_id
      (fun a => { a with total_trades := a.total_trades + 1 })
    let s := s.updateAgent seller_order.agent_id
      (fun a => { a with total_trades := a.total_trades + 1 })
    let trade : Trade :=
      { ticker := ticker, buyer_id := buyer_order.agent_id, seller_id := seller_order.agent_id,
        quantity := quantity, price := price,
        buyer_order_id := buyer_order.id, seller_order_id := seller_order.id }
    let s := { s with trades := s.trades ++ [trade] }
    { s with companies := s.companies.modify ticker (fun c =>
      { c with share_price := price, market_cap := c.total_shares * price }) }
  | _, _ => s

/-- Python truthiness of `order.price`: `None` and `0.0` are falsy. -/
def truthy : Option ℚ → Bool
  | none => false
  | some v => !(decide (v = 0))

/-- The `while` loop of `Exchange._match_order`, driven by fuel.  Each
continuing iteration either exits at the next check or turns the PENDING
counter into FILLED, so the `opposite book length + 1` fuel passed by
`match_order` always reproduces the source loop (in corrupted stores
where Python would loop forever, the model stops at fuel exhaustion; such
states are unreachable, see the invariants below).  The order and the
book are re-read from the store each iteration, matching the mutation of
the shared objects. -/
def matchLoopF (s : Exchange) (oid : String) : ℕ → Exchange
  | 0 => s
  | fuel+1 =>
    match s.orders.get? oid with
    | none => s
    | some o =>
      if o.filled_quantity < o.quantity then
        match s.order_books.get? o.ticker with
        | none => s
        | some bk =>
          let br := if o.side = .buy then bk.best_ask s.orders else bk.best_bid s.orders
          let s1 := { s with order_books := s.order_books.set o.ticker br.2 }
          match br.1 with
          | none => s1
          | some counter =>
            if o.side = .buy ∧ truthy o.price ∧ counter.price.getD 0 > o.price.getD 0 then s1
            else if o.side = .sell ∧ truthy o.price ∧ counter.price.getD 0 < o.price.getD 0 then s1
            else
              let trade_qty := min (o.quantity - o.filled_quantity)
                                   (counter.quantity - counter.filled_quantity)
              let trade_price := counter.price.getD 0
              (s1.execute_trade oid counter.id trade_qty trade_price).matchLoopF oid fuel
      else s

/-- `Exchange._match_order`: fetch the book for the RAW `order.ticker`
(an early `return` when absent skips the final status assignment, as in
the source), run the loop, then set FILLED or PARTIAL on the incoming
order. -/
def match_order (s : Exchange) (oid : String) : Exchange :=
  match s.orders.get? oid with
  | none => s
  | some o =>
    match s.order_books.get? o.ticker with
    | none => s
    | some bk =>
      let fuel := (if o.side = .buy then bk.asks else bk.bids).length + 1
      let s1 := s.matchLoopF oid fuel
      s1.updateOrder oid (fun o =>
        if o.filled_quantity ≥ o.quantity then { o with status := .filled }
        else if o.filled_quantity > 0 then { o with status := .partialFilled }
        else o)

/-- `Exchange._execute_market_order`: set the price to the current market
price — computed for the RAW `order.ticker` (claim C6) — match, and
cancel when still pending. -/
def execute_market_order (s : Exchange) (oid : String) : Exchange :=
  match s.orders.get? oid with
  | none => s
  | some o =>
    let mp := s.get_market_price o.ticker o.side
    let s1 := mp.2.updateOrder oid (fun o => { o with price := some mp.1 })
    let s2 := s1.match_order oid
    s2.updateOrder oid (fun o =>
      if o.status = .pending then { o with status := .cancelled } else o)

/-- The tail of `submit_order` after admission: index the order, then run
the market or limit path; a LIMIT order is added to the book only when
its status is still PENDING.  The book under the normalized ticker exists
whenever the company does (invariant below), so `Dict.modify` never hits
its no-op branch here. -/
def finishSubmit (s : Exchange) (order : Order) (ticker : String) : Option Order × Exchange :=
  let s1 := { s with orders := s.orders.set order.id order }
  let s2 :=
    if order.order_type = .market then s1.execute_market_order order.id
    else
      let s3 := s1.match_order order.id
      match s3.orders.get? order.id with
      | some o =>
        if o.status = .pending then
          { s3 with order_books := s3.order_books.modify ticker (fun b => b.add_order o) }
        else s3
      | none => s3
  (s2.orders.get? order.id, s2)

/-- `Exchange.submit_order`.  Mirrors the source exactly, including: the
BUY solvency check computes `order.price or market price` with Python
short-circuit truthiness (and the market-price book pops persist even
when the order is then rejected); the SELL check compares current
holdings under the normalized ticker; the order is indexed before
matching. -/
def submit_order (s : Exchange) (order : Order) : Option Order × Exchange :=
  match s.agents.get? order.agent_id with
  | none => (none, s)
  | some agent =>
    let ticker := order.ticker.upper
    if (s.companies.get? ticker).isNone then (none, s)
    else if order.side = .buy then
      let ep := if truthy order.price then (order.price.getD 0, s)
                else s.get_market_price ticker .buy
      if agent.balance < order.quantity * ep.1 then (none, ep.2)
      else finishSubmit ep.2 order ticker
    else
      if ((agent.portfolio.get? ticker).getD 0) < order.quantity then (none, s)
      else finishSubmit s order ticker

end Exchange

end AIVerse

namespace AIVerse

/-- `ServiceUsage` (src/core/world.py); wall-clock timestamp dropped. -/
structure ServiceUsage where
  agent_id : String
  company_ticker : String
  cost : ℚ
  success : Bool
  deriving DecidableEq, Repr

/-- The `AIVerse` world class (src/core/world.py), named `World` here to
avoid clashing with the surrounding namespace.  The event log and the
`on_event` callback are omitted: no claim mentions events and
`use_service` appends none; `tick_count` and `start_time` likewise. -/
structure World where
  exchange : Exchange := {}
  service_usage : List ServiceUsage := []
  daily_income : ℚ := 1000
  dividend_rate : ℚ := 1/10
  deriving DecidableEq, Repr

namespace World

/-- `AIVerse.join`: starting balance is `self.daily_income`. -/
def join (w : World) (agent_id name : String) : Agent × World :=
  let r := w.exchange.register_agent agent_id name w.daily_income
  (r.1, { w with exchange := r.2 })

/-- `AIVerse.use_service`.  The source formats the cost into the success
message; the interpolated amount is elided here (no claim reads the
message text). -/
def use_service (w : World) (agent_id ticker : String) : (Bool × String) × World :=
  match w.exchange.agents.get? agent_id with
  | none => ((false, "Agent non trouve"), w)
  | some agent =>
    match w.exchange.companies.get? ticker.upper with
    | none => ((false, "Entreprise non trouvee"), w)
    | some company =>
      if company.status = .bankrupt then ((false, "Entreprise en faillite"), w)
      else
        let cost := company.service_cost
        if agent.balance < cost then ((false, "Solde insuffisant"), w)
        else
          let ex := w.exchange.updateAgent agent_id
            (fun a => { a with balance := a.balance - cost })
          let ex := { ex with companies := ex.companies.modify ticker.upper (fun c =>
            { c with revenue := c.revenue + cost, total_api_calls := c.total_api_calls + 1 }) }
          let usage : ServiceUsage :=
            { agent_id := agent_id, company_ticker := ticker.upper,
              cost := cost, success := true }
          ((true, "Service utilise"),
           { w with exchange := ex, service_usage := w.service_usage ++ [usage] })

/-- `AIVerse._distribute_dividends` for one company (identified by its
dict key): pay `shares * dividend_per_share` to every agent holding a
positive number of shares of `company.ticker`. -/
def distributeDividends (ex : Exchange) (rate : ℚ) (ticker : String) : Exchange :=
  match ex.companies.get? ticker with
  | none => ex
  | some company =>
    let dps := company.revenue * rate / company.total_shares
    { ex with agents := ex.agents.map (fun p =>
        let shares := (p.2.portfolio.get? company.ticker).getD 0
        if shares > 0 then (p.1, { p.2 with balance := p.2.balance + shares * dps }) else p) }

/-- `AIVerse._bankrupt`: mark the company bankrupt, zero its price and
cap, and delete its ticker from every portfolio. -/
def bankruptCompany (ex : Exchange) (ticker : String) : Exchange :=
  let ex1 := { ex with companies := ex.companies.modify ticker (fun c =>
    { c with status := .bankrupt, share_price := 0, market_cap := 0 }) }
  match ex1.companies.get? ticker with
  | none => ex1
  | some company =>
    { ex1 with agents := ex1.agents.map (fun p =>
        (p.1, { p.2 with portfolio := p.2.portfolio.erase company.ticker })) }

/-- `AIVerse._daily_cycle`: distribute income, then for each company (the
key set is unchanged by the income step) pay dividends when PUBLIC with
positive revenue, and detect bankruptcy. -/
def daily_cycle (w : World) : World :=
  let ex0 := w.exchange.daily_income
  let ex := ex0.companies.keys.foldl (fun ex t =>
    match ex.companies.get? t with
    | none => ex
    | some c =>
      let ex1 :=
        if c.status = .publicC ∧ c.revenue > 0 then
          let exd := distributeDividends ex w.dividend_rate t
          { exd with companies := exd.companies.modify t (fun c => { c with revenue := 0 }) }
        else ex
      match ex1.companies.get? t with
      | none => ex1
      | some c1 =>
        if c1.status = .publicC ∧ c1.total_api_calls = 0 ∧ c1.share_price < 1/100 then
          bankruptCompany ex1 t
        else ex1) ex0
  { w with exchange := ex }

end World

end AIVerse

namespace AIVerse

/-- World-level operations driving the verified traces: the public entry
points a client can invoke (the HTTP layer and the bots call
`register_agent` / `join`, `create_company`, `submit_order` and
`use_service`; the scheduler drives the daily cycle through `tick`). -/
inductive Op where
  | register (agent_id name : String) (balance : ℚ)
  | create (founder_id ticker name description service_type : String) (service_cost : ℚ)
  | submit (o : Order)
  | use (agent_id ticker : String)
  | daily
  deriving DecidableEq, Repr

namespace World

def applyOp (w : World) : Op → World
  | .register aid n b => { w with exchange := (w.exchange.register_agent aid n b).2 }
  | .create fid t n d st sc =>
      { w with exchange := (w.exchange.create_company fid t n d st sc).2 }
  | .submit o => { w with exchange := (w.exchange.submit_order o).2 }
  | .use aid t => (w.use_service aid t).2
  | .daily => w.daily_cycle

def run (w : World) (ops : List Op) : World := ops.foldl applyOp w

/-- Well-formedness of a submitted order, as produced by every caller in
the repository (the HTTP layer and the bots): a fresh uuid id, PENDING
status, nothing filled yet, a positive quantity, a price on LIMIT
orders, and a `(price, created_at)` key that collides with no same-side
resting entry — CPython raises `TypeError` on such a collision (claim
C6), so colliding traces do not complete. -/
def safeSubmit (w : World) (o : Order) : Bool :=
  (w.exchange.orders.get? o.id).isNone &&
  (o.status = OrderStatus.pending) && (o.filled_quantity = 0) && (o.quantity > 0) &&
  (o.order_type = OrderType.market || o.price.isSome) &&
  (match w.exchange.order_books.get? o.ticker.upper with
   | none => true
   | some bk =>
     let k1 : ℚ := if o.side = .buy then -(o.price.getD 0) else o.price.getD 0
     (if o.side = .buy then bk.bids else bk.asks).all
       (fun e => !(decide (e.key1 = k1) && decide (e.key2 = o.created_at))))

def safeOp (w : World) : Op → Bool
  | .submit o => safeSubmit w o
  | _ => true

/-- A trace is safe when each step is safe in the state it executes in. -/
def safeRun : World → List Op → Bool
  | _, [] => true
  | w, op :: ops => safeOp w op && safeRun (w.applyOp op) ops

end World

/-- Total remaining PENDING sell commitment of agent `aid` on the
normalized ticker `t`. -/
def sellCommit (ex : Exchange) (aid t : String) : ℚ :=
  (ex.orders.map (fun p =>
    if p.2.agent_id = aid ∧ p.2.status = .pending ∧ p.2.side = .sell ∧ p.2.ticker.upper = t
    then p.2.quantity - p.2.filled_quantity else 0)).sum

namespace World

/-- The extra discipline under which share conservation holds (claim C1):
tickers of new companies are fresh even after normalization (ruling out
the case-collision overwrite of claim C7), submitted tickers are already
uppercase (as every caller in the repository sends them), and a SELL is
only submitted while the agent's resting sell commitment plus the new
quantity is covered by their holdings — the source checks holdings only
against the single new order, which is what lets conservation fail. -/
def consOp (w : World) : Op → Bool
  | .submit o => safeSubmit w o && (o.ticker.upper = o.ticker) &&
      (o.side = OrderSide.buy ||
        decide (sellCommit w.exchange o.agent_id o.ticker + o.quantity ≤
          (((w.exchange.agents.get? o.agent_id).map
            (fun a => (a.portfolio.get? o.ticker).getD 0)).getD 0)))
  | .create _ t _ _ _ _ => (w.exchange.companies.get? t.upper).isNone
  | _ => true

def consRun : World → List Op → Bool
  | _, [] => true
  | w, op :: ops => consOp w op && consRun (w.applyOp op) ops

end World

/-- Sum of `portfolio[t]` over all agents. -/
def sumShares (ex : Exchange) (t : String) : ℚ :=
  (ex.agents.map (fun p => (p.2.portfolio.get? t).getD 0)).sum

end AIVerse

namespace AIVerse

/-! ### Heap bookkeeping lemmas -/

/-- Replacing `xs[k] = b` by `x` and consing `b` in front permutes
`x :: xs`. -/
theorem set_cons_perm {α : Type} (xs : List α) (k : ℕ) (x b : α)
    (hk : xs[k]? = some b) : (b :: xs.set k x).Perm (x :: xs) := by
  induction xs generalizing k with
  | nil => simp at hk
  | cons y t ih =>
    cases k with
    | zero =>
      simp only [List.getElem?_cons_zero, Option.some.injEq] at hk
      subst hk
      simpa using List.Perm.swap x y t
    | succ k =>
      simp only [List.getElem?_cons_succ] at hk
      have h1 : (b :: y :: t.set k x).Perm (y :: b :: t.set k x) :=
        List.Perm.swap y b _
      have h2 : (y :: b :: t.set k x).Perm (y :: x :: t) :=
        List.Perm.cons y (ih k hk)
      have h3 : (y :: x :: t).Perm (x :: y :: t) := List.Perm.swap x y t
      exact (h1.trans h2).trans h3

/-- Swapping two positions of a list is a permutation (ordered case). -/
theorem set_set_perm_lt {α : Type} : ∀ (l : List α) (i j : ℕ) (a b : α), i < j →
    l[i]? = some a → l[j]? = some b → ((l.set i b).set j a).Perm l := by
  intro l
  induction l with
  | nil => intro i j a b _ hi _; simp at hi
  | cons y t ih =>
    intro i j a b hij hi hj
    cases i with
    | zero =>
      simp only [List.getElem?_cons_zero, Option.some.injEq] at hi
      subst hi
      obtain ⟨k, rfl⟩ : ∃ k, j = k + 1 := ⟨j - 1, by omega⟩
      simp only [List.getElem?_cons_succ] at hj
      simpa using set_cons_perm t k y b hj
    | succ m =>
      obtain ⟨k, rfl⟩ : ∃ k, j = k + 1 := ⟨j - 1, by omega⟩
      simp only [List.getElem?_cons_succ] at hi hj
      simpa using List.Perm.cons y (ih m k a b (by omega) hi hj)

/-- Swapping two distinct positions of a list is a permutation. -/
theorem set_set_perm {α : Type} (l : List α) (i j : ℕ) (a b : α) (hij : i ≠ j)
    (hi : l[i]? = some a) (hj : l[j]? = some b) : ((l.set i b).set j a).Perm l := by
  rcases Nat.lt_or_ge i j with h | h
  · exact set_set_perm_lt l i j a b h hi hj
  · have h2 : j < i := by omega
    rw [List.set_comm _ _ _ (by omega)]
    exact set_set_perm_lt l j i b a h2 hj hi

/-- `siftUp` only swaps elements. -/
theorem siftUpF_perm : ∀ (fuel : ℕ) (l : List BookEntry) (pos : ℕ),
    (siftUpF l pos fuel).Perm l := by
  intro fuel
  induction fuel with
  | zero => intro l pos; rw [siftUpF]
  | succ n ih =>
    intro l pos
    rw [siftUpF]
    by_cases hpos : pos = 0
    · rw [if_pos hpos]
    · rw [if_neg hpos]
      split
      · rename_i x p hx hp
        split
        · exact (ih _ _).trans (set_set_perm l pos ((pos - 1) / 2) x p
            (by have := Nat.div_le_self (pos - 1) 2; omega) hx hp)
        · exact List.Perm.refl l
      · exact List.Perm.refl l

theorem siftUp_perm (l : List BookEntry) (pos : ℕ) : (siftUp l pos).Perm l :=
  siftUpF_perm pos l pos

/-- `heappush` permutes to consing the new entry. -/
theorem heappush_perm (l : List BookEntry) (e : BookEntry) :
    (heappush l e).Perm (e :: l) :=
  (siftUp_perm _ _).trans (List.perm_append_singleton e l)

theorem pickChild_gt (l : List BookEntry) (pos : ℕ) : pos < pickChild l pos := by
  unfold pickChild
  split
  · split <;> omega
  · omega

/-- `siftDownF` only swaps elements. -/
theorem siftDownF_perm : ∀ (fuel : ℕ) (l : List BookEntry) (pos : ℕ),
    (siftDownF l pos fuel).Perm l := by
  intro fuel
  induction fuel with
  | zero => intro l pos; rw [siftDownF]
  | succ n ih =>
    intro l pos
    rw [siftDownF]
    split
    · rename_i x ec hx hc
      split
      · exact (ih _ _).trans
          (set_set_perm l pos (pickChild l pos) x ec (Nat.ne_of_lt (pickChild_gt l pos)) hx hc)
      · exact List.Perm.refl l
    · exact List.Perm.refl l

theorem siftDown_perm (l : List BookEntry) (pos : ℕ) : (siftDown l pos).Perm l :=
  siftDownF_perm l.length l pos

/-- `heappop` returns the root. -/
theorem heappop_fst : ∀ (l : List BookEntry), (heappop l).1 = l.head? := by
  intro l
  rcases l with _ | ⟨x, _ | ⟨y, ys⟩⟩ <;> rfl

/-- `heappop` keeps a permutation of the tail. -/
theorem heappop_snd_perm : ∀ (l : List BookEntry), (heappop l).2.Perm l.tail := by
  intro l
  rcases l with _ | ⟨x, t⟩
  · exact List.Perm.refl _
  rcases t with _ | ⟨y, ys⟩
  · exact List.Perm.refl _
  have h0 : y :: ys ≠ [] := List.cons_ne_nil y ys
  have key : (((x :: y :: ys).getLast (by simp)) :: (y :: ys).dropLast).Perm (y :: ys) := by
    rw [List.getLast_cons h0]
    refine List.Perm.trans (List.perm_append_singleton _ _).symm ?_
    rw [List.dropLast_append_getLast h0]
  exact (siftDown_perm _ _).trans key

theorem heappop_length (l : List BookEntry) :
    (heappop l).2.length = l.length - 1 := by
  have h2 := (heappop_snd_perm l).length_eq
  simp only [List.length_tail] at h2
  exact h2

end AIVerse

namespace AIVerse

/-- The status test `best_bid` / `best_ask` performs through the shared
order store. -/
def entryPending (orders : Dict Order) (e : BookEntry) : Bool :=
  match orders.get? e.oid with
  | some o => o.status = .pending
  | none => false

/-- A best-of-side lookup removes only non-PENDING entries: the original
list is a permutation of the result plus removed non-pending entries. -/
theorem bestOfF_spec (orders : Dict Order) : ∀ (fuel : ℕ) (l : List BookEntry),
    l.length ≤ fuel →
    ∃ removed, l.Perm ((bestOfF orders l fuel).2 ++ removed) ∧
      ∀ e ∈ removed, entryPending orders e = false := by
  intro fuel
  induction fuel with
  | zero =>
    intro l hl
    have h0 : l = [] := List.length_eq_zero.1 (Nat.le_zero.1 hl)
    subst h0
    exact ⟨[], by simp [bestOfF], by simp⟩
  | succ n ih =>
    intro l hl
    match l with
    | [] => exact ⟨[], by simp [bestOfF], by simp⟩
    | e :: rest =>
      simp only [bestOfF]
      rcases hlook : orders.get? e.oid with _ | o
      · have hperm := heappop_snd_perm (e :: rest)
        have hlen : (heappop (e :: rest)).2.length ≤ n := by
          have hp2 := heappop_length (e :: rest)
          simp only [List.length_cons] at hp2 hl
          omega
        obtain ⟨rem, hp, hforall⟩ := ih (heappop (e :: rest)).2 hlen
        refine ⟨e :: rem, ?_, ?_⟩
        · refine List.Perm.trans (List.Perm.cons e ((List.Perm.trans hperm.symm hp : _))) ?_
          exact List.perm_middle.symm
        · intro e' he'
          rcases List.mem_cons.1 he' with h | h
          · subst h; simp [entryPending, hlook]
          · exact hforall e' h
      · by_cases hst : o.status = OrderStatus.pending
        · refine ⟨[], ?_, by simp⟩
          simp [hst]
        · have hperm := heappop_snd_perm (e :: rest)
          have hlen : (heappop (e :: rest)).2.length ≤ n := by
            have hp2 := heappop_length (e :: rest)
            simp only [List.length_cons] at hp2 hl
            omega
          obtain ⟨rem, hp, hforall⟩ := ih (heappop (e :: rest)).2 hlen
          refine ⟨e :: rem, ?_, ?_⟩
          · simp only [if_neg hst]
            refine List.Perm.trans (List.Perm.cons e ((List.Perm.trans hperm.symm hp : _))) ?_
            exact List.perm_middle.symm
          · intro e' he'
            rcases List.mem_cons.1 he' with h | h
            · subst h; simp [entryPending, hlook, hst]
            · exact hforall e' h

/-- A best-of-side lookup returns `none` exactly when no entry of the
list refers to a PENDING order. -/
theorem bestOfF_none_iff (orders : Dict Order) : ∀ (fuel : ℕ) (l : List BookEntry),
    l.length ≤ fuel →
    ((bestOfF orders l fuel).1 = none ↔ ∀ e ∈ l, entryPending orders e = false) := by
  intro fuel
  induction fuel with
  | zero =>
    intro l hl
    have h0 : l = [] := List.length_eq_zero.1 (Nat.le_zero.1 hl)
    subst h0
    simp [bestOfF]
  | succ n ih =>
    intro l hl
    match l with
    | [] => simp [bestOfF]
    | e :: rest =>
      simp only [bestOfF]
      have hlen : (heappop (e :: rest)).2.length ≤ n := by
        have hp2 := heappop_length (e :: rest)
        simp only [List.length_cons] at hp2 hl
        omega
      have hmem : ∀ e', e' ∈ (heappop (e :: rest)).2 ↔ e' ∈ rest := by
        intro e'
        exact (heappop_snd_perm (e :: rest)).mem_iff
      rcases hlook : orders.get? e.oid with _ | o
      · rw [ih _ hlen]
        constructor
        · intro hall e' he'
          rcases List.mem_cons.1 he' with h | h
          · subst h; simp [entryPending, hlook]
          · exact hall e' ((hmem e').2 h)
        · intro hall e' he'
          exact hall e' (List.mem_cons_of_mem e ((hmem e').1 he'))
      · by_cases hst : o.status = OrderStatus.pending
        · simp only [if_pos hst]
          constructor
          · intro h; exact absurd h (by simp)
          · intro hall
            have := hall e (List.mem_cons_self e rest)
            simp [entryPending, hlook, hst] at this
        · simp only [if_neg hst]
          rw [ih _ hlen]
          constructor
          · intro hall e' he'
            rcases List.mem_cons.1 he' with h | h
            · subst h; simp [entryPending, hlook, hst]
            · exact hall e' ((hmem e').2 h)
          · intro hall e' he'
            exact hall e' (List.mem_cons_of_mem e ((hmem e').1 he'))

/-- When a best-of-side lookup returns an order, that order is PENDING
and sits (by reference) at the head of the resulting list. -/
theorem bestOfF_some_shape (orders : Dict Order) : ∀ (fuel : ℕ) (l l₂ : List BookEntry)
    (o : Order), bestOfF orders l fuel = (some o, l₂) →
    o.status = .pending ∧ ∃ e rest, l₂ = e :: rest ∧ orders.get? e.oid = some o := by
  intro fuel
  induction fuel with
  | zero =>
    intro l l₂ o h
    simp [bestOfF] at h
  | succ n ih =>
    intro l l₂ o h
    match l with
    | [] => simp [bestOfF] at h
    | e :: rest =>
      simp only [bestOfF] at h
      rcases hlook : orders.get? e.oid with _ | o'
      · rw [hlook] at h
        exact ih _ _ _ h
      · rw [hlook] at h
        dsimp only at h
        by_cases hst : o'.status = OrderStatus.pending
        · rw [if_pos hst] at h
          have h1 : some o' = some o := congrArg Prod.fst h
          have h2 : e :: rest = l₂ := congrArg Prod.snd h
          cases Option.some.injEq .. ▸ h1
          exact ⟨hst, e, rest, h2.symm, hlook⟩
        · rw [if_neg hst] at h
          exact ih _ _ _ h

/-- Re-running a best-of-side lookup on its own output returns the same
order and leaves the list unchanged. -/
theorem bestOf_head_pending (orders : Dict Order) (e : BookEntry) (rest : List BookEntry)
    (o : Order) (hlook : orders.get? e.oid = some o) (hp : o.status = .pending) :
    bestOf orders (e :: rest) = (some o, e :: rest) := by
  simp [bestOf, bestOfF, hlook, hp]

end AIVerse

namespace AIVerse

/-! ### Heap ordering -/

/-- The weak ordering on heap entry keys (reflexive closure of the strict
lexicographic order that `entryLT` decides). -/
def heapLE (a b : BookEntry) : Prop :=
  a.key1 < b.key1 ∨ (a.key1 = b.key1 ∧ a.key2 ≤ b.key2)

theorem heapLE_refl (a : BookEntry) : heapLE a a := Or.inr ⟨rfl, le_refl _⟩

theorem heapLE_trans {a b c : BookEntry} (h1 : heapLE a b) (h2 : heapLE b c) : heapLE a c := by
  rcases h1 with h1 | ⟨h1, h1'⟩ <;> rcases h2 with h2 | ⟨h2, h2'⟩
  · exact Or.inl (h1.trans h2)
  · exact Or.inl (h2 ▸ h1)
  · exact Or.inl (h1 ▸ h2)
  · exact Or.inr ⟨h1.trans h2, h1'.trans h2'⟩

theorem heapLE_of_lt {a b : BookEntry} (h : entryLT a b = true) : heapLE a b := by
  simp only [entryLT, Bool.or_eq_true, Bool.and_eq_true, decide_eq_true_eq] at h
  rcases h with h | ⟨h1, h2⟩
  · exact Or.inl h
  · exact Or.inr ⟨h1, le_of_lt h2⟩

theorem heapLE_of_not_lt {a b : BookEntry} (h : ¬ entryLT a b = true) : heapLE b a := by
  simp only [entryLT, Bool.or_eq_true, Bool.and_eq_true, decide_eq_true_eq, not_or,
    not_and] at h
  obtain ⟨h1, h2⟩ := h
  rcases lt_trichotomy a.key1 b.key1 with hlt | heq | hgt
  · exact absurd hlt h1
  · exact Or.inr ⟨heq.symm, not_lt.1 (h2 heq)⟩
  · exact Or.inl hgt

theorem getElem?_some_lt {α : Type} {l : List α} {i : ℕ} {a : α}
    (h : l[i]? = some a) : i < l.length := by
  by_contra hc
  rw [List.getElem?_eq_none (Nat.le_of_not_lt hc)] at h
  exact Option.noConfusion h

/-- The binary-heap invariant of a heapq list: every parent is
`heapLE`-below its children (children of slot `i` sit at `2i+1`, `2i+2`). -/
def heapProp (l : List BookEntry) : Prop :=
  ∀ i j : ℕ, (j = 2 * i + 1 ∨ j = 2 * i + 2) →
    ∀ a b : BookEntry, l[i]? = some a → l[j]? = some b → heapLE a b

/-- In a heap the root is below every element. -/
theorem heapProp_root_min {l : List BookEntry} (hp : heapProp l) {r : BookEntry}
    (hr : l[0]? = some r) : ∀ (i : ℕ) (a : BookEntry), l[i]? = some a → heapLE r a := by
  intro i
  induction i using Nat.strong_induction_on with
  | _ i ih =>
    intro a ha
    rcases Nat.eq_zero_or_pos i with rfl | hi
    · rw [hr] at ha
      cases ha
      exact heapLE_refl r
    · have hpar : (i - 1) / 2 < i := by
        have := Nat.div_le_self (i - 1) 2
        omega
      have hchild : i = 2 * ((i - 1) / 2) + 1 ∨ i = 2 * ((i - 1) / 2) + 2 := by omega
      have hplen : (i - 1) / 2 < l.length := lt_trans hpar (getElem?_some_lt ha)
      obtain ⟨p, hpsome⟩ : ∃ p, l[(i - 1) / 2]? = some p :=
        ⟨_, List.getElem?_eq_getElem hplen⟩
      exact heapLE_trans (ih _ hpar _ hpsome) (hp _ i hchild _ _ hpsome ha)

theorem getElem?_none_le {α : Type} {l : List α} {i : ℕ}
    (h : l[i]? = none) : l.length ≤ i := by
  by_contra hc
  rw [List.getElem?_eq_getElem (Nat.lt_of_not_le hc)] at h
  exact Option.noConfusion h

/-- The picked child is below both children. -/
theorem pickChild_le (l : List BookEntry) (pos : ℕ) (ec : BookEntry)
    (hc : l[pickChild l pos]? = some ec) :
    ∀ j, (j = 2 * pos + 1 ∨ j = 2 * pos + 2) → ∀ b, l[j]? = some b → heapLE ec b := by
  intro j hj b hb
  rcases h1 : l[2 * pos + 1]? with _ | e1
  · exfalso
    have hlen := getElem?_some_lt hb
    have hnone := getElem?_none_le h1
    omega
  · rcases h2 : l[2 * pos + 2]? with _ | e2
    · have hcc : pickChild l pos = 2 * pos + 1 := by simp [pickChild, h1, h2]
      rw [hcc, h1] at hc
      simp only [Option.some.injEq] at hc
      subst hc
      rcases hj with rfl | rfl
      · rw [h1] at hb
        simp only [Option.some.injEq] at hb
        subst hb
        exact heapLE_refl _
      · rw [h2] at hb
        exact Option.noConfusion hb
    · cases hpick : entryLT e1 e2
      · have hcc : pickChild l pos = 2 * pos + 2 := by simp [pickChild, h1, h2, hpick]
        rw [hcc, h2] at hc
        simp only [Option.some.injEq] at hc
        subst hc
        have hle : heapLE e2 e1 := heapLE_of_not_lt (by simp [hpick])
        rcases hj with rfl | rfl
        · rw [h1] at hb
          simp only [Option.some.injEq] at hb
          subst hb
          exact hle
        · rw [h2] at hb
          simp only [Option.some.injEq] at hb
          subst hb
          exact heapLE_refl _
      · have hcc : pickChild l pos = 2 * pos + 1 := by simp [pickChild, h1, h2, hpick]
        rw [hcc, h1] at hc
        simp only [Option.some.injEq] at hc
        subst hc
        have hle : heapLE e1 e2 := heapLE_of_lt hpick
        rcases hj with rfl | rfl
        · rw [h1] at hb
          simp only [Option.some.injEq] at hb
          subst hb
          exact heapLE_refl _
        · rw [h2] at hb
          simp only [Option.some.injEq] at hb
          subst hb
          exact hle

/-- The heap property with the slot `pos` exempted as a parent, plus the
grandparent link: what holds right after the root replacement in
`heappop`, and what `siftDownF` maintains while descending. -/
def heapPropExcept (l : List BookEntry) (pos : ℕ) : Prop :=
  (∀ i j : ℕ, (j = 2 * i + 1 ∨ j = 2 * i + 2) → i ≠ pos →
    ∀ a b : BookEntry, l[i]? = some a → l[j]? = some b → heapLE a b) ∧
  (pos ≠ 0 → ∀ j, (j = 2 * pos + 1 ∨ j = 2 * pos + 2) →
    ∀ a b : BookEntry, l[(pos - 1) / 2]? = some a → l[j]? = some b → heapLE a b)

end AIVerse

namespace AIVerse

theorem pickChild_mem (l : List BookEntry) (pos : ℕ) :
    pickChild l pos = 2 * pos + 1 ∨ pickChild l pos = 2 * pos + 2 := by
  rcases h1 : l[2 * pos + 1]? with _ | e1 <;> rcases h2 : l[2 * pos + 2]? with _ | e2 <;>
      simp only [pickChild, h1, h2] <;> simp

theorem pickChild_none (l : List BookEntry) (pos : ℕ)
    (hc : l[pickChild l pos]? = none) :
    ∀ j, (j = 2 * pos + 1 ∨ j = 2 * pos + 2) → l[j]? = none := by
  intro j hj
  rcases h1 : l[2 * pos + 1]? with _ | e1
  · have := getElem?_none_le h1
    exact List.getElem?_eq_none (by omega)
  · exfalso
    rcases h2 : l[2 * pos + 2]? with _ | e2
    · have hcc : pickChild l pos = 2 * pos + 1 := by simp [pickChild, h1, h2]
      rw [hcc, h1] at hc
      exact Option.noConfusion hc
    · rcases pickChild_mem l pos with hcc | hcc <;> rw [hcc] at hc
      · rw [h1] at hc; exact Option.noConfusion hc
      · rw [h2] at hc; exact Option.noConfusion hc

/-- Percolating down restores the heap property. -/
theorem siftDownF_heapProp : ∀ (fuel : ℕ) (l : List BookEntry) (pos : ℕ),
    l.length - pos ≤ fuel → heapPropExcept l pos →
    heapProp (siftDownF l pos fuel) := by
  intro fuel
  induction fuel with
  | zero =>
    intro l pos hfuel hpe
    rw [siftDownF]
    intro i j hj a b ha hb
    rcases eq_or_ne i pos with rfl | hne
    · have := getElem?_some_lt ha
      omega
    · exact hpe.1 i j hj hne a b ha hb
  | succ n ih =>
    intro l pos hfuel hpe
    rw [siftDownF]
    rcases hx : l[pos]? with _ | x
    · -- slot pos out of range: nothing to do
      intro i j hj a b ha hb
      rcases eq_or_ne i pos with rfl | hne
      · rw [hx] at ha; exact Option.noConfusion ha
      · exact hpe.1 i j hj hne a b ha hb
    rcases hc : l[pickChild l pos]? with _ | ec
    · -- no children: pos is a leaf
      intro i j hj a b ha hb
      rcases eq_or_ne i pos with rfl | hne
      · rw [pickChild_none l i hc j hj] at hb
        exact Option.noConfusion hb
      · exact hpe.1 i j hj hne a b ha hb
    dsimp only
    by_cases hlt : entryLT ec x = true
    · -- swap and recurse
      rw [if_pos hlt]
      set child := pickChild l pos with hchild_def
      have hchild_gt : pos < child := pickChild_gt l pos
      have hchild_mem := pickChild_mem l pos
      have hpos_lt : pos < l.length := getElem?_some_lt hx
      have hchild_lt : child < l.length := getElem?_some_lt hc
      set l2 := (l.set pos ec).set child x with hl2_def
      have hget : ∀ k : ℕ, l2[k]? = if k = child then some x
          else if k = pos then some ec else l[k]? := by
        intro k
        simp only [hl2_def, List.getElem?_set, List.length_set]
        by_cases h1 : child = k
        · subst h1
          simp [hchild_lt]
        · by_cases h2 : pos = k
          · subst h2
            simp [Ne.symm h1, h1, hpos_lt]
          · simp [h1, h2, Ne.symm h1, Ne.symm h2]
      have hlen2 : l2.length = l.length := by simp [hl2_def]
      refine ih l2 child (by omega) ⟨?_, ?_⟩
      · -- heap property away from child
        intro i j hj hne a b ha hb
        rcases eq_or_ne i pos with rfl | hnep
        · -- i = pos: its children are child and the sibling
          rw [hget, if_neg (by omega), if_pos rfl] at ha
          cases ha
          rcases eq_or_ne j child with rfl | hnejc
          · rw [hget, if_pos rfl] at hb
            cases hb
            exact heapLE_of_lt hlt
          · rw [hget, if_neg hnejc, if_neg (by omega)] at hb
            exact pickChild_le l i ec hc j hj b hb
        · -- i is neither pos nor child
          rw [hget, if_neg hne, if_neg hnep] at ha
          rcases eq_or_ne j pos with rfl | hnejp
          · -- i is the parent of pos
            rw [hget, if_neg (by omega), if_pos rfl] at hb
            cases hb
            have hp0 : j ≠ 0 := by omega
            have hip : i = (j - 1) / 2 := by omega
            exact hpe.2 hp0 child (hchild_def ▸ hchild_mem) a ec (hip ▸ ha) hc
          · rcases eq_or_ne j child with rfl | hnejc
            · -- then i would have to be pos
              exfalso
              omega
            · rw [hget, if_neg hnejc, if_neg hnejp] at hb
              exact hpe.1 i j hj hnep a b ha hb
      · -- grandparent link through child
        intro hc0 j hj a b ha hb
        have hip : (child - 1) / 2 = pos := by omega
        rw [hip, hget, if_neg (by omega), if_pos rfl] at ha
        cases ha
        rw [hget, if_neg (by omega), if_neg (by omega)] at hb
        exact hpe.1 child j hj (by omega) ec b hc hb
    · -- already in place
      rw [if_neg hlt]
      intro i j hj a b ha hb
      rcases eq_or_ne i pos with rfl | hne
      · rw [hx] at ha
        cases ha
        refine heapLE_trans (heapLE_of_not_lt hlt) ?_
        exact pickChild_le l i ec hc j hj b hb
      · exact hpe.1 i j hj hne a b ha hb

end AIVerse

namespace AIVerse

/-- Popping the root of a heap leaves a heap. -/
theorem heapProp_heappop (l : List BookEntry) (hp : heapProp l) :
    heapProp (heappop l).2 := by
  rcases l with _ | ⟨x, t⟩
  · intro i j hj a b ha hb
    simp [heappop] at ha
  rcases t with _ | ⟨y, ys⟩
  · intro i j hj a b ha hb
    simp [heappop] at ha
  have hlen : ∀ k : ℕ, 1 ≤ k →
      ((((x :: y :: ys).getLast (by simp)) :: (y :: ys).dropLast))[k]? =
      if k < (x :: y :: ys).length - 1 then (x :: y :: ys)[k]? else none := by
    intro k hk
    obtain ⟨k', rfl⟩ : ∃ k', k = k' + 1 := ⟨k - 1, by omega⟩
    simp only [List.getElem?_cons_succ, List.getElem?_dropLast, List.length_cons]
    by_cases hcl : k' < ys.length + 1 - 1
    · rw [if_pos hcl, if_pos (by omega)]
    · rw [if_neg hcl, if_neg (by omega)]
  show heapProp (siftDown _ 0)
  refine siftDownF_heapProp _ _ 0 (by omega) ⟨?_, ?_⟩
  · intro i j hj hne a b ha hb
    have hi1 : 1 ≤ i := Nat.one_le_iff_ne_zero.2 hne
    have hj1 : 1 ≤ j := by omega
    rw [hlen i hi1] at ha
    rw [hlen j hj1] at hb
    split at ha
    · split at hb
      · exact hp i j hj a b ha hb
      · exact Option.noConfusion hb
    · exact Option.noConfusion ha
  · intro h0
    exact absurd rfl h0

/-- The heap-facing part of the best-of-side lookup: on a well-formed
heap, the order returned is referenced by an entry that is
`heapLE`-minimal among all entries of the list that refer to PENDING
orders, and the resulting list is again a heap. -/
theorem bestOfF_min (orders : Dict Order) : ∀ (fuel : ℕ) (l l₂ : List BookEntry) (o : Order),
    heapProp l → l.length ≤ fuel → bestOfF orders l fuel = (some o, l₂) →
    heapProp l₂ ∧ ∃ e rest, l₂ = e :: rest ∧ orders.get? e.oid = some o ∧
      (∀ e' ∈ l, entryPending orders e' = true → heapLE e e') := by
  intro fuel
  induction fuel with
  | zero =>
    intro l l₂ o hp hl h
    simp [bestOfF] at h
  | succ n ih =>
    intro l l₂ o hp hl h
    match l with
    | [] => simp [bestOfF] at h
    | e :: rest =>
      simp only [bestOfF] at h
      have hpop : heapProp (heappop (e :: rest)).2 := heapProp_heappop _ hp
      have hlen : (heappop (e :: rest)).2.length ≤ n := by
        have hp2 := heappop_length (e :: rest)
        simp only [List.length_cons] at hp2 hl
        omega
      have hmem : ∀ e', e' ∈ (heappop (e :: rest)).2 ↔ e' ∈ rest :=
        fun e' => (heappop_snd_perm (e :: rest)).mem_iff
      rcases hlook : orders.get? e.oid with _ | o'
      · rw [hlook] at h
        obtain ⟨h1, e2, rest2, h2, h3, h4⟩ := ih _ _ _ hpop hlen h
        refine ⟨h1, e2, rest2, h2, h3, ?_⟩
        intro e' he' hpend
        rcases List.mem_cons.1 he' with rfl | hmem'
        · simp [entryPending, hlook] at hpend
        · exact h4 e' ((hmem e').2 hmem') hpend
      · rw [hlook] at h
        dsimp only at h
        by_cases hst : o'.status = OrderStatus.pending
        · rw [if_pos hst] at h
          have h1 : some o' = some o := congrArg Prod.fst h
          have h2 : e :: rest = l₂ := congrArg Prod.snd h
          simp only [Option.some.injEq] at h1
          subst h1
          refine ⟨h2 ▸ hp, e, rest, h2.symm, hlook, ?_⟩
          intro e' he' _
          obtain ⟨k, hk⟩ := List.getElem?_of_mem he'
          exact heapProp_root_min hp List.getElem?_cons_zero k e' hk
        · rw [if_neg hst] at h
          obtain ⟨h1, e2, rest2, h2, h3, h4⟩ := ih _ _ _ hpop hlen h
          refine ⟨h1, e2, rest2, h2, h3, ?_⟩
          intro e' he' hpend
          rcases List.mem_cons.1 he' with rfl | hmem'
          · simp [entryPending, hlook, hst] at hpend
          · exact h4 e' ((hmem e').2 hmem') hpend

end AIVerse

namespace AIVerse

theorem heapProp_nil : heapProp [] := by
  intro i j hj a b ha hb
  simp at ha

theorem heapProp_singleton (e : BookEntry) : heapProp [e] := by
  intro i j hj a b ha hb
  have hjl := getElem?_some_lt hb
  simp only [List.length_singleton] at hjl
  omega

/-- Claim C9.  For every order book and shared order store whose side
list is a valid heapq heap, `best_bid` / `best_ask`: (a) return only an
order whose status is PENDING, referenced by the head entry of the
resulting list, and that entry is minimal in the heap order (for bids
the key is `(-price, created_at)`, so minimal means highest price, then
earliest time; for asks lowest price, then earliest time) among all
entries of the side that refer to PENDING orders; (b) return `none`
exactly when no entry of the side refers to a PENDING order; (c) remove
only entries whose referenced status is not PENDING, so the multiset of
PENDING-referencing entries of the side is invariant under the lookup,
and the other side is untouched. -/
theorem claim_C9 (orders : Dict Order) (b : OrderBook)
    (hbids : heapProp b.bids) (hasks : heapProp b.asks) :
    ((∀ o : Order, (b.best_bid orders).1 = some o → o.status = .pending ∧
        ∃ e rest, ((b.best_bid orders).2).bids = e :: rest ∧
          orders.get? e.oid = some o ∧
          ∀ e' ∈ b.bids, entryPending orders e' = true → heapLE e e') ∧
      ((b.best_bid orders).1 = none → ∀ e ∈ b.bids, entryPending orders e = false) ∧
      (∃ removed, b.bids.Perm (((b.best_bid orders).2).bids ++ removed) ∧
        ∀ e ∈ removed, entryPending orders e = false) ∧
      (((b.best_bid orders).2).bids.filter (entryPending orders)).Perm
        (b.bids.filter (entryPending orders)) ∧
      ((b.best_bid orders).2).asks = b.asks) ∧
    ((∀ o : Order, (b.best_ask orders).1 = some o → o.status = .pending ∧
        ∃ e rest, ((b.best_ask orders).2).asks = e :: rest ∧
          orders.get? e.oid = some o ∧
          ∀ e' ∈ b.asks, entryPending orders e' = true → heapLE e e') ∧
      ((b.best_ask orders).1 = none → ∀ e ∈ b.asks, entryPending orders e = false) ∧
      (∃ removed, b.asks.Perm (((b.best_ask orders).2).asks ++ removed) ∧
        ∀ e ∈ removed, entryPending orders e = false) ∧
      (((b.best_ask orders).2).asks.filter (entryPending orders)).Perm
        (b.asks.filter (entryPending orders)) ∧
      ((b.best_ask orders).2).bids = b.bids) := by
  have main : ∀ l : List BookEntry, heapProp l →
      (∀ o : Order, (bestOf orders l).1 = some o → o.status = .pending ∧
        ∃ e rest, (bestOf orders l).2 = e :: rest ∧ orders.get? e.oid = some o ∧
          ∀ e' ∈ l, entryPending orders e' = true → heapLE e e') ∧
      ((bestOf orders l).1 = none → ∀ e ∈ l, entryPending orders e = false) ∧
      (∃ removed, l.Perm ((bestOf orders l).2 ++ removed) ∧
        ∀ e ∈ removed, entryPending orders e = false) ∧
      ((bestOf orders l).2.filter (entryPending orders)).Perm
        (l.filter (entryPending orders)) := by
    intro l hl
    refine ⟨?_, ?_, ?_, ?_⟩
    · intro o ho
      have hsplit : bestOf orders l = ((bestOf orders l).1, (bestOf orders l).2) := rfl
      rw [ho] at hsplit
      obtain ⟨h1, e, rest, h2, h3, h4⟩ :=
        bestOfF_min orders l.length l (bestOf orders l).2 o hl (le_refl _) hsplit
      exact ⟨(bestOfF_some_shape orders l.length l _ o hsplit).1, e, rest, h2, h3, h4⟩
    · intro ho
      exact (bestOfF_none_iff orders l.length l (le_refl _)).1 ho
    · exact bestOfF_spec orders l.length l (le_refl _)
    · obtain ⟨removed, hperm, hrem⟩ := bestOfF_spec orders l.length l (le_refl _)
      have h1 := (hperm.filter (entryPending orders)).symm
      rw [List.filter_append] at h1
      have h2 : removed.filter (entryPending orders) = [] :=
        List.filter_eq_nil_iff.2 (fun a haa => by simp [hrem a haa])
      rw [h2, List.append_nil] at h1
      exact h1
  obtain ⟨b1, b2, b3, b4⟩ := main b.bids hbids
  obtain ⟨a1, a2, a3, a4⟩ := main b.asks hasks
  exact ⟨⟨b1, b2, b3, b4, rfl⟩, ⟨a1, a2, a3, a4, rfl⟩⟩

/-- Concrete instantiation of claim C9: a one-entry bid heap returning
its PENDING order. -/
theorem claim_C9_witness :
    ((⟨"XYZ", [⟨-10, 1, "o1"⟩], []⟩ : OrderBook).best_bid
        [("o1", { id := "o1", price := some 10 : Order })]).1 =
      some { id := "o1", price := some 10 : Order } ∧
    ({ id := "o1", price := some 10 : Order } : Order).status = .pending := by
  constructor
  · rfl
  · exact (((claim_C9 [("o1", { id := "o1", price := some 10 : Order })]
      (⟨"XYZ", [⟨-10, 1, "o1"⟩], []⟩ : OrderBook)
      (heapProp_singleton _) heapProp_nil).1.1)
      { id := "o1", price := some 10 : Order } (by rfl)).1

end AIVerse

namespace AIVerse

/-! ### Explicit-exception variants (claim C6)

The total embedding above silently totalizes two places where CPython
raises.  The following variants return `none` exactly where the source
raises, and agree with the total model everywhere else. -/

/-- Python comparison of two heap entries made partial: on a full
`(price, timestamp)` key tie, CPython falls through to comparing the
`Order` dataclasses, which define no `<`, and raises `TypeError`. -/
def entryLT_exc (a b : BookEntry) : Option Bool :=
  if a.key1 = b.key1 ∧ a.key2 = b.key2 then none else some (entryLT a b)

def siftUpF_exc (l : List BookEntry) (pos : ℕ) : ℕ → Option (List BookEntry)
  | 0 => some l
  | fuel+1 =>
    if pos = 0 then some l
    else
      match l[pos]?, l[(pos - 1) / 2]? with
      | some x, some p =>
          match entryLT_exc x p with
          | none => none
          | some true => siftUpF_exc ((l.set pos p).set ((pos - 1) / 2) x) ((pos - 1) / 2) fuel
          | some false => some l
      | _, _ => some l

def heappush_exc (l : List BookEntry) (e : BookEntry) : Option (List BookEntry) :=
  siftUpF_exc (l ++ [e]) l.length l.length

/-- `OrderBook.add_order` with its `TypeError`s explicit: a `None` price
(`-None` fails) and a heap-comparison key tie. -/
def OrderBook.add_order_exc (b : OrderBook) (o : Order) : Option OrderBook :=
  match o.price with
  | none => none
  | some p =>
    let e : BookEntry :=
      { key1 := if o.side = .buy then -p else p, key2 := o.created_at, oid := o.id }
    if o.side = .buy then (heappush_exc b.bids e).map (fun l => { b with bids := l })
    else (heappush_exc b.asks e).map (fun l => { b with asks := l })

/-- `Exchange._get_market_price` with the `KeyError` raised by
`self.companies[ticker]` explicit. -/
def Exchange.get_market_price_exc (s : Exchange) (ticker : String) (side : OrderSide) :
    Option (ℚ × Exchange) :=
  match s.order_books.get? ticker with
  | none => (s.companies.get? ticker).map (fun c => (c.share_price, s))
  | some book =>
    if side = .buy then
      let r := book.best_ask s.orders
      let s1 := { s with order_books := s.order_books.set ticker r.2 }
      match r.1 with
      | some a => some (a.price.getD 0, s1)
      | none => (s1.companies.get? ticker).map (fun c => (c.share_price, s1))
    else
      let r := book.best_bid s.orders
      let s1 := { s with order_books := s.order_books.set ticker r.2 }
      match r.1 with
      | some b => some (b.price.getD 0, s1)
      | none => (s1.companies.get? ticker).map (fun c => (c.share_price, s1))

/-- The tail of `submit_order` with the MARKET-path `KeyError`, the
book-indexing `KeyError` and the `add_order` `TypeError`s explicit
(`none` = uncaught exception escaping `submit_order`). -/
def Exchange.finishSubmit_exc (s : Exchange) (order : Order) (ticker : String) :
    Option (Option Order × Exchange) :=
  let s1 : Exchange := { s with orders := s.orders.set order.id order }
  if order.order_type = .market then
    match s1.orders.get? order.id with
    | none => some (s1.orders.get? order.id, s1)
    | some o =>
      match s1.get_market_price_exc o.ticker o.side with
      | none => none
      | some mp =>
        let s2 := mp.2.updateOrder order.id (fun o => { o with price := some mp.1 })
        let s3 := s2.match_order order.id
        let s4 := s3.updateOrder order.id (fun o =>
          if o.status = .pending then { o with status := .cancelled } else o)
        some (s4.orders.get? order.id, s4)
  else
    let s3 := s1.match_order order.id
    match s3.orders.get? order.id with
    | some o =>
      if o.status = .pending then
        match s3.order_books.get? ticker with
        | none => none
        | some bk =>
          (bk.add_order_exc o).map (fun b =>
            (let s4 : Exchange := { s3 with order_books := s3.order_books.set ticker b };
             (s4.orders.get? order.id, s4)))
      else some (s3.orders.get? order.id, s3)
    | none => some (s3.orders.get? order.id, s3)

/-- `Exchange.submit_order` with the uncaught exceptions explicit. -/
def Exchange.submit_order_exc (s : Exchange) (order : Order) :
    Option (Option Order × Exchange) :=
  match s.agents.get? order.agent_id with
  | none => some (none, s)
  | some agent =>
    let ticker := order.ticker.upper
    if (s.companies.get? ticker).isNone then some (none, s)
    else if order.side = .buy then
      match (if truthy order.price then some (order.price.getD 0, s)
             else s.get_market_price_exc ticker .buy) with
      | none => none
      | some ep =>
        if agent.balance < order.quantity * ep.1 then some (none, ep.2)
        else s.finishSubmit_exc order ticker
    else
      if ((agent.portfolio.get? ticker).getD 0) < order.quantity then some (none, s)
      else s.finishSubmit_exc order ticker

end AIVerse

namespace AIVerse

/-- A minimal exchange with agent `A` and listed company `CTX`, used by
claim C6. -/
def c6ex : Exchange :=
  { agents := [("A", { id := "A", name := "A", balance := 10000 })],
    companies := [("CTX", { id := "ctx", ticker := "CTX", name := "C", description := "",
                            founder_id := "A" })],
    order_books := [("CTX", { ticker := "CTX" })] }

def c6mkt (t : String) : Order :=
  { id := "m1", agent_id := "A", ticker := t, side := .buy,
    order_type := .market, quantity := 1, price := none, created_at := 1 }

def c6tie : Order :=
  { id := "y", agent_id := "A", ticker := "CTX", side := .sell, order_type := .limit,
    quantity := 1, price := some 5, created_at := 1 }

/-- Claim C6 (refuted; code bug).  The core does raise: (1) submitting a
MARKET BUY whose ticker is the lowercase form of a listed company passes
admission (which normalizes the ticker) but `_execute_market_order`
reads the market price for the RAW `order.ticker`, and
`self.companies["ctx"]` raises `KeyError`; (2) inserting a second
same-side order with equal price and equal `created_at` makes heapq
compare the two `Order` dataclasses and raises `TypeError`.  The same
MARKET order with the uppercase ticker goes through and returns a
domain result. -/
theorem claim_C6 :
    c6ex.submit_order_exc (c6mkt "ctx") = none ∧
    OrderBook.add_order_exc ⟨"CTX", [], [⟨5, 1, "x"⟩]⟩ c6tie = none ∧
    (c6ex.submit_order_exc (c6mkt "CTX")).isSome = true := by
  refine ⟨?_, ?_, ?_⟩ <;> decide

end AIVerse

namespace AIVerse

/-! ### Concrete scenarios -/

/-- The empty world (a fresh `AIVerse()`). -/
def w0 : World := {}

def mkOrder (oid aid t : String) (side : OrderSide) (ty : OrderType) (qty : ℚ)
    (price : Option ℚ) (ts : ℚ) : Order :=
  { id := oid, agent_id := aid, ticker := t, side := side, order_type := ty,
    quantity := qty, price := price, created_at := ts }

/-- Claim C1 counterexample trace: founder S creates TKR (receiving all
1,000,000 shares), posts two resting SELL LIMIT orders of 1,000,000 each
(the holdings check passes both times: it never accounts for resting
sells), and both fill against buyers. -/
def opsC1 : List Op :=
  [.register "S" "S" 10000, .register "B1" "B1" 1000000, .register "B2" "B2" 1000000,
   .create "S" "TKR" "T" "d" "generic" 1,
   .submit (mkOrder "s1" "S" "TKR" .sell .limit 1000000 (some 1) 1),
   .submit (mkOrder "s2" "S" "TKR" .sell .limit 1000000 (some 1) 2),
   .submit (mkOrder "b1" "B1" "TKR" .buy .limit 1000000 (some 1) 3),
   .submit (mkOrder "b2" "B2" "TKR" .buy .limit 1000000 (some 1) 4)]

/-- Claim C1 as stated is false: after `opsC1` — a legal sequence of
`submit_order` calls after the company's creation, with no bankruptcy —
the shares held across all agents sum to 2,000,000 while `total_shares`
is 1,000,000.  The deletion of the seller's portfolio entry when it
drops `≤ 0` silently discards the negative balance, minting shares. -/
theorem claim_C1_counterexample :
    World.safeRun w0 opsC1 = true ∧
    sumShares (w0.run opsC1).exchange "TKR" = 2000000 ∧
    ((w0.run opsC1).exchange.companies.get? "TKR").map Company.total_shares =
      some 1000000 ∧
    ((w0.run opsC1).exchange.companies.get? "TKR").map
      (fun c => decide (c.status = .bankrupt)) = some false := by
  refine ⟨?_, ?_, ?_, ?_⟩ <;> decide

/-- Claim C2 counterexample trace: A's resting BUY LIMIT 100 @ 10 passes
admission with balance 1,000; A then spends 600 on a service; when S
sells into the resting bid, settlement debits 1,000 from a balance of
400. -/
def opsC2 : List Op :=
  [.register "S" "S" 10000, .register "A" "A" 1000,
   .create "S" "SRV" "Srv" "d" "generic" 600,
   .submit (mkOrder "b1" "A" "SRV" .buy .limit 100 (some 10) 1),
   .use "A" "SRV",
   .submit (mkOrder "s1" "S" "SRV" .sell .limit 100 (some 10) 2)]

/-- Claim C2 as stated is false: after `opsC2` agent A's balance is
−600 < 0.  The engine checks solvency only at admission and does not
escrow cash for resting bids (spec §9 documents exactly this). -/
theorem claim_C2_counterexample :
    World.safeRun w0 opsC2 = true ∧
    ((w0.run opsC2).exchange.agents.get? "A").map Agent.balance = some (-600) := by
  refine ⟨?_, ?_⟩ <;> decide

/-- Scenario E2 (claim C3): B holds XYZ shares and 10,000 ₳ after
founding it with 20,000 ₳; A holds 10,000 ₳. -/
def opsC3 : List Op :=
  [.register "B" "B" 20000, .register "A" "A" 10000,
   .create "B" "XYZ" "X" "d" "generic" 1,
   .submit (mkOrder "sB" "B" "XYZ" .sell .limit 50 (some 10) 1),
   .submit (mkOrder "bA" "A" "XYZ" .buy .limit 100 (some 10) 2)]

def wC3 : World := w0.run opsC3

/-- Claim C3 as stated is false at scenario E2: the remaining 50 shares
of A's PARTIAL order do NOT rest on the bid book — `submit_order` books
a limit order only while its status is still PENDING — so `best_bid()`
returns `None`, not an order priced 10. -/
theorem claim_C3_counterexample :
    World.safeRun w0 opsC3 = true ∧
    (wC3.exchange.order_books.get? "XYZ").map OrderBook.bids = some [] ∧
    (wC3.exchange.order_books.get? "XYZ").map
      (fun b => (b.best_bid wC3.exchange.orders).1) = some none := by
  refine ⟨?_, ?_, ?_⟩ <;> decide

/-- Claim C3, amended.  In scenario E2 exactly one trade of quantity 50
at price 10 occurs, A's order is PARTIAL with `filled_quantity = 50`,
and `A.balance = 9,500` — but the unfilled remainder is dropped: the bid
book stays empty and `best_bid()` returns none. -/
theorem claim_C3_amended :
    wC3.exchange.trades = [{ ticker := "XYZ", buyer_id := "A", seller_id := "B",
                             quantity := 50, price := 10, buyer_order_id := "bA",
                             seller_order_id := "sB" }] ∧
    (wC3.exchange.orders.get? "bA").map Order.status = some .partialFilled ∧
    (wC3.exchange.orders.get? "bA").map Order.filled_quantity = some 50 ∧
    (wC3.exchange.agents.get? "A").map Agent.balance = some 9500 ∧
    (wC3.exchange.order_books.get? "XYZ").map OrderBook.bids = some [] ∧
    (wC3.exchange.order_books.get? "XYZ").map
      (fun b => (b.best_bid wC3.exchange.orders).1) = some none := by
  refine ⟨?_, ?_, ?_, ?_, ?_, ?_⟩ <;> decide

/-- Claim C4 counterexample trace: B's SELL LIMIT 100 @ 10 rests, A's
BUY LIMIT 50 @ 10 partially consumes it. -/
def opsC4 : List Op :=
  [.register "B" "B" 20000, .register "A" "A" 10000,
   .create "B" "XYZ" "X" "d" "generic" 1,
   .submit (mkOrder "sB" "B" "XYZ" .sell .limit 100 (some 10) 1),
   .submit (mkOrder "bA" "A" "XYZ" .buy .limit 50 (some 10) 2)]

def wC4 : World := w0.run opsC4

/-- Claim C4 as stated is false: after `opsC4` the resting order `sB`
has `0 < filled_quantity = 50 < quantity = 100` yet its status is still
PENDING (only `_match_order`'s epilogue sets PARTIAL, and it runs only
for the incoming order), refuting `status = PARTIAL ⇔
0 < filled_quantity < quantity`.  The order still rests on the ask
book. -/
theorem claim_C4_counterexample :
    World.safeRun w0 opsC4 = true ∧
    (wC4.exchange.orders.get? "sB").map Order.status = some .pending ∧
    (wC4.exchange.orders.get? "sB").map Order.filled_quantity = some 50 ∧
    (wC4.exchange.orders.get? "sB").map Order.quantity = some 100 ∧
    (wC4.exchange.order_books.get? "XYZ").map
      (fun b => b.asks.map BookEntry.oid) = some ["sB"] := by
  refine ⟨?_, ?_, ?_, ?_, ?_⟩ <;> decide

/-- Claim C5 counterexample trace: resting asks 10 @ 5 and 10 @ 10; a
MARKET BUY of 20 should, per the claim, walk the book and fill both. -/
def opsC5 : List Op :=
  [.register "S" "S" 20000, .register "A" "A" 10000,
   .create "S" "XYZ" "X" "d" "generic" 1,
   .submit (mkOrder "s1" "S" "XYZ" .sell .limit 10 (some 5) 1),
   .submit (mkOrder "s2" "S" "XYZ" .sell .limit 10 (some 10) 2),
   .submit (mkOrder "m" "A" "XYZ" .buy .market 20 none 3)]

def wC5 : World := w0.run opsC5

/-- Claim C5 as stated is false: `_execute_market_order` assigns
`order.price` (the best ask, 5) before matching, and the loop's break
test `order.price and counter.price > order.price` then stops the
MARKET order at the second ask: it fills only 10 of 20 and ends PARTIAL
while a PENDING ask (10 @ 10) still rests. -/
theorem claim_C5_counterexample :
    World.safeRun w0 opsC5 = true ∧
    (wC5.exchange.orders.get? "m").map Order.filled_quantity = some 10 ∧
    (wC5.exchange.orders.get? "m").map Order.quantity = some 20 ∧
    (wC5.exchange.orders.get? "m").map Order.status = some .partialFilled ∧
    (wC5.exchange.orders.get? "m").map Order.price = some (some 5) ∧
    (wC5.exchange.orders.get? "s2").map Order.status = some .pending ∧
    (wC5.exchange.orders.get? "s2").map Order.filled_quantity = some 0 := by
  refine ⟨?_, ?_, ?_, ?_, ?_, ?_, ?_⟩ <;> decide

/-- Claim C7 counterexample state: CTX is listed, F holds 30,000 ₳. -/
def opsC7 : List Op :=
  [.register "F" "F" 30000, .create "F" "CTX" "First" "d" "generic" 1]

def wC7 : World := w0.run opsC7

/-- Claim C7 as stated is false: creating ticker `"ctx"` while `"CTX"`
exists succeeds — the duplicate test `ticker in self.companies` uses the
raw string against uppercase keys — charges the founder another
10,000 ₳, and silently replaces the existing CTX company and its order
book. -/
theorem claim_C7_counterexample :
    (wC7.exchange.create_company "F" "ctx" "Second" "d" "generic" 1).1.isSome = true ∧
    (((wC7.exchange.create_company "F" "ctx" "Second" "d" "generic" 1).2.agents.get?
      "F").map Agent.balance) = some 10000 ∧
    (((wC7.exchange.create_company "F" "ctx" "Second" "d" "generic" 1).2.companies.get?
      "CTX").map Company.name) = some "Second" := by
  refine ⟨?_, ?_, ?_⟩ <;> decide

/-- Scenario E3 (claim C8): agents B and C each hold 100 XYZ shares. -/
def e8 : Exchange :=
  { agents := [("A", { id := "A", name := "A", balance := 10000 }),
               ("B", { id := "B", name := "B", balance := 10000, portfolio := [("XYZ", 100)] }),
               ("C", { id := "C", name := "C", balance := 10000, portfolio := [("XYZ", 100)] })],
    companies := [("XYZ", { id := "xyz", ticker := "XYZ", name := "X", description := "",
                            founder_id := "B" })],
    order_books := [("XYZ", { ticker := "XYZ" })] }

def e8final : Exchange :=
  (((e8.submit_order (mkOrder "b1" "B" "XYZ" .sell .limit 10 (some 6) 1)).2.submit_order
      (mkOrder "c1" "C" "XYZ" .sell .limit 10 (some 5) 2)).2.submit_order
      (mkOrder "a1" "A" "XYZ" .buy .limit 20 (some 7) 3)).2

/-- Claim C8 (scenario E3), confirmed.  With resting SELL LIMIT orders
B: 10 @ 6 (earlier) and C: 10 @ 5 (later timestamp, better price), an
incoming BUY LIMIT 20 @ 7 produces exactly two trades in order: first
10 @ 5 against C, then 10 @ 6 against B — each at the resting maker's
price and for the minimum of the remaining quantities; the taker ends
FILLED. -/
theorem claim_C8 :
    e8final.trades =
      [{ ticker := "XYZ", buyer_id := "A", seller_id := "C", quantity := 10, price := 5,
         buyer_order_id := "a1", seller_order_id := "c1" },
       { ticker := "XYZ", buyer_id := "A", seller_id := "B", quantity := 10, price := 6,
         buyer_order_id := "a1", seller_order_id := "b1" }] ∧
    (e8final.orders.get? "a1").map Order.status = some .filled ∧
    (e8final.orders.get? "a1").map Order.filled_quantity = some 20 := by
  refine ⟨?_, ?_, ?_⟩ <;> decide

end AIVerse

namespace AIVerse

namespace Dict

theorem get?_modify_self {α : Type} (d : Dict α) (k : String) (f : α → α) :
    (d.modify k f).get? k = (d.get? k).map f := by
  induction d with
  | nil => rfl
  | cons p rest ih =>
    by_cases h : p.1 = k
    · simp [Dict.modify, Dict.get?, h]
    · simpa [Dict.modify, Dict.get?, h] using ih

theorem get?_modify_ne {α : Type} (d : Dict α) (k k' : String) (f : α → α)
    (h : k' ≠ k) : (d.modify k f).get? k' = d.get? k' := by
  induction d with
  | nil => rfl
  | cons p rest ih =>
    by_cases hp : p.1 = k
    · have hp' : ¬ p.1 = k' := by rw [hp]; exact fun hc => h hc.symm
      simpa [Dict.modify, Dict.get?, hp, hp', Ne.symm h] using ih
    · by_cases hp2 : p.1 = k'
      · simp [Dict.modify, Dict.get?, hp, hp2, h]
      · simpa [Dict.modify, Dict.get?, hp, hp2] using ih

theorem get?_map_set {α : Type} (d : Dict α) (k : String) (v : α)
    (hc : d.containsKey k = true) :
    Dict.get? (d.map (fun p => if p.1 = k then (p.1, v) else p)) k = some v := by
  induction d with
  | nil => simp [Dict.containsKey] at hc
  | cons p rest ih =>
    by_cases h : p.1 = k
    · simp [Dict.get?, h]
    · simp only [Dict.containsKey, Bool.or_eq_true, decide_eq_true_eq] at hc
      rcases hc with hc | hc
      · exact absurd hc h
      · simpa [Dict.get?, h] using ih hc

theorem get?_append_right {α : Type} (d d2 : Dict α) (k : String)
    (h : d.get? k = none) : Dict.get? (d ++ d2) k = d2.get? k := by
  induction d with
  | nil => rfl
  | cons p rest ih =>
    by_cases hp : p.1 = k
    · simp [Dict.get?, hp] at h
    · simp only [Dict.get?, if_neg hp, List.cons_append] at h ⊢
      exact ih h

theorem not_containsKey_get? {α : Type} (d : Dict α) (k : String)
    (hc : ¬ d.containsKey k = true) : d.get? k = none := by
  induction d with
  | nil => rfl
  | cons p rest ih =>
    simp only [Dict.containsKey, Bool.or_eq_true, decide_eq_true_eq, not_or] at hc
    simp only [Dict.get?, if_neg hc.1]
    exact ih hc.2

theorem get?_set_self {α : Type} (d : Dict α) (k : String) (v : α) :
    (d.set k v).get? k = some v := by
  unfold Dict.set
  by_cases hc : d.containsKey k = true
  · rw [if_pos hc]
    exact get?_map_set d k v hc
  · rw [if_neg hc, get?_append_right d _ k (not_containsKey_get? d k hc)]
    simp [Dict.get?]

theorem get?_set_ne {α : Type} (d : Dict α) (k k' : String) (v : α)
    (h : k' ≠ k) : (d.set k v).get? k' = d.get? k' := by
  unfold Dict.set
  by_cases hc : d.containsKey k = true
  · rw [if_pos hc]
    clear hc
    induction d with
    | nil => rfl
    | cons p rest ih =>
      by_cases hp : p.1 = k
      · have hp' : ¬ p.1 = k' := by rw [hp]; exact fun hcc => h hcc.symm
        simpa [Dict.get?, hp, hp', Ne.symm h] using ih
      · by_cases hp2 : p.1 = k'
        · simp [Dict.get?, hp, hp2, h]
        · simpa [Dict.get?, hp, hp2] using ih
  · rw [if_neg hc]
    clear hc
    induction d with
    | nil => simp [Dict.get?, Ne.symm h]
    | cons p rest ih =>
      by_cases hp2 : p.1 = k'
      · simp [Dict.get?, hp2]
      · simp only [List.cons_append, Dict.get?, if_neg hp2]
        exact ih

theorem get?_erase_self {α : Type} (d : Dict α) (k : String) :
    (d.erase k).get? k = none := by
  induction d with
  | nil => rfl
  | cons p rest ih =>
    by_cases hp : p.1 = k
    · simpa [Dict.erase, hp] using ih
    · simpa [Dict.erase, Dict.get?, hp] using ih

theorem get?_erase_ne {α : Type} (d : Dict α) (k k' : String) (h : k' ≠ k) :
    (d.erase k).get? k' = d.get? k' := by
  induction d with
  | nil => rfl
  | cons p rest ih =>
    by_cases hp : p.1 = k
    · have hp' : ¬ p.1 = k' := by rw [hp]; exact fun hc => h hc.symm
      simpa [Dict.erase, Dict.get?, hp, hp', Ne.symm h] using ih
    · by_cases hp2 : p.1 = k'
      · simp [Dict.erase, Dict.get?, hp, hp2, h]
      · simpa [Dict.erase, Dict.get?, hp, hp2] using ih

end Dict

end AIVerse

namespace AIVerse

/-- The exact world produced by a successful `use_service(aid, t)` call
when the company charges `cost`: the debit, the revenue credit, the call
counter, and one appended log record — and nothing else. -/
def World.useServiceState (w : World) (aid t : String) (cost : ℚ) : World :=
  let ex1 := w.exchange.updateAgent aid (fun a2 => { a2 with balance := a2.balance - cost })
  let ex2 := { ex1 with companies := ex1.companies.modify (String.upper t) (fun c2 =>
    { c2 with revenue := c2.revenue + cost, total_api_calls := c2.total_api_calls + 1 }) }
  let su : ServiceUsage :=
    { agent_id := aid, company_ticker := String.upper t, cost := cost, success := true }
  { w with exchange := ex2, service_usage := w.service_usage ++ [su] }

/-- Claim C10, confirmed.  `use_service` is atomic: a `(False, _)`
result leaves the world untouched, and a `(True, _)` result performs
exactly the advertised mutation — `service_cost` moved from the agent's
balance into the company's revenue, `total_api_calls` incremented once,
one `ServiceUsage` record appended, and (by the state equality with
`useServiceState`) nothing else changed. -/
theorem claim_C10 (w : World) (aid t : String) :
    ((w.use_service aid t).1.1 = false → (w.use_service aid t).2 = w) ∧
    ((w.use_service aid t).1.1 = true →
      ∃ a c, w.exchange.agents.get? aid = some a ∧
        w.exchange.companies.get? (String.upper t) = some c ∧
        (w.use_service aid t).2 = w.useServiceState aid t c.service_cost) := by
  rcases ha : w.exchange.agents.get? aid with _ | a
  · refine ⟨fun _ => by simp [World.use_service, ha], fun htrue => ?_⟩
    exfalso
    simp [World.use_service, ha] at htrue
  · rcases hc : w.exchange.companies.get? (String.upper t) with _ | c
    · refine ⟨fun _ => by simp [World.use_service, ha, hc], fun htrue => ?_⟩
      exfalso
      simp [World.use_service, ha, hc] at htrue
    · by_cases hb : c.status = CompanyStatus.bankrupt
      · refine ⟨fun _ => by simp [World.use_service, ha, hc, hb], fun htrue => ?_⟩
        exfalso
        simp [World.use_service, ha, hc, hb] at htrue
      · by_cases hbal : a.balance < c.service_cost
        · refine ⟨fun _ => by simp [World.use_service, ha, hc, hb, hbal], fun htrue => ?_⟩
          exfalso
          simp [World.use_service, ha, hc, hb, hbal] at htrue
        · refine ⟨fun hfalse => ?_, fun _ => ⟨a, c, rfl, rfl, ?_⟩⟩
          · exfalso
            simp [World.use_service, ha, hc, hb, hbal] at hfalse
          · simp [World.use_service, World.useServiceState, ha, hc, hb, hbal,
              Exchange.updateAgent]

/-- A world with listed company XYZ (service cost 1) and agent A. -/
def wC10 : World := { exchange := e8 }

/-- Concrete instantiation of claim C10: an unknown agent id returns
`(False, _)` and leaves the world unchanged. -/
theorem claim_C10_witness :
    (wC10.use_service "Z" "XYZ").1.1 = false ∧ (wC10.use_service "Z" "XYZ").2 = wC10 :=
  ⟨by decide, (claim_C10 wC10 "Z" "XYZ").1 (by decide)⟩

/-- The company record built by a successful `create_company`. -/
def mkCompany (fid t n d st : String) (sc : ℚ) : Company :=
  { id := String.lower t, ticker := String.upper t, name := n, description := d,
    founder_id := fid, service_type := st, service_cost := sc }

/-- The exact exchange produced by a successful
`create_company(fid, t, ...)`. -/
def Exchange.createCompanyState (s : Exchange) (fid t n d st : String) (sc : ℚ) : Exchange :=
  let company := mkCompany fid t n d st sc
  let s1 : Exchange :=
    { s with agents := s.agents.modify fid (fun a => { a with balance := a.balance - 10000 }) }
  let s2 : Exchange :=
    { s1 with
      companies := s1.companies.set (String.upper t) company,
      order_books := s1.order_books.set (String.upper t) { ticker := String.upper t } }
  { s2 with
    agents := s2.agents.modify fid
      (fun a => { a with portfolio := a.portfolio.set (String.upper t) company.total_shares }) }

/-- Claim C7, amended.  `create_company` charges the founder exactly
10,000 ₳; it fails with no state change when the founder is missing,
underfunded, or when the RAW ticker string is already a key of the
(uppercase-keyed) company table — so only an exact uppercase match
counts as existing, and a ticker differing only in letter case passes
the check and silently replaces the existing company (see the
counterexample); on success the founder receives all 1,000,000
`total_shares` of the new company and a fresh empty order book is
allocated under the uppercase ticker. -/
theorem claim_C7_amended (s : Exchange) (fid t n d st : String) (sc : ℚ) :
    (s.agents.get? fid = none → s.create_company fid t n d st sc = (none, s)) ∧
    (∀ f, s.agents.get? fid = some f → f.balance < 10000 →
      s.create_company fid t n d st sc = (none, s)) ∧
    (∀ f, s.agents.get? fid = some f → ¬ f.balance < 10000 →
      (s.companies.get? t).isSome = true →
      s.create_company fid t n d st sc = (none, s)) ∧
    (∀ f, s.agents.get? fid = some f → ¬ f.balance < 10000 → s.companies.get? t = none →
      s.create_company fid t n d st sc =
        (some (mkCompany fid t n d st sc), s.createCompanyState fid t n d st sc) ∧
      ((s.createCompanyState fid t n d st sc).agents.get? fid).map Agent.balance =
        some (f.balance - 10000) ∧
      ((s.createCompanyState fid t n d st sc).agents.get? fid).map
        (fun a => Dict.get? a.portfolio (String.upper t)) = some (some 1000000) ∧
      (s.createCompanyState fid t n d st sc).companies.get? (String.upper t) =
        some (mkCompany fid t n d st sc) ∧
      (s.createCompanyState fid t n d st sc).order_books.get? (String.upper t) =
        some { ticker := String.upper t }) := by
  refine ⟨?_, ?_, ?_, ?_⟩
  · intro ha
    simp [Exchange.create_company, ha]
  · intro f ha hbal
    simp [Exchange.create_company, ha, hbal]
  · intro f ha hbal hdup
    rcases hd : s.companies.get? t with _ | c
    · rw [hd] at hdup
      simp at hdup
    · simp [Exchange.create_company, ha, hbal, hd]
  · intro f ha hbal hfresh
    refine ⟨?_, ?_, ?_, ?_, ?_⟩
    · simp [Exchange.create_company, Exchange.createCompanyState, mkCompany, ha, hbal,
        hfresh, Exchange.updateAgent]
    · simp [Exchange.createCompanyState, Dict.get?_modify_self, ha]
    · simp [Exchange.createCompanyState, Dict.get?_modify_self, ha, Dict.get?_set_self,
        mkCompany]
    · simp [Exchange.createCompanyState, Dict.get?_set_self]
    · simp [Exchange.createCompanyState, Dict.get?_set_self]

/-- Concrete instantiation of claim C7: creating a fresh ticker from a
well-funded founder succeeds with the advertised effects. -/
theorem claim_C7_witness :
    (e8.create_company "A" "NEW" "New" "d" "generic" 2).1 =
      some (mkCompany "A" "NEW" "New" "d" "generic" 2) ∧
    ((e8.create_company "A" "NEW" "New" "d" "generic" 2).2.agents.get? "A").map
      Agent.balance = some 0 := by
  have h := (claim_C7_amended e8 "A" "NEW" "New" "d" "generic" 2).2.2.2
    { id := "A", name := "A", balance := 10000 } (by decide) (by decide) (by decide)
  refine ⟨?_, ?_⟩
  · rw [h.1]
  · rw [h.1]
    have h2 := h.2.1
    rw [h2]
    decide

end AIVerse

namespace AIVerse

namespace Dict

theorem mem_set {α : Type} (d : Dict α) (k : String) (v : α) (p : String × α)
    (hp : p ∈ d.set k v) : p ∈ d ∨ p.2 = v := by
  unfold Dict.set at hp
  split at hp
  · obtain ⟨q, hq, hpq⟩ := List.mem_map.1 hp
    by_cases h : q.1 = k
    · right
      rw [if_pos h] at hpq
      rw [← hpq]
    · left
      rw [if_neg h] at hpq
      rw [← hpq]
      exact hq
  · rcases List.mem_append.1 hp with h | h
    · exact Or.inl h
    · right
      simp only [List.mem_singleton] at h
      rw [h]

theorem mem_erase {α : Type} (d : Dict α) (k : String) (p : String × α)
    (hp : p ∈ d.erase k) : p ∈ d := by
  induction d with
  | nil => simp [Dict.erase] at hp
  | cons q rest ih =>
    by_cases h : q.1 = k
    · simp only [Dict.erase, if_pos h] at hp
      exact List.mem_cons_of_mem q (ih hp)
    · simp only [Dict.erase, if_neg h] at hp
      rcases List.mem_cons.1 hp with rfl | hp2
      · exact List.mem_cons_self _ _
      · exact List.mem_cons_of_mem q (ih hp2)

theorem mem_modify {α : Type} (d : Dict α) (k : String) (f : α → α) (p : String × α)
    (hp : p ∈ d.modify k f) : p ∈ d ∨ ∃ q, q ∈ d ∧ p = (q.1, f q.2) := by
  obtain ⟨q, hq, hpq⟩ := List.mem_map.1 hp
  by_cases h : q.1 = k
  · right
    rw [if_pos h] at hpq
    exact ⟨q, hq, hpq.symm⟩
  · left
    rw [if_neg h] at hpq
    rw [← hpq]
    exact hq

theorem keys_modify {α : Type} (d : Dict α) (k : String) (f : α → α) :
    (d.modify k f).map Prod.fst = d.map Prod.fst := by
  induction d with
  | nil => rfl
  | cons q rest ih =>
    by_cases h : q.1 = k <;> simp [Dict.modify, h] at ih ⊢ <;> exact ih

theorem uniq_modify {α : Type} (d : Dict α) (k : String) (f : α → α)
    (hu : d.Uniq) : (d.modify k f).Uniq := by
  unfold Dict.Uniq
  rw [keys_modify]
  exact hu

theorem get?_none_containsKey {α : Type} (d : Dict α) (k : String)
    (h : d.get? k = none) : d.containsKey k = false := by
  induction d with
  | nil => rfl
  | cons q rest ih =>
    simp only [Dict.get?] at h
    split at h
    · exact Option.noConfusion h
    · rename_i hq
      simp only [Dict.containsKey, Bool.or_eq_false_iff, decide_eq_false hq]
      exact ⟨trivial, ih h⟩

theorem get?_none_not_key {α : Type} (d : Dict α) (k : String)
    (h : d.get? k = none) : k ∉ d.map Prod.fst := by
  induction d with
  | nil => simp
  | cons q rest ih =>
    simp only [Dict.get?] at h
    split at h
    · exact Option.noConfusion h
    · rename_i hq
      simp only [List.map_cons, List.mem_cons, not_or]
      exact ⟨fun hc => hq hc.symm, ih h⟩

theorem not_key_get?_none {α : Type} (d : Dict α) (k : String)
    (h : k ∉ d.map Prod.fst) : d.get? k = none := by
  induction d with
  | nil => rfl
  | cons q rest ih =>
    simp only [List.map_cons, List.mem_cons, not_or] at h
    simp only [Dict.get?, if_neg (fun hc : q.1 = k => h.1 hc.symm)]
    exact ih h.2

theorem uniq_set {α : Type} (d : Dict α) (k : String) (v : α)
    (hu : d.Uniq) (hf : d.get? k = none) : (d.set k v).Uniq := by
  unfold Dict.set
  rw [get?_none_containsKey d k hf]
  simp only [Bool.false_eq_true, if_false]
  unfold Dict.Uniq at hu ⊢
  rw [List.map_append, List.nodup_append]
  refine ⟨hu, by simp, ?_⟩
  intro x hx
  simp only [List.map_cons, List.map_nil, List.mem_singleton]
  intro hxk
  subst hxk
  exact get?_none_not_key d x hf hx

/-- Sum of a valuation over a dict. -/
def dsum {α : Type} (d : Dict α) (g : α → ℚ) : ℚ :=
  (d.map (fun p => g p.2)).sum

theorem dsum_nil {α : Type} (g : α → ℚ) : dsum ([] : Dict α) g = 0 := rfl

theorem dsum_append {α : Type} (d d2 : Dict α) (g : α → ℚ) :
    dsum (d ++ d2) g = dsum d g + dsum d2 g := by
  simp [dsum]

/-- When the key is absent, `modify` is the identity. -/
theorem modify_eq_self {α : Type} (d : Dict α) (k : String) (f : α → α)
    (h : d.get? k = none) : d.modify k f = d := by
  induction d with
  | nil => rfl
  | cons q rest ih =>
    simp only [Dict.get?] at h
    split at h
    · exact Option.noConfusion h
    · rename_i hq
      simp only [Dict.modify, List.map_cons, if_neg hq]
      rw [show List.map (fun p => if p.1 = k then (p.1, f p.2) else p) rest =
        Dict.modify rest k f from rfl, ih h]

theorem dsum_modify {α : Type} (d : Dict α) (g : α → ℚ) (k : String) (f : α → α)
    (a : α) (hu : d.Uniq) (ha : d.get? k = some a) :
    dsum (d.modify k f) g = dsum d g - g a + g (f a) := by
  induction d with
  | nil => simp [Dict.get?] at ha
  | cons q rest ih =>
    simp only [Dict.Uniq, List.map_cons, List.nodup_cons] at hu
    by_cases hq : q.1 = k
    · simp only [Dict.get?, if_pos hq] at ha
      have hrest : Dict.get? rest k = none :=
        not_key_get?_none rest k (hq ▸ hu.1)
      simp only [Dict.modify, List.map_cons, if_pos hq]
      rw [show List.map (fun p => if p.1 = k then (p.1, f p.2) else p) rest =
        Dict.modify rest k f from rfl, modify_eq_self rest k f hrest]
      simp only [dsum, List.map_cons, List.sum_cons]
      cases ha
      ring
    · simp only [Dict.get?, if_neg hq] at ha
      simp only [Dict.modify, List.map_cons, if_neg hq]
      have hstep := ih hu.2 ha
      simp only [dsum, List.map_cons, List.sum_cons] at hstep ⊢
      rw [show List.map (fun p => g p.2)
        (List.map (fun p => if p.1 = k then (p.1, f p.2) else p) rest) =
        List.map (fun p => g p.2) (Dict.modify rest k f) from rfl, hstep]
      ring

theorem dsum_modify_none {α : Type} (d : Dict α) (g : α → ℚ) (k : String) (f : α → α)
    (ha : d.get? k = none) : dsum (d.modify k f) g = dsum d g := by
  rw [modify_eq_self d k f ha]

theorem dsum_set_fresh {α : Type} (d : Dict α) (g : α → ℚ) (k : String) (v : α)
    (ha : d.get? k = none) : dsum (d.set k v) g = dsum d g + g v := by
  unfold Dict.set
  rw [get?_none_containsKey d k ha]
  simp only [Bool.false_eq_true, if_false]
  rw [dsum_append]
  simp [dsum]

end Dict

end AIVerse

namespace AIVerse

namespace Dict

theorem get?_mem {α : Type} (d : Dict α) (k : String) (v : α)
    (h : d.get? k = some v) : (k, v) ∈ d := by
  induction d with
  | nil => simp [Dict.get?] at h
  | cons q rest ih =>
    simp only [Dict.get?] at h
    split at h
    · rename_i hq
      simp only [Option.some.injEq] at h
      subst h
      rw [← hq]
      exact List.mem_cons_self _ _
    · exact List.mem_cons_of_mem q (ih h)

theorem mem_set_ne {α : Type} (d : Dict α) (k : String) (v : α) (p : String × α)
    (hp : p ∈ d.set k v) (hk : p.1 ≠ k) : p ∈ d := by
  unfold Dict.set at hp
  split at hp
  · obtain ⟨q, hq, hpq⟩ := List.mem_map.1 hp
    by_cases h : q.1 = k
    · rw [if_pos h] at hpq
      exfalso
      apply hk
      rw [← hpq]
      exact h
    · rw [if_neg h] at hpq
      rw [← hpq]
      exact hq
  · rcases List.mem_append.1 hp with h | h
    · exact h
    · simp only [List.mem_singleton] at h
      exact absurd (congrArg Prod.fst h) hk

theorem mem_erase_ne {α : Type} (d : Dict α) (k : String) (p : String × α)
    (hp : p ∈ d.erase k) : p ∈ d ∧ p.1 ≠ k := by
  induction d with
  | nil => simp [Dict.erase] at hp
  | cons q rest ih =>
    by_cases h : q.1 = k
    · simp only [Dict.erase, if_pos h] at hp
      obtain ⟨h1, h2⟩ := ih hp
      exact ⟨List.mem_cons_of_mem q h1, h2⟩
    · simp only [Dict.erase, if_neg h] at hp
      rcases List.mem_cons.1 hp with rfl | hp2
      · exact ⟨List.mem_cons_self _ _, h⟩
      · obtain ⟨h1, h2⟩ := ih hp2
        exact ⟨List.mem_cons_of_mem q h1, h2⟩

end Dict

/-! ### State invariants -/

/-- Per-record order well-formedness. -/
def OrdInv (oid : String) (o : Order) : Prop :=
  oid = o.id ∧ 0 < o.quantity ∧ 0 ≤ o.filled_quantity ∧ o.filled_quantity ≤ o.quantity ∧
  (o.status = .filled → o.filled_quantity = o.quantity) ∧
  (o.status = .partialFilled → 0 < o.filled_quantity ∧ o.filled_quantity < o.quantity)

def OrdersInv (ex : Exchange) : Prop :=
  ∀ oid o, ex.orders.get? oid = some o → OrdInv oid o ∧
    (o.status = .pending → o.filled_quantity < o.quantity)

def BookSideInv (orders : Dict Order) (t : String) (side : OrderSide)
    (es : List BookEntry) : Prop :=
  ∀ e ∈ es, ∃ o, orders.get? e.oid = some o ∧ o.side = side ∧
    o.order_type = .limit ∧ String.upper o.ticker = t

def BooksInv (ex : Exchange) : Prop :=
  ∀ t bk, ex.order_books.get? t = some bk →
    BookSideInv ex.orders t .buy bk.bids ∧ BookSideInv ex.orders t .sell bk.asks

def PortInv (ex : Exchange) : Prop :=
  ∀ p ∈ ex.agents, ∀ q ∈ p.2.portfolio, 0 < q.2

def Inv (ex : Exchange) : Prop := OrdersInv ex ∧ BooksInv ex ∧ PortInv ex

/-- No book entry references the order being matched. -/
def NotInBooks (ex : Exchange) (xid : String) : Prop :=
  ∀ t bk, ex.order_books.get? t = some bk →
    (∀ e ∈ bk.bids, e.oid ≠ xid) ∧ (∀ e ∈ bk.asks, e.oid ≠ xid)

/-- A mutation that only touches status, fill and price fields. -/
def framePreserving (f : Order → Order) : Prop :=
  ∀ o, (f o).side = o.side ∧ (f o).order_type = o.order_type ∧
    (f o).ticker = o.ticker ∧ (f o).id = o.id ∧ (f o).quantity = o.quantity

theorem bookSideInv_modify (orders : Dict Order) (k : String) (f : Order → Order)
    (t : String) (side : OrderSide) (es : List BookEntry) (hf : framePreserving f)
    (h : BookSideInv orders t side es) : BookSideInv (orders.modify k f) t side es := by
  intro e he
  obtain ⟨o, ho, h1, h2, h3⟩ := h e he
  by_cases hk : e.oid = k
  · subst hk
    refine ⟨f o, ?_, ?_, ?_, ?_⟩
    · rw [Dict.get?_modify_self, ho]
      rfl
    · rw [(hf o).1, h1]
    · rw [(hf o).2.1, h2]
    · rw [(hf o).2.2.1, h3]
  · exact ⟨o, by rw [Dict.get?_modify_ne orders k e.oid f hk]; exact ho, h1, h2, h3⟩

theorem bookSideInv_set_fresh (orders : Dict Order) (k : String) (v : Order)
    (t : String) (side : OrderSide) (es : List BookEntry)
    (hfresh : orders.get? k = none)
    (h : BookSideInv orders t side es) : BookSideInv (orders.set k v) t side es := by
  intro e he
  obtain ⟨o, ho, h1, h2, h3⟩ := h e he
  have hne : e.oid ≠ k := fun hc => by rw [hc, hfresh] at ho; exact Option.noConfusion ho
  exact ⟨o, by rw [Dict.get?_set_ne orders k e.oid v hne]; exact ho, h1, h2, h3⟩

theorem bestOf_snd_subset (orders : Dict Order) (l : List BookEntry) :
    ∀ e ∈ (bestOf orders l).2, e ∈ l := by
  intro e he
  obtain ⟨removed, hperm, _⟩ := bestOfF_spec orders l.length l (le_refl _)
  exact hperm.symm.subset (List.mem_append.2 (Or.inl he))

theorem heappush_mem (l : List BookEntry) (x e : BookEntry)
    (he : e ∈ heappush l x) : e = x ∨ e ∈ l := by
  have := (heappush_perm l x).subset he
  exact List.mem_cons.1 this

end AIVerse

namespace AIVerse

/-! ### The effect of one `_execute_trade` call -/

/-- The per-order fill update `_execute_trade` applies to both orders:
add the traded quantity, record the price, and set FILLED when the
order is now fully filled. -/
def advance (qty price : ℚ) (o : Order) : Order :=
  let o2 := { o with filled_quantity := o.filled_quantity + qty, filled_price := price }
  if o2.filled_quantity ≥ o2.quantity then { o2 with status := .filled } else o2

theorem advance_frame (qty price : ℚ) (o : Order) :
    (advance qty price o).side = o.side ∧ (advance qty price o).order_type = o.order_type ∧
    (advance qty price o).ticker = o.ticker ∧ (advance qty price o).id = o.id ∧
    (advance qty price o).quantity = o.quantity ∧
    (advance qty price o).agent_id = o.agent_id := by
  unfold advance
  dsimp only
  split <;> exact ⟨rfl, rfl, rfl, rfl, rfl, rfl⟩

theorem advance_ordInv (oid : String) (ob : Order) (qty price : ℚ)
    (h : OrdInv oid ob) (hpend : ob.status = .pending → ob.filled_quantity < ob.quantity)
    (hq : 0 < qty) (hqle : qty ≤ ob.quantity - ob.filled_quantity) :
    OrdInv oid (advance qty price ob) ∧
      ((advance qty price ob).status = .pending →
        (advance qty price ob).filled_quantity < (advance qty price ob).quantity) := by
  obtain ⟨hid, hq0, hf0, hfq, hfil, hpart⟩ := h
  unfold OrdInv advance
  dsimp only
  by_cases hge : ob.filled_quantity + qty ≥ ob.quantity
  · rw [if_pos hge]
    dsimp only
    refine ⟨⟨hid, hq0, by linarith, by linarith, fun _ => by linarith, fun hx => ?_⟩,
      fun hx => ?_⟩
    · exact absurd hx (by intro hc; exact OrderStatus.noConfusion hc)
    · exact absurd hx (by intro hc; exact OrderStatus.noConfusion hc)
  · rw [if_neg hge]
    dsimp only
    push_neg at hge
    refine ⟨⟨hid, hq0, by linarith, by linarith, fun hx => ?_, fun hx => ?_⟩,
      fun _ => by linarith⟩
    · have := hfil hx
      linarith
    · have := hpart hx
      exact ⟨by linarith [this.1], by linarith [this.2]⟩

/-- The body of `_execute_trade` once both order records are resolved:
`buyer_order`/`seller_order` are the two records with their roles fixed,
`ticker` is the incoming order's raw ticker. -/
def tradeStep (s : Exchange) (ticker : String) (buyer_order seller_order : Order)
    (quantity price : ℚ) : Exchange :=
  let total_cost := quantity * price
  let s := s.updateAgent buyer_order.agent_id
    (fun a => { a with balance := a.balance - total_cost })
  let s := s.updateAgent seller_order.agent_id
    (fun a => { a with balance := a.balance + total_cost })
  let s := s.updateAgent buyer_order.agent_id (fun a =>
    { a with portfolio := a.portfolio.set ticker ((a.portfolio.get? ticker).getD 0 + quantity) })
  let s := s.updateAgent seller_order.agent_id (fun a =>
    let pf := a.portfolio.set ticker ((a.portfolio.get? ticker).getD 0 - quantity)
    { a with portfolio := if ((pf.get? ticker).getD 0) ≤ 0 then pf.erase ticker else pf })
  let s := s.updateOrder buyer_order.id (fun o =>
    let o := { o with filled_quantity := o.filled_quantity + quantity, filled_price := price }
    if o.filled_quantity ≥ o.quantity then { o with status := .filled } else o)
  let s := s.updateOrder seller_order.id (fun o =>
    let o := { o with filled_quantity := o.filled_quantity + quantity, filled_price := price }
    if o.filled_quantity ≥ o.quantity then { o with status := .filled } else o)
  let s := s.updateAgent buyer_order.agent_id
    (fun a => { a with total_trades := a.total_trades + 1 })
  let s := s.updateAgent seller_order.agent_id
    (fun a => { a with total_trades := a.total_trades + 1 })
  let trade : Trade :=
    { ticker := ticker, buyer_id := buyer_order.agent_id, seller_id := seller_order.agent_id,
      quantity := quantity, price := price,
      buyer_order_id := buyer_order.id, seller_order_id := seller_order.id }
  let s := { s with trades := s.trades ++ [trade] }
  { s with companies := s.companies.modify ticker (fun c =>
    { c with share_price := price, market_cap := c.total_shares * price }) }

theorem execute_trade_eq (s : Exchange) (xid cid : String) (o c : Order) (qty price : ℚ)
    (ho : Dict.get? s.orders xid = some o) (hc : Dict.get? s.orders cid = some c) :
    s.execute_trade xid cid qty price =
      tradeStep s o.ticker (if o.side = .buy then o else c)
        (if o.side = .buy then c else o) qty price := by
  unfold Exchange.execute_trade
  rw [ho, hc]
  exact rfl

theorem tradeStep_orders (s : Exchange) (t : String) (bo so : Order) (qty price : ℚ) :
    (tradeStep s t bo so qty price).orders =
      Dict.modify (Dict.modify s.orders bo.id (advance qty price)) so.id
        (advance qty price) := rfl

theorem tradeStep_books (s : Exchange) (t : String) (bo so : Order) (qty price : ℚ) :
    (tradeStep s t bo so qty price).order_books = s.order_books := rfl

theorem tradeStep_get? (s : Exchange) (t : String) (bo so : Order) (qty price : ℚ)
    (i : String) (hne : bo.id ≠ so.id) :
    Dict.get? (tradeStep s t bo so qty price).orders i =
      if i = bo.id then (Dict.get? s.orders bo.id).map (advance qty price)
      else if i = so.id then (Dict.get? s.orders so.id).map (advance qty price)
      else Dict.get? s.orders i := by
  rw [tradeStep_orders]
  by_cases h1 : i = bo.id
  · subst h1
    rw [if_pos rfl, Dict.get?_modify_ne _ _ _ _ hne, Dict.get?_modify_self]
  · rw [if_neg h1]
    by_cases h2 : i = so.id
    · subst h2
      rw [if_pos rfl, Dict.get?_modify_self, Dict.get?_modify_ne _ _ _ _ h1]
    · rw [if_neg h2, Dict.get?_modify_ne _ _ _ _ h2, Dict.get?_modify_ne _ _ _ _ h1]

end AIVerse

namespace AIVerse

/-! ### Portfolio positivity through agent mutations -/

theorem portInv_modify_mem (ag : Dict Agent) (aid : String) (f : Agent → Agent)
    (hf : ∀ a, (∀ q ∈ a.portfolio, 0 < q.2) → ∀ q ∈ (f a).portfolio, 0 < q.2)
    (h : ∀ p ∈ ag, ∀ q ∈ p.2.portfolio, 0 < q.2) :
    ∀ p ∈ ag.modify aid f, ∀ q ∈ p.2.portfolio, 0 < q.2 := by
  intro p hp
  rcases Dict.mem_modify ag aid f p hp with hmem | ⟨q0, hq0, hpq⟩
  · exact h p hmem
  · rw [hpq]
    exact hf q0.2 (h q0 hq0)

theorem portInv_map_mem (ag : Dict Agent) (F : String × Agent → String × Agent)
    (hF : ∀ p, (∀ q ∈ p.2.portfolio, 0 < q.2) → ∀ q ∈ (F p).2.portfolio, 0 < q.2)
    (h : ∀ p ∈ ag, ∀ q ∈ p.2.portfolio, 0 < q.2) :
    ∀ p ∈ ag.map F, ∀ q ∈ p.2.portfolio, 0 < q.2 := by
  intro p hp
  obtain ⟨q0, hq0, hpq⟩ := List.mem_map.1 hp
  rw [← hpq]
  exact hF q0 (h q0 hq0)

theorem portInv_set_mem (ag : Dict Agent) (k : String) (v : Agent)
    (hv : ∀ q ∈ v.portfolio, 0 < q.2)
    (h : ∀ p ∈ ag, ∀ q ∈ p.2.portfolio, 0 < q.2) :
    ∀ p ∈ ag.set k v, ∀ q ∈ p.2.portfolio, 0 < q.2 := by
  intro p hp
  rcases Dict.mem_set ag k v p hp with hmem | hpv
  · exact h p hmem
  · rw [hpv]
    exact hv

/-- A balance- or counter-only agent update keeps portfolios intact. -/
theorem portKeep {pf : Dict ℚ} (h : ∀ q ∈ pf, (0:ℚ) < q.2) : ∀ q ∈ pf, (0:ℚ) < q.2 := h

theorem tradeStep_agents (s : Exchange) (t : String) (bo so : Order) (qty price : ℚ) :
    (tradeStep s t bo so qty price).agents =
      ((((((s.agents.modify bo.agent_id
        (fun a => { a with balance := a.balance - qty * price })).modify so.agent_id
        (fun a => { a with balance := a.balance + qty * price })).modify bo.agent_id
        (fun a => { a with
                    portfolio := a.portfolio.set t
                      ((Dict.get? a.portfolio t).getD 0 + qty) })).modify so.agent_id
        (fun a =>
          let pf := a.portfolio.set t ((Dict.get? a.portfolio t).getD 0 - qty)
          { a with portfolio :=
              if ((Dict.get? pf t).getD 0) ≤ 0 then pf.erase t else pf })).modify bo.agent_id
        (fun a => { a with total_trades := a.total_trades + 1 })).modify so.agent_id
        (fun a => { a with total_trades := a.total_trades + 1 })) := rfl

theorem tradeStep_portInv (s : Exchange) (t : String) (bo so : Order) (qty price : ℚ)
    (hq : 0 < qty) (h : PortInv s) : PortInv (tradeStep s t bo so qty price) := by
  intro p hp
  rw [tradeStep_agents] at hp
  revert p hp
  refine portInv_modify_mem _ _ _ (fun a ha => ha) ?_
  refine portInv_modify_mem _ _ _ (fun a ha => ha) ?_
  refine portInv_modify_mem _ _ _ ?_ ?_
  · -- seller portfolio update
    intro a ha q hqmem
    dsimp only at hqmem
    by_cases hle : ((Dict.get? (a.portfolio.set t ((Dict.get? a.portfolio t).getD 0 - qty)) t).getD 0) ≤ 0
    · rw [if_pos hle] at hqmem
      obtain ⟨hq1, hq2⟩ := Dict.mem_erase_ne _ _ _ hqmem
      exact ha q (Dict.mem_set_ne _ _ _ _ hq1 hq2)
    · rw [if_neg hle] at hqmem
      push_neg at hle
      rcases Dict.mem_set _ _ _ _ hqmem with hmem | hval
      · exact ha q hmem
      · rw [hval]
        rw [Dict.get?_set_self] at hle
        exact hle
  refine portInv_modify_mem _ _ _ ?_ ?_
  · -- buyer portfolio update
    intro a ha q hqmem
    dsimp only at hqmem
    rcases Dict.mem_set _ _ _ _ hqmem with hmem | hval
    · exact ha q hmem
    · rw [hval]
      cases hget : Dict.get? a.portfolio t with
      | none => simpa [hget] using hq
      | some v =>
        have hv : (0:ℚ) < v := ha (t, v) (Dict.get?_mem _ _ _ hget)
        simp only [hget, Option.getD_some]
        linarith
  refine portInv_modify_mem _ _ _ (fun a ha => ha) ?_
  refine portInv_modify_mem _ _ _ (fun a ha => ha) ?_
  exact h

theorem bookSideInv_pointwise (orders orders2 : Dict Order) (t : String) (side : OrderSide)
    (es : List BookEntry)
    (heq : ∀ i ob, Dict.get? orders i = some ob → ∃ ob2, Dict.get? orders2 i = some ob2 ∧
      ob2.side = ob.side ∧ ob2.order_type = ob.order_type ∧ ob2.ticker = ob.ticker)
    (h : BookSideInv orders t side es) : BookSideInv orders2 t side es := by
  intro e he
  obtain ⟨ow, how, h1, h2, h3⟩ := h e he
  obtain ⟨ob2, hob2, f1, f2, f3⟩ := heq e.oid ow how
  refine ⟨ob2, hob2, ?_, ?_, ?_⟩
  · rw [f1, h1]
  · rw [f2, h2]
  · rw [f3, h3]

theorem tradeStep_inv (s : Exchange) (t : String) (bo so : Order) (qty price : ℚ)
    (hbo : Dict.get? s.orders bo.id = some bo) (hso : Dict.get? s.orders so.id = some so)
    (hne : bo.id ≠ so.id) (hq : 0 < qty)
    (hqb : qty ≤ bo.quantity - bo.filled_quantity)
    (hqs : qty ≤ so.quantity - so.filled_quantity)
    (h : Inv s) : Inv (tradeStep s t bo so qty price) := by
  obtain ⟨hOrd, hBooks, hPort⟩ := h
  refine ⟨?_, ?_, tradeStep_portInv s t bo so qty price hq hPort⟩
  · intro i ox hix
    rw [tradeStep_get? s t bo so qty price i hne] at hix
    by_cases h1 : i = bo.id
    · rw [if_pos h1, hbo, Option.map_some'] at hix
      have hox := Option.some.inj hix
      obtain ⟨hi1, hi2⟩ := hOrd bo.id bo hbo
      subst h1
      rw [← hox]
      exact advance_ordInv bo.id bo qty price hi1 hi2 hq hqb
    · rw [if_neg h1] at hix
      by_cases h2 : i = so.id
      · rw [if_pos h2, hso, Option.map_some'] at hix
        have hox := Option.some.inj hix
        obtain ⟨hi1, hi2⟩ := hOrd so.id so hso
        subst h2
        rw [← hox]
        exact advance_ordInv so.id so qty price hi1 hi2 hq hqs
      · rw [if_neg h2] at hix
        exact hOrd i ox hix
  · intro tk bk hbk
    rw [tradeStep_books] at hbk
    obtain ⟨hbids, hasks⟩ := hBooks tk bk hbk
    have hpt : ∀ i ob, Dict.get? s.orders i = some ob → ∃ ob2,
        Dict.get? (tradeStep s t bo so qty price).orders i = some ob2 ∧
        ob2.side = ob.side ∧ ob2.order_type = ob.order_type ∧ ob2.ticker = ob.ticker := by
      intro i ob hob
      rw [tradeStep_get? s t bo so qty price i hne]
      by_cases h1 : i = bo.id
      · refine ⟨advance qty price ob, ?_, (advance_frame qty price ob).1,
          (advance_frame qty price ob).2.1, (advance_frame qty price ob).2.2.1⟩
        rw [if_pos h1, ← h1, hob, Option.map_some']
      · rw [if_neg h1]
        by_cases h2 : i = so.id
        · refine ⟨advance qty price ob, ?_, (advance_frame qty price ob).1,
            (advance_frame qty price ob).2.1, (advance_frame qty price ob).2.2.1⟩
          rw [if_pos h2, ← h2, hob, Option.map_some']
        · exact ⟨ob, by rw [if_neg h2]; exact hob, rfl, rfl, rfl⟩
    exact ⟨bookSideInv_pointwise s.orders _ tk .buy bk.bids hpt hbids,
           bookSideInv_pointwise s.orders _ tk .sell bk.asks hpt hasks⟩

end AIVerse

namespace AIVerse

/-- Fields of an order record that no trade or status write ever touches. -/
def sameFrame (o o2 : Order) : Prop :=
  o2.id = o.id ∧ o2.side = o.side ∧ o2.order_type = o.order_type ∧
  o2.ticker = o.ticker ∧ o2.quantity = o.quantity ∧ o2.agent_id = o.agent_id

theorem sameFrame_refl (o : Order) : sameFrame o o := ⟨rfl, rfl, rfl, rfl, rfl, rfl⟩

theorem sameFrame_trans {a b c : Order} (h1 : sameFrame a b) (h2 : sameFrame b c) :
    sameFrame a c := by
  obtain ⟨x1, x2, x3, x4, x5, x6⟩ := h1
  obtain ⟨y1, y2, y3, y4, y5, y6⟩ := h2
  exact ⟨y1.trans x1, y2.trans x2, y3.trans x3, y4.trans x4, y5.trans x5, y6.trans x6⟩

theorem advance_sameFrame (qty price : ℚ) (o : Order) : sameFrame o (advance qty price o) :=
  ⟨(advance_frame qty price o).2.2.2.1, (advance_frame qty price o).1,
   (advance_frame qty price o).2.1, (advance_frame qty price o).2.2.1,
   (advance_frame qty price o).2.2.2.2.1, (advance_frame qty price o).2.2.2.2.2⟩

theorem execute_trade_inv (s : Exchange) (xid cid : String) (o c : Order) (qty price : ℚ)
    (ho : Dict.get? s.orders xid = some o) (hc : Dict.get? s.orders cid = some c)
    (hoid : o.id = xid) (hcid : c.id = cid) (hne : xid ≠ cid)
    (hq : 0 < qty) (hqo : qty ≤ o.quantity - o.filled_quantity)
    (hqc : qty ≤ c.quantity - c.filled_quantity) (h : Inv s) :
    Inv (s.execute_trade xid cid qty price) ∧
    (s.execute_trade xid cid qty price).order_books = s.order_books ∧
    (∀ i, Dict.get? (s.execute_trade xid cid qty price).orders i =
      if i = xid then some (advance qty price o)
      else if i = cid then some (advance qty price c)
      else Dict.get? s.orders i) := by
  rw [execute_trade_eq s xid cid o c qty price ho hc]
  have hbo : Dict.get? s.orders o.id = some o := by rw [hoid]; exact ho
  have hco : Dict.get? s.orders c.id = some c := by rw [hcid]; exact hc
  have hne2 : o.id ≠ c.id := by rw [hoid, hcid]; exact hne
  by_cases hside : o.side = .buy
  · rw [if_pos hside, if_pos hside]
    refine ⟨tradeStep_inv s o.ticker o c qty price hbo hco hne2 hq hqo hqc h,
      tradeStep_books s o.ticker o c qty price, ?_⟩
    intro i
    rw [tradeStep_get? s o.ticker o c qty price i hne2]
    by_cases h1 : i = xid
    · rw [if_pos h1, if_pos (by rw [h1, ← hoid]), hbo, Option.map_some']
    · rw [if_neg h1, if_neg (fun hcc : i = o.id => h1 (by rw [hcc, hoid]))]
      by_cases h2 : i = cid
      · rw [if_pos h2, if_pos (by rw [h2, ← hcid]), hco, Option.map_some']
      · rw [if_neg h2, if_neg (fun hcc : i = c.id => h2 (by rw [hcc, hcid]))]
  · rw [if_neg hside, if_neg hside]
    refine ⟨tradeStep_inv s o.ticker c o qty price hco hbo (Ne.symm hne2) hq hqc hqo h,
      tradeStep_books s o.ticker c o qty price, ?_⟩
    intro i
    rw [tradeStep_get? s o.ticker c o qty price i (Ne.symm hne2)]
    by_cases h1 : i = xid
    · rw [if_pos h1, if_neg (fun hcc : i = c.id => hne (by rw [← h1, hcc, hcid])),
        if_pos (by rw [h1, ← hoid]), hbo, Option.map_some']
    · rw [if_neg h1]
      by_cases h2 : i = cid
      · rw [if_pos h2, if_pos (by rw [h2, ← hcid]), hco, Option.map_some']
      · rw [if_neg h2, if_neg (fun hcc : i = c.id => h2 (by rw [hcc, hcid])),
          if_neg (fun hcc : i = o.id => h1 (by rw [hcc, hoid]))]

/-! ### Invariants under sides shrinking, status writes, market-price pops -/

theorem booksInv_set_sub (s : Exchange) (t : String) (bk bk2 : OrderBook)
    (hbk : Dict.get? s.order_books t = some bk)
    (hbids : ∀ e ∈ bk2.bids, e ∈ bk.bids) (hasks : ∀ e ∈ bk2.asks, e ∈ bk.asks)
    (h : BooksInv s) :
    BooksInv { s with order_books := s.order_books.set t bk2 } := by
  intro t2 bk3 hbk3
  have hbk4 : Dict.get? (s.order_books.set t bk2) t2 = some bk3 := hbk3
  by_cases ht : t2 = t
  · subst ht
    rw [Dict.get?_set_self] at hbk4
    have hb2 := Option.some.inj hbk4
    obtain ⟨h1, h2⟩ := h t2 bk hbk
    subst hb2
    exact ⟨fun e he => h1 e (hbids e he), fun e he => h2 e (hasks e he)⟩
  · rw [Dict.get?_set_ne _ _ _ _ ht] at hbk4
    exact h t2 bk3 hbk4

theorem notInBooks_set_sub (s : Exchange) (xid t : String) (bk bk2 : OrderBook)
    (hbk : Dict.get? s.order_books t = some bk)
    (hbids : ∀ e ∈ bk2.bids, e ∈ bk.bids) (hasks : ∀ e ∈ bk2.asks, e ∈ bk.asks)
    (h : NotInBooks s xid) :
    NotInBooks { s with order_books := s.order_books.set t bk2 } xid := by
  intro t2 bk3 hbk3
  have hbk4 : Dict.get? (s.order_books.set t bk2) t2 = some bk3 := hbk3
  by_cases ht : t2 = t
  · subst ht
    rw [Dict.get?_set_self] at hbk4
    have hb2 := Option.some.inj hbk4
    obtain ⟨h1, h2⟩ := h t2 bk hbk
    subst hb2
    exact ⟨fun e he => h1 e (hbids e he), fun e he => h2 e (hasks e he)⟩
  · rw [Dict.get?_set_ne _ _ _ _ ht] at hbk4
    exact h t2 bk3 hbk4

theorem notInBooks_of_books_eq (s s2 : Exchange) (xid : String)
    (heq : s2.order_books = s.order_books) (h : NotInBooks s xid) : NotInBooks s2 xid := by
  intro t bk hbk
  rw [heq] at hbk
  exact h t bk hbk

theorem notInBooks_of_fresh (s : Exchange) (oid : String)
    (hfresh : Dict.get? s.orders oid = none) (hB : BooksInv s) : NotInBooks s oid := by
  intro t bk hbk
  obtain ⟨hb, ha⟩ := hB t bk hbk
  constructor <;> intro e he hc
  · obtain ⟨o2, ho2, _⟩ := hb e he
    rw [hc, hfresh] at ho2
    exact Option.noConfusion ho2
  · obtain ⟨o2, ho2, _⟩ := ha e he
    rw [hc, hfresh] at ho2
    exact Option.noConfusion ho2

theorem ordersInv_updateOrder (s : Exchange) (k : String) (f : Order → Order)
    (hf : ∀ i ob, OrdInv i ob → (ob.status = .pending → ob.filled_quantity < ob.quantity) →
      OrdInv i (f ob) ∧
        ((f ob).status = .pending → (f ob).filled_quantity < (f ob).quantity))
    (h : OrdersInv s) : OrdersInv (s.updateOrder k f) := by
  intro i ob hob
  have hob2 : Dict.get? (Dict.modify s.orders k f) i = some ob := hob
  by_cases hk : i = k
  · subst hk
    rw [Dict.get?_modify_self] at hob2
    cases hold : Dict.get? s.orders i with
    | none => rw [hold] at hob2; exact Option.noConfusion hob2
    | some ob0 =>
      rw [hold, Option.map_some'] at hob2
      have hfo := Option.some.inj hob2
      obtain ⟨h1, h2⟩ := h i ob0 hold
      rw [← hfo]
      exact hf i ob0 h1 h2
  · rw [Dict.get?_modify_ne s.orders k i f hk] at hob2
    exact h i ob hob2

theorem booksInv_updateOrder (s : Exchange) (k : String) (f : Order → Order)
    (hfr : framePreserving f) (h : BooksInv s) : BooksInv (s.updateOrder k f) := by
  intro t bk hbk
  have hbk2 : Dict.get? s.order_books t = some bk := hbk
  obtain ⟨h1, h2⟩ := h t bk hbk2
  exact ⟨bookSideInv_modify s.orders k f t .buy bk.bids hfr h1,
         bookSideInv_modify s.orders k f t .sell bk.asks hfr h2⟩

theorem inv_updateOrder (s : Exchange) (k : String) (f : Order → Order)
    (hfr : framePreserving f)
    (hf : ∀ i ob, OrdInv i ob → (ob.status = .pending → ob.filled_quantity < ob.quantity) →
      OrdInv i (f ob) ∧
        ((f ob).status = .pending → (f ob).filled_quantity < (f ob).quantity))
    (h : Inv s) : Inv (s.updateOrder k f) :=
  ⟨ordersInv_updateOrder s k f hf h.1, booksInv_updateOrder s k f hfr h.2.1, h.2.2⟩

end AIVerse

namespace AIVerse

/-- What one run of the matching loop guarantees relative to the state it
started from: the invariants still hold, the matched order is still
outside the books, and every indexed order evolved in place, its
immutable fields intact. -/
def LoopPost (s : Exchange) (oid : String) (s2 : Exchange) : Prop :=
  Inv s2 ∧ NotInBooks s2 oid ∧
  (∀ i ob, Dict.get? s.orders i = some ob →
    ∃ ob2, Dict.get? s2.orders i = some ob2 ∧ sameFrame ob ob2) ∧
  (∀ i, Dict.get? s.orders i = none → Dict.get? s2.orders i = none)

theorem loopPost_refl (s : Exchange) (oid : String) (h : Inv s) (hn : NotInBooks s oid) :
    LoopPost s oid s := ⟨h, hn, fun i ob hob => ⟨ob, hob, sameFrame_refl ob⟩, fun i hi => hi⟩

theorem matchLoop_trade (n : ℕ)
    (IH : ∀ (s : Exchange) (oid : String), Inv s → NotInBooks s oid →
      LoopPost s oid (s.matchLoopF oid n))
    (s1 : Exchange) (oid : String) (o counter : Order)
    (ho1 : Dict.get? s1.orders oid = some o)
    (hc1 : Dict.get? s1.orders counter.id = some counter)
    (hoid : o.id = oid) (hneq : oid ≠ counter.id)
    (hfo : o.filled_quantity < o.quantity) (hfc : counter.filled_quantity < counter.quantity)
    (hI : Inv s1) (hNB : NotInBooks s1 oid) :
    LoopPost s1 oid ((s1.execute_trade oid counter.id
      (min (o.quantity - o.filled_quantity) (counter.quantity - counter.filled_quantity))
      (counter.price.getD 0)).matchLoopF oid n) := by
  obtain ⟨hI2, hB2, hG2⟩ := execute_trade_inv s1 oid counter.id o counter
      (min (o.quantity - o.filled_quantity) (counter.quantity - counter.filled_quantity))
      (counter.price.getD 0) ho1 hc1 hoid rfl hneq
      (lt_min (by linarith) (by linarith)) (min_le_left _ _) (min_le_right _ _) hI
  have hNB2 := notInBooks_of_books_eq s1 _ oid hB2 hNB
  obtain ⟨ihI, ihNB, ihES, ihEN⟩ := IH _ oid hI2 hNB2
  refine ⟨ihI, ihNB, ?_, ?_⟩
  · intro i ob hob
    by_cases hio : i = oid
    · subst hio
      rw [ho1] at hob
      have hob2 := Option.some.inj hob
      subst hob2
      obtain ⟨ob3, h3, hf3⟩ := ihES i _ (by rw [hG2 i, if_pos rfl])
      exact ⟨ob3, h3, sameFrame_trans (advance_sameFrame _ _ o) hf3⟩
    · by_cases hic : i = counter.id
      · subst hic
        rw [hc1] at hob
        have hob2 := Option.some.inj hob
        subst hob2
        obtain ⟨ob3, h3, hf3⟩ := ihES counter.id _
          (by rw [hG2 counter.id, if_neg hio, if_pos rfl])
        exact ⟨ob3, h3, sameFrame_trans (advance_sameFrame _ _ counter) hf3⟩
      · exact ihES i ob (by rw [hG2 i, if_neg hio, if_neg hic]; exact hob)
  · intro i hi
    by_cases hio : i = oid
    · subst hio
      rw [ho1] at hi
      exact Option.noConfusion hi
    · by_cases hic : i = counter.id
      · subst hic
        rw [hc1] at hi
        exact Option.noConfusion hi
      · exact ihEN i (by rw [hG2 i, if_neg hio, if_neg hic]; exact hi)

theorem matchLoopF_inv : ∀ (fuel : ℕ) (s : Exchange) (oid : String),
    Inv s → NotInBooks s oid → LoopPost s oid (s.matchLoopF oid fuel) := by
  intro fuel
  induction fuel with
  | zero =>
    intro s oid h hn
    exact loopPost_refl s oid h hn
  | succ n ih =>
    intro s oid h hn
    simp only [Exchange.matchLoopF]
    cases hlook : Dict.get? s.orders oid with
    | none => exact loopPost_refl s oid h hn
    | some o =>
      dsimp only
      by_cases hcond : o.filled_quantity < o.quantity
      · rw [if_pos hcond]
        cases hbk : Dict.get? s.order_books o.ticker with
        | none => exact loopPost_refl s oid h hn
        | some bk =>
          dsimp only
          have hoid2 : o.id = oid := (h.1 oid o hlook).1.1.symm
          by_cases hside : o.side = .buy
          · rw [if_pos hside]
            simp only [OrderBook.best_ask]
            cases hbest : bestOf s.orders bk.asks with
            | mk ro l2 =>
              dsimp only
              have hsubA : ∀ e ∈ l2, e ∈ bk.asks := fun e he =>
                bestOf_snd_subset s.orders bk.asks e (by rw [hbest]; exact he)
              have hI1 : Inv { s with
                               order_books := Dict.set s.order_books o.ticker
                                 { bk with asks := l2 } } :=
                ⟨h.1, booksInv_set_sub s o.ticker bk _ hbk (fun e2 he2 => he2) hsubA h.2.1,
                  h.2.2⟩
              have hn1 : NotInBooks { s with
                                      order_books := Dict.set s.order_books o.ticker
                                        { bk with asks := l2 } } oid :=
                notInBooks_set_sub s oid o.ticker bk _ hbk (fun e2 he2 => he2) hsubA hn
              cases ro with
              | none =>
                exact ⟨hI1, hn1, fun i ob hob => ⟨ob, hob, sameFrame_refl ob⟩,
                  fun i hi => hi⟩
              | some counter =>
                dsimp only
                obtain ⟨hcPend, e, rest, hl2, hce⟩ :=
                  bestOfF_some_shape s.orders bk.asks.length bk.asks l2 counter hbest
                have heid : e.oid = counter.id := (h.1 e.oid counter hce).1.1
                have hcid : Dict.get? s.orders counter.id = some counter := by
                  rw [← heid]
                  exact hce
                have hcfq : counter.filled_quantity < counter.quantity :=
                  (h.1 e.oid counter hce).2 hcPend
                have heMem : e ∈ bk.asks := hsubA e (by rw [hl2]; exact List.mem_cons_self e rest)
                have hneq : oid ≠ counter.id := by
                  intro hcc
                  exact (hn o.ticker bk hbk).2 e heMem (by rw [heid, ← hcc])
                by_cases hb1 : o.side = OrderSide.buy ∧ Exchange.truthy o.price = true ∧
                    counter.price.getD 0 > o.price.getD 0
                · rw [if_pos hb1]
                  exact ⟨hI1, hn1, fun i ob hob => ⟨ob, hob, sameFrame_refl ob⟩,
                    fun i hi => hi⟩
                · rw [if_neg hb1,
                    if_neg (fun hx : o.side = OrderSide.sell ∧ Exchange.truthy o.price = true ∧
                      counter.price.getD 0 < o.price.getD 0 =>
                      OrderSide.noConfusion (hside.symm.trans hx.1))]
                  exact matchLoop_trade n ih
                    { s with
                      order_books := Dict.set s.order_books o.ticker
                        { bk with asks := l2 } }
                    oid o counter hlook hcid hoid2 hneq hcond hcfq hI1 hn1
          · rw [if_neg hside]
            simp only [OrderBook.best_bid]
            cases hbest : bestOf s.orders bk.bids with
            | mk ro l2 =>
              dsimp only
              have hsubB : ∀ e ∈ l2, e ∈ bk.bids := fun e he =>
                bestOf_snd_subset s.orders bk.bids e (by rw [hbest]; exact he)
              have hI1 : Inv { s with
                               order_books := Dict.set s.order_books o.ticker
                                 { bk with bids := l2 } } :=
                ⟨h.1, booksInv_set_sub s o.ticker bk _ hbk hsubB (fun e2 he2 => he2) h.2.1,
                  h.2.2⟩
              have hn1 : NotInBooks { s with
                                      order_books := Dict.set s.order_books o.ticker
                                        { bk with bids := l2 } } oid :=
                notInBooks_set_sub s oid o.ticker bk _ hbk hsubB (fun e2 he2 => he2) hn
              cases ro with
              | none =>
                exact ⟨hI1, hn1, fun i ob hob => ⟨ob, hob, sameFrame_refl ob⟩,
                  fun i hi => hi⟩
              | some counter =>
                dsimp only
                obtain ⟨hcPend, e, rest, hl2, hce⟩ :=
                  bestOfF_some_shape s.orders bk.bids.length bk.bids l2 counter hbest
                have heid : e.oid = counter.id := (h.1 e.oid counter hce).1.1
                have hcid : Dict.get? s.orders counter.id = some counter := by
                  rw [← heid]
                  exact hce
                have hcfq : counter.filled_quantity < counter.quantity :=
                  (h.1 e.oid counter hce).2 hcPend
                have heMem : e ∈ bk.bids := hsubB e (by rw [hl2]; exact List.mem_cons_self e rest)
                have hneq : oid ≠ counter.id := by
                  intro hcc
                  exact (hn o.ticker bk hbk).1 e heMem (by rw [heid, ← hcc])
                rw [if_neg (fun hx : o.side = OrderSide.buy ∧ Exchange.truthy o.price = true ∧
                    counter.price.getD 0 > o.price.getD 0 => hside hx.1)]
                by_cases hb2 : o.side = OrderSide.sell ∧ Exchange.truthy o.price = true ∧
                    counter.price.getD 0 < o.price.getD 0
                · rw [if_pos hb2]
                  exact ⟨hI1, hn1, fun i ob hob => ⟨ob, hob, sameFrame_refl ob⟩,
                    fun i hi => hi⟩
                · rw [if_neg hb2]
                  exact matchLoop_trade n ih
                    { s with
                      order_books := Dict.set s.order_books o.ticker
                        { bk with bids := l2 } }
                    oid o counter hlook hcid hoid2 hneq hcond hcfq hI1 hn1
      · rw [if_neg hcond]
        exact loopPost_refl s oid h hn

end AIVerse

namespace AIVerse

theorem updateOrder_orders (s : Exchange) (k : String) (f : Order → Order) :
    (s.updateOrder k f).orders = Dict.modify s.orders k f := rfl

theorem updateOrder_books (s : Exchange) (k : String) (f : Order → Order) :
    (s.updateOrder k f).order_books = s.order_books := rfl

theorem match_order_post (s : Exchange) (oid : String) (h : Inv s) (hn : NotInBooks s oid) :
    LoopPost s oid (s.match_order oid) := by
  unfold Exchange.match_order
  cases hlook : Dict.get? s.orders oid with
  | none => exact loopPost_refl s oid h hn
  | some o =>
    dsimp only
    cases hbk : Dict.get? s.order_books o.ticker with
    | none => exact loopPost_refl s oid h hn
    | some bk =>
      dsimp only
      obtain ⟨hI1, hNB1, hES1, hEN1⟩ :=
        matchLoopF_inv ((if o.side = OrderSide.buy then bk.asks else bk.bids).length + 1)
          s oid h hn
      refine ⟨inv_updateOrder _ oid _ ?_ ?_ hI1, ?_, ?_, ?_⟩
      · intro ob
        dsimp only
        split
        · exact ⟨rfl, rfl, rfl, rfl, rfl⟩
        · split
          · exact ⟨rfl, rfl, rfl, rfl, rfl⟩
          · exact ⟨rfl, rfl, rfl, rfl, rfl⟩
      · intro i2 ob hOI hp
        dsimp only
        by_cases h1 : ob.filled_quantity ≥ ob.quantity
        · rw [if_pos h1]
          obtain ⟨hid, hq0, hf0, hfq, hfil, hpart⟩ := hOI
          exact ⟨⟨hid, hq0, hf0, hfq, fun _ => le_antisymm hfq h1,
            fun hx => absurd hx (by intro hc; exact OrderStatus.noConfusion hc)⟩,
            fun hx => absurd hx (by intro hc; exact OrderStatus.noConfusion hc)⟩
        · rw [if_neg h1]
          push_neg at h1
          by_cases h2 : ob.filled_quantity > 0
          · rw [if_pos h2]
            obtain ⟨hid, hq0, hf0, hfq, hfil, hpart⟩ := hOI
            exact ⟨⟨hid, hq0, hf0, hfq,
              fun hx => absurd hx (by intro hc; exact OrderStatus.noConfusion hc),
              fun _ => ⟨h2, h1⟩⟩,
              fun hx => absurd hx (by intro hc; exact OrderStatus.noConfusion hc)⟩
          · rw [if_neg h2]
            exact ⟨hOI, fun _ => h1⟩
      · exact hNB1
      · intro i ob hob
        obtain ⟨ob2, hob2, hf2⟩ := hES1 i ob hob
        by_cases hio : i = oid
        · subst hio
          refine ⟨_, by rw [updateOrder_orders, Dict.get?_modify_self, hob2,
            Option.map_some'], sameFrame_trans hf2 ?_⟩
          dsimp only
          split
          · exact ⟨rfl, rfl, rfl, rfl, rfl, rfl⟩
          · split
            · exact ⟨rfl, rfl, rfl, rfl, rfl, rfl⟩
            · exact sameFrame_refl ob2
        · exact ⟨ob2, by rw [updateOrder_orders, Dict.get?_modify_ne _ _ _ _ hio]; exact hob2,
            hf2⟩
      · intro i hi
        by_cases hio : i = oid
        · subst hio
          rw [updateOrder_orders, Dict.get?_modify_self, hEN1 i hi]
          rfl
        · rw [updateOrder_orders, Dict.get?_modify_ne _ _ _ _ hio]
          exact hEN1 i hi

end AIVerse

namespace AIVerse

theorem get_market_price_inv (s : Exchange) (t : String) (side : OrderSide) (h : Inv s) :
    Inv (s.get_market_price t side).2 ∧
    (s.get_market_price t side).2.orders = s.orders ∧
    (s.get_market_price t side).2.agents = s.agents ∧
    (s.get_market_price t side).2.companies = s.companies ∧
    (∀ xid, NotInBooks s xid → NotInBooks (s.get_market_price t side).2 xid) := by
  unfold Exchange.get_market_price
  cases hbk : Dict.get? s.order_books t with
  | none => exact ⟨h, rfl, rfl, rfl, fun _ hx => hx⟩
  | some book =>
    dsimp only
    by_cases hside : side = OrderSide.buy
    · rw [if_pos hside]
      simp only [OrderBook.best_ask]
      cases hbest : bestOf s.orders book.asks with
      | mk ro l2 =>
        dsimp only
        have hsubA : ∀ e ∈ l2, e ∈ book.asks := fun e he =>
          bestOf_snd_subset s.orders book.asks e (by rw [hbest]; exact he)
        have hI1 : Inv { s with
            order_books := Dict.set s.order_books t { book with asks := l2 } } :=
          ⟨h.1, booksInv_set_sub s t book _ hbk (fun e2 he2 => he2) hsubA h.2.1, h.2.2⟩
        have hN1 : ∀ xid, NotInBooks s xid → NotInBooks { s with
            order_books := Dict.set s.order_books t { book with asks := l2 } } xid :=
          fun xid hx => notInBooks_set_sub s xid t book _ hbk (fun e2 he2 => he2) hsubA hx
        cases ro with
        | none => exact ⟨hI1, rfl, rfl, rfl, hN1⟩
        | some a => exact ⟨hI1, rfl, rfl, rfl, hN1⟩
    · rw [if_neg hside]
      simp only [OrderBook.best_bid]
      cases hbest : bestOf s.orders book.bids with
      | mk ro l2 =>
        dsimp only
        have hsubB : ∀ e ∈ l2, e ∈ book.bids := fun e he =>
          bestOf_snd_subset s.orders book.bids e (by rw [hbest]; exact he)
        have hI1 : Inv { s with
            order_books := Dict.set s.order_books t { book with bids := l2 } } :=
          ⟨h.1, booksInv_set_sub s t book _ hbk hsubB (fun e2 he2 => he2) h.2.1, h.2.2⟩
        have hN1 : ∀ xid, NotInBooks s xid → NotInBooks { s with
            order_books := Dict.set s.order_books t { book with bids := l2 } } xid :=
          fun xid hx => notInBooks_set_sub s xid t book _ hbk hsubB (fun e2 he2 => he2) hx
        cases ro with
        | none => exact ⟨hI1, rfl, rfl, rfl, hN1⟩
        | some a => exact ⟨hI1, rfl, rfl, rfl, hN1⟩

theorem execute_market_order_inv (s : Exchange) (oid : String)
    (h : Inv s) (hn : NotInBooks s oid) : Inv (s.execute_market_order oid) := by
  unfold Exchange.execute_market_order
  cases hlook : Dict.get? s.orders oid with
  | none => exact h
  | some o =>
    dsimp only
    obtain ⟨hI1, hOeq, hAeq, hCeq, hNtr⟩ := get_market_price_inv s o.ticker o.side h
    have hI2 : Inv ((s.get_market_price o.ticker o.side).2.updateOrder oid
        (fun o2 => { o2 with price := some (s.get_market_price o.ticker o.side).1 })) :=
      inv_updateOrder _ oid _ (fun ob => ⟨rfl, rfl, rfl, rfl, rfl⟩)
        (fun i2 ob hOI hp => ⟨hOI, hp⟩) hI1
    have hNB2 : NotInBooks ((s.get_market_price o.ticker o.side).2.updateOrder oid
        (fun o2 => { o2 with price := some (s.get_market_price o.ticker o.side).1 })) oid :=
      hNtr oid hn
    obtain ⟨hI3, hNB3, hES3, hEN3⟩ := match_order_post _ oid hI2 hNB2
    refine inv_updateOrder _ oid _ ?_ ?_ hI3
    · intro ob
      dsimp only
      split
      · exact ⟨rfl, rfl, rfl, rfl, rfl⟩
      · exact ⟨rfl, rfl, rfl, rfl, rfl⟩
    · intro i2 ob hOI hp
      dsimp only
      by_cases hpd : ob.status = OrderStatus.pending
      · rw [if_pos hpd]
        obtain ⟨hid, hq0, hf0, hfq, hfil, hpart⟩ := hOI
        exact ⟨⟨hid, hq0, hf0, hfq,
          fun hx => absurd hx (by intro hc; exact OrderStatus.noConfusion hc),
          fun hx => absurd hx (by intro hc; exact OrderStatus.noConfusion hc)⟩,
          fun hx => absurd hx (by intro hc; exact OrderStatus.noConfusion hc)⟩
      · rw [if_neg hpd]
        exact ⟨hOI, hp⟩

end AIVerse

namespace AIVerse

theorem finishSubmit_inv (s : Exchange) (order : Order) (ticker : String)
    (hfresh : Dict.get? s.orders order.id = none)
    (hst : order.status = .pending) (hfq : order.filled_quantity = 0)
    (hq : 0 < order.quantity) (htick : String.upper order.ticker = ticker)
    (h : Inv s) : Inv (s.finishSubmit order ticker).2 := by
  unfold Exchange.finishSubmit
  dsimp only
  have hI1 : Inv { s with orders := Dict.set s.orders order.id order } := by
    refine ⟨?_, ?_, h.2.2⟩
    · intro i ob hob
      have hob2 : Dict.get? (Dict.set s.orders order.id order) i = some ob := hob
      by_cases hio : i = order.id
      · subst hio
        rw [Dict.get?_set_self] at hob2
        have hoo := Option.some.inj hob2
        subst hoo
        refine ⟨⟨rfl, hq, by rw [hfq], by rw [hfq]; exact hq.le,
          fun hx => absurd (hst.symm.trans hx)
            (by intro hc; exact OrderStatus.noConfusion hc),
          fun hx => absurd (hst.symm.trans hx)
            (by intro hc; exact OrderStatus.noConfusion hc)⟩,
          fun _ => by rw [hfq]; exact hq⟩
      · rw [Dict.get?_set_ne _ _ _ _ hio] at hob2
        exact h.1 i ob hob2
    · intro t bk hbk
      obtain ⟨h1, h2⟩ := h.2.1 t bk hbk
      exact ⟨bookSideInv_set_fresh s.orders order.id order t .buy bk.bids hfresh h1,
             bookSideInv_set_fresh s.orders order.id order t .sell bk.asks hfresh h2⟩
  have hNB1 : NotInBooks { s with orders := Dict.set s.orders order.id order } order.id :=
    notInBooks_of_fresh s order.id hfresh h.2.1
  by_cases hty : order.order_type = OrderType.market
  · rw [if_pos hty]
    exact execute_market_order_inv _ order.id hI1 hNB1
  · rw [if_neg hty]
    have hlim : order.order_type = OrderType.limit := by
      cases hcc : order.order_type
      · exact absurd hcc hty
      · rfl
    obtain ⟨hI3, hNB3, hES3, hEN3⟩ := match_order_post _ order.id hI1 hNB1
    obtain ⟨o2, ho2, hfr2⟩ :=
      hES3 order.id order (Dict.get?_set_self s.orders order.id order)
    rw [ho2]
    dsimp only
    by_cases hp2 : o2.status = OrderStatus.pending
    · rw [if_pos hp2]
      refine ⟨hI3.1, ?_, hI3.2.2⟩
      intro t bk4 hbk4
      have ho2id : order.id = o2.id :=
        (hI3.1 order.id o2 ho2).1.1
      have ho2get : Dict.get? ({ s with
          orders := Dict.set s.orders order.id order }.match_order order.id).orders o2.id =
          some o2 := by
        rw [← ho2id]
        exact ho2
      have hbk5 : Dict.get? (Dict.modify ({ s with
          orders := Dict.set s.orders order.id order }.match_order
            order.id).order_books ticker (fun b => b.add_order o2)) t = some bk4 := hbk4
      by_cases ht : t = ticker
      · subst ht
        rw [Dict.get?_modify_self] at hbk5
        cases hbko : Dict.get? ({ s with
            orders := Dict.set s.orders order.id order }.match_order
              order.id).order_books t with
        | none =>
          rw [hbko] at hbk5
          exact Option.noConfusion hbk5
        | some bk0 =>
          rw [hbko, Option.map_some'] at hbk5
          have hbb := Option.some.inj hbk5
          obtain ⟨hs1, hs2⟩ := hI3.2.1 t bk0 hbko
          rw [← hbb]
          unfold OrderBook.add_order
          dsimp only
          have hticker2 : String.upper o2.ticker = t := by
            rw [hfr2.2.2.2.1, htick]
          have hlim2 : o2.order_type = OrderType.limit := by
            rw [hfr2.2.2.1, hlim]
          by_cases hsd : o2.side = OrderSide.buy
          · rw [if_pos hsd]
            dsimp only
            constructor
            · intro e2 he2
              rcases heappush_mem _ _ _ he2 with he3 | he3
              · refine ⟨o2, ?_, hsd, hlim2, hticker2⟩
                rw [he3]
                exact ho2get
              · exact hs1 e2 he3
            · exact hs2
          · rw [if_neg hsd]
            dsimp only
            have hsd2 : o2.side = OrderSide.sell := by
              cases hcc : o2.side
              · exact absurd hcc hsd
              · rfl
            constructor
            · exact hs1
            · intro e2 he2
              rcases heappush_mem _ _ _ he2 with he3 | he3
              · refine ⟨o2, ?_, hsd2, hlim2, hticker2⟩
                rw [he3]
                exact ho2get
              · exact hs2 e2 he3
      · rw [Dict.get?_modify_ne _ _ _ _ ht] at hbk5
        exact hI3.2.1 t bk4 hbk5
    · rw [if_neg hp2]
      exact hI3

end AIVerse

namespace AIVerse

theorem submit_order_inv (s : Exchange) (order : Order)
    (hfresh : Dict.get? s.orders order.id = none)
    (hst : order.status = .pending) (hfq : order.filled_quantity = 0)
    (hq : 0 < order.quantity)
    (h : Inv s) : Inv (s.submit_order order).2 := by
  unfold Exchange.submit_order
  cases hag : Dict.get? s.agents order.agent_id with
  | none => exact h
  | some agent =>
    dsimp only
    by_cases hco : (Dict.get? s.companies (String.upper order.ticker)).isNone = true
    · rw [if_pos hco]
      exact h
    · rw [if_neg hco]
      by_cases hsd : order.side = OrderSide.buy
      · rw [if_pos hsd]
        by_cases htr : Exchange.truthy order.price = true
        · rw [if_pos htr]
          dsimp only
          by_cases hbal : agent.balance < order.quantity * order.price.getD 0
          · rw [if_pos hbal]
            exact h
          · rw [if_neg hbal]
            exact finishSubmit_inv s order (String.upper order.ticker) hfresh hst hfq hq rfl h
        · rw [if_neg htr]
          obtain ⟨hI1, hOeq, hAeq, hCeq, hNtr⟩ :=
            get_market_price_inv s (String.upper order.ticker) OrderSide.buy h
          by_cases hbal : agent.balance <
              order.quantity * (s.get_market_price (String.upper order.ticker) OrderSide.buy).1
          · rw [if_pos hbal]
            exact hI1
          · rw [if_neg hbal]
            refine finishSubmit_inv _ order (String.upper order.ticker) ?_ hst hfq hq rfl hI1
            rw [hOeq]
            exact hfresh
      · rw [if_neg hsd]
        by_cases hhold : (Dict.get? agent.portfolio (String.upper order.ticker)).getD 0 <
            order.quantity
        · rw [if_pos hhold]
          exact h
        · rw [if_neg hhold]
          exact finishSubmit_inv s order (String.upper order.ticker) hfresh hst hfq hq rfl h

theorem register_agent_inv (s : Exchange) (aid n : String) (b : ℚ) (h : Inv s) :
    Inv (s.register_agent aid n b).2 := by
  unfold Exchange.register_agent
  cases hag : Dict.get? s.agents aid with
  | some a => exact h
  | none =>
    dsimp only
    refine ⟨h.1, h.2.1, ?_⟩
    intro p hp
    rcases Dict.mem_set _ _ _ _ hp with hmem | hpv
    · exact h.2.2 p hmem
    · rw [hpv]
      intro q hq2
      exact absurd hq2 (List.not_mem_nil q)

theorem create_company_inv (s : Exchange) (fid t n d st : String) (sc : ℚ) (h : Inv s) :
    Inv (s.create_company fid t n d st sc).2 := by
  unfold Exchange.create_company
  cases hag : Dict.get? s.agents fid with
  | none => exact h
  | some founder =>
    dsimp only
    by_cases hbal : founder.balance < 10000
    · rw [if_pos hbal]
      exact h
    · rw [if_neg hbal]
      by_cases hdup : (Dict.get? s.companies t).isSome = true
      · rw [if_pos hdup]
        exact h
      · rw [if_neg hdup]
        dsimp only
        refine ⟨h.1, ?_, ?_⟩
        · intro t2 bk hbk
          have hbk2 : Dict.get? (Dict.set s.order_books (String.upper t)
              { ticker := String.upper t }) t2 = some bk := hbk
          by_cases ht2 : t2 = String.upper t
          · subst ht2
            rw [Dict.get?_set_self] at hbk2
            have hbb := Option.some.inj hbk2
            rw [← hbb]
            exact ⟨fun e he => absurd he (List.not_mem_nil e),
                   fun e he => absurd he (List.not_mem_nil e)⟩
          · rw [Dict.get?_set_ne _ _ _ _ ht2] at hbk2
            exact h.2.1 t2 bk hbk2
        · intro p hp
          have hp2 : p ∈ (s.agents.modify fid (fun a =>
              { a with balance := a.balance - 10000 })).modify fid (fun a =>
              { a with portfolio :=
                  a.portfolio.set (String.upper t) (1000000 : ℚ) }) := hp
          refine portInv_modify_mem _ fid _ ?_
            (portInv_modify_mem _ fid _ ?_ h.2.2) p hp2
          · intro a ha q hq2
            dsimp only at hq2
            rcases Dict.mem_set _ _ _ _ hq2 with hmem | hpv
            · exact ha q hmem
            · rw [hpv]
              norm_num
          · exact fun a ha => ha

theorem use_service_inv (w : World) (aid t : String) (h : Inv w.exchange) :
    Inv (w.use_service aid t).2.exchange := by
  unfold World.use_service
  cases hag : Dict.get? w.exchange.agents aid with
  | none => exact h
  | some agent =>
    dsimp only
    cases hco : Dict.get? w.exchange.companies (String.upper t) with
    | none => exact h
    | some company =>
      dsimp only
      by_cases hbk : company.status = CompanyStatus.bankrupt
      · rw [if_pos hbk]
        exact h
      · rw [if_neg hbk]
        by_cases hbal : agent.balance < company.service_cost
        · rw [if_pos hbal]
          exact h
        · rw [if_neg hbal]
          refine ⟨h.1, h.2.1, ?_⟩
          intro p hp
          have hp2 : p ∈ w.exchange.agents.modify aid (fun a =>
              { a with balance := a.balance - company.service_cost }) := hp
          refine portInv_modify_mem w.exchange.agents aid _ ?_ h.2.2 p hp2
          exact fun a ha => ha

theorem daily_income_inv (s : Exchange) (h : Inv s) : Inv s.daily_income := by
  refine ⟨h.1, h.2.1, ?_⟩
  exact portInv_map_mem s.agents _ (fun p hp => hp) h.2.2

theorem distributeDividends_inv (ex : Exchange) (rate : ℚ) (t : String) (h : Inv ex) :
    Inv (World.distributeDividends ex rate t) := by
  unfold World.distributeDividends
  cases hco : Dict.get? ex.companies t with
  | none => exact h
  | some company =>
    dsimp only
    refine ⟨h.1, h.2.1, ?_⟩
    refine portInv_map_mem ex.agents _ ?_ h.2.2
    intro p hp
    dsimp only
    split
    · exact hp
    · exact hp

theorem bankruptCompany_inv (ex : Exchange) (t : String) (h : Inv ex) :
    Inv (World.bankruptCompany ex t) := by
  unfold World.bankruptCompany
  dsimp only
  cases hco : Dict.get? (Dict.modify ex.companies t (fun c =>
      { c with status := CompanyStatus.bankrupt, share_price := 0, market_cap := 0 })) t with
  | none => exact h
  | some company =>
    dsimp only
    refine ⟨h.1, h.2.1, ?_⟩
    refine portInv_map_mem ex.agents _ ?_ h.2.2
    intro p hp q hq2
    dsimp only at hq2
    exact hp q (Dict.mem_erase _ _ _ hq2)

theorem foldl_inv {β : Type} (f : Exchange → β → Exchange)
    (hf : ∀ ex b, Inv ex → Inv (f ex b)) :
    ∀ (l : List β) (ex : Exchange), Inv ex → Inv (l.foldl f ex) := by
  intro l
  induction l with
  | nil =>
    intro ex h
    exact h
  | cons b rest ih =>
    intro ex h
    exact ih (f ex b) (hf ex b h)

theorem daily_cycle_inv (w : World) (h : Inv w.exchange) : Inv w.daily_cycle.exchange := by
  unfold World.daily_cycle
  dsimp only
  refine foldl_inv _ ?_ _ _ (daily_income_inv w.exchange h)
  intro ex t hex
  dsimp only
  cases hc1 : Dict.get? ex.companies t with
  | none => exact hex
  | some c =>
    dsimp only
    by_cases hcond : c.status = CompanyStatus.publicC ∧ c.revenue > 0
    · rw [if_pos hcond]
      dsimp only
      have hex1 : Inv { World.distributeDividends ex w.dividend_rate t with
          companies := Dict.modify
            (World.distributeDividends ex w.dividend_rate t).companies t
            (fun c2 => { c2 with revenue := 0 }) } :=
        distributeDividends_inv ex w.dividend_rate t hex
      cases hc2 : Dict.get? (Dict.modify
          (World.distributeDividends ex w.dividend_rate t).companies t
          (fun c2 => { c2 with revenue := 0 })) t with
      | none => exact hex1
      | some c1 =>
        dsimp only
        split
        · exact bankruptCompany_inv _ t hex1
        · exact hex1
    · rw [if_neg hcond]
      rw [hc1]
      dsimp only
      split
      · exact bankruptCompany_inv ex t hex
      · exact hex

theorem applyOp_inv (w : World) (op : Op) (hsafe : World.safeOp w op = true)
    (h : Inv w.exchange) : Inv (w.applyOp op).exchange := by
  cases op with
  | register aid n b => exact register_agent_inv w.exchange aid n b h
  | create fid t n d st sc => exact create_company_inv w.exchange fid t n d st sc h
  | submit o =>
    simp only [World.safeOp, World.safeSubmit, Bool.and_eq_true, decide_eq_true_eq,
      Option.isNone_iff_eq_none] at hsafe
    exact submit_order_inv w.exchange o hsafe.1.1.1.1.1 hsafe.1.1.1.1.2 hsafe.1.1.1.2
      hsafe.1.1.2 h
  | use aid t => exact use_service_inv w aid t h
  | daily => exact daily_cycle_inv w h

theorem inv_empty : Inv ({} : Exchange) := by
  refine ⟨?_, ?_, ?_⟩
  · intro i o hio
    exact Option.noConfusion hio
  · intro t bk hbk
    exact Option.noConfusion hbk
  · intro p hp
    exact absurd hp (List.not_mem_nil p)

theorem run_inv : ∀ (ops : List Op) (w : World), World.safeRun w ops = true →
    Inv w.exchange → Inv (w.run ops).exchange := by
  intro ops
  induction ops with
  | nil =>
    intro w _ h
    exact h
  | cons op rest ih =>
    intro w hsafe h
    simp only [World.safeRun, Bool.and_eq_true] at hsafe
    exact ih (w.applyOp op) hsafe.2 (applyOp_inv w op hsafe.1 h)

end AIVerse

namespace AIVerse

/-- C2, amended.  Over every safe trace from the empty world, every entry
present in any agent's portfolio is strictly positive — zero or negative
positions are purged by `_execute_trade`'s deletion of entries that drop
to or below zero.  The `balance ≥ 0` half of claim C2 is false
(`claim_C2_counterexample`): no cash is escrowed for resting bids. -/
theorem claim_C2_amended (ops : List Op) (hsafe : World.safeRun w0 ops = true) :
    ∀ p ∈ (w0.run ops).exchange.agents, ∀ q ∈ p.2.portfolio, 0 < q.2 :=
  (run_inv ops w0 hsafe inv_empty).2.2

theorem claim_C2_witness : World.safeRun w0 opsC2 = true ∧ (0:ℚ) < 100 := by
  refine ⟨by decide, ?_⟩
  have happ := claim_C2_amended opsC2 (by decide)
  rcases hk : Dict.get? (w0.run opsC2).exchange.agents "A" with _ | a
  · exact absurd hk (by decide)
  · have hmem : ("A", a) ∈ (w0.run opsC2).exchange.agents := Dict.get?_mem _ _ _ hk
    have hpf : a.portfolio = [("SRV", (100:ℚ))] := by
      have hmap : (Dict.get? (w0.run opsC2).exchange.agents "A").map Agent.portfolio =
          some [("SRV", (100:ℚ))] := by decide
      rw [hk, Option.map_some'] at hmap
      exact Option.some.inj hmap
    exact happ ("A", a) hmem ("SRV", (100:ℚ)) (by rw [hpf]; exact List.mem_cons_self _ _)

/-- C4, amended.  Over every safe trace from the empty world, every
indexed order satisfies `filled_quantity ≤ quantity`; FILLED implies
`filled_quantity = quantity`; PARTIAL implies
`0 < filled_quantity < quantity`; and every book entry references a
LIMIT order — hence no CANCELLED MARKET order ever rests in a book.  The
two biconditionals of claim C4 fail in the resting direction
(`claim_C4_counterexample`): a partially consumed resting order keeps
status PENDING. -/
theorem claim_C4_amended (ops : List Op) (hsafe : World.safeRun w0 ops = true) :
    (∀ oid o, Dict.get? (w0.run ops).exchange.orders oid = some o →
      o.filled_quantity ≤ o.quantity ∧
      (o.status = .filled → o.filled_quantity = o.quantity) ∧
      (o.status = .partialFilled →
        0 < o.filled_quantity ∧ o.filled_quantity < o.quantity)) ∧
    (∀ t bk, Dict.get? (w0.run ops).exchange.order_books t = some bk →
      ∀ e ∈ bk.bids ++ bk.asks,
        ∃ o, Dict.get? (w0.run ops).exchange.orders e.oid = some o ∧
          o.order_type = .limit) := by
  obtain ⟨hOrd, hBooks, hPort⟩ := run_inv ops w0 hsafe inv_empty
  constructor
  · intro oid o ho
    obtain ⟨⟨hid, hq0, hf0, hfq, hfil, hpart⟩, hp⟩ := hOrd oid o ho
    exact ⟨hfq, hfil, hpart⟩
  · intro t bk hbk e he
    obtain ⟨h1, h2⟩ := hBooks t bk hbk
    rcases List.mem_append.1 he with hb | hb
    · obtain ⟨o, ho, hside, hlim, htk⟩ := h1 e hb
      exact ⟨o, ho, hlim⟩
    · obtain ⟨o, ho, hside, hlim, htk⟩ := h2 e hb
      exact ⟨o, ho, hlim⟩

theorem claim_C4_witness : World.safeRun w0 opsC4 = true ∧ (50:ℚ) ≤ 100 := by
  refine ⟨by decide, ?_⟩
  have happ := claim_C4_amended opsC4 (by decide)
  rcases hk : Dict.get? (w0.run opsC4).exchange.orders "sB" with _ | o
  · exact absurd hk (by decide)
  · have hle := (happ.1 "sB" o hk).1
    have hfp : o.filled_quantity = 50 ∧ o.quantity = 100 := by
      have hmap : (Dict.get? (w0.run opsC4).exchange.orders "sB").map
          (fun o2 => (o2.filled_quantity, o2.quantity)) = some ((50:ℚ), (100:ℚ)) := by
        decide
      rw [hk, Option.map_some'] at hmap
      have hpair := Option.some.inj hmap
      exact ⟨congrArg Prod.fst hpair, congrArg Prod.snd hpair⟩
    rw [← hfp.1, ← hfp.2]
    exact hle

end AIVerse

namespace AIVerse

/-! ### Why the loop's fuel suffices: PENDING entries strictly decrease -/

/-- Number of book entries referencing a PENDING order. -/
def pendingCount (orders : Dict Order) (l : List BookEntry) : ℕ :=
  (l.filter (fun e => entryPending orders e)).length

theorem pendingCount_perm (orders : Dict Order) {l l2 : List BookEntry} (h : l.Perm l2) :
    pendingCount orders l = pendingCount orders l2 :=
  (h.filter _).length_eq

theorem pendingCount_append (orders : Dict Order) (l l2 : List BookEntry) :
    pendingCount orders (l ++ l2) = pendingCount orders l + pendingCount orders l2 := by
  simp [pendingCount, List.filter_append]

theorem pendingCount_zero (orders : Dict Order) (l : List BookEntry)
    (h : ∀ e ∈ l, entryPending orders e = false) : pendingCount orders l = 0 := by
  unfold pendingCount
  rw [List.filter_eq_nil_iff.2 (fun e he => by rw [h e he]; exact Bool.false_ne_true)]
  rfl

theorem pendingCount_cons_pending (orders : Dict Order) (e : BookEntry) (l : List BookEntry)
    (h : entryPending orders e = true) :
    pendingCount orders (e :: l) = pendingCount orders l + 1 := by
  simp [pendingCount, List.filter_cons, h]

theorem pendingCount_cons_nonpending (orders : Dict Order) (e : BookEntry)
    (l : List BookEntry) (h : entryPending orders e = false) :
    pendingCount orders (e :: l) = pendingCount orders l := by
  simp [pendingCount, List.filter_cons, h]

theorem pendingCount_mono (orders orders2 : Dict Order) : ∀ (l : List BookEntry),
    (∀ e ∈ l, entryPending orders2 e = true → entryPending orders e = true) →
    pendingCount orders2 l ≤ pendingCount orders l := by
  intro l
  induction l with
  | nil =>
    intro _
    exact le_refl _
  | cons e rest ih =>
    intro h
    have hrest := ih (fun e2 he2 => h e2 (List.mem_cons_of_mem e he2))
    cases hp2 : entryPending orders2 e with
    | true =>
      rw [pendingCount_cons_pending orders2 e rest hp2,
        pendingCount_cons_pending orders e rest (h e (List.mem_cons_self e rest) hp2)]
      omega
    | false =>
      rw [pendingCount_cons_nonpending orders2 e rest hp2]
      cases hp1 : entryPending orders e with
      | true =>
        rw [pendingCount_cons_pending orders e rest hp1]
        omega
      | false =>
        rw [pendingCount_cons_nonpending orders e rest hp1]
        exact hrest

/-- `bestOf` preserves the pending count: only non-pending entries are
discarded. -/
theorem pendingCount_bestOf (orders : Dict Order) (l : List BookEntry)
    (ro : Option Order) (l2 : List BookEntry) (hbest : bestOf orders l = (ro, l2)) :
    pendingCount orders l = pendingCount orders l2 := by
  obtain ⟨removed, hperm, hrm⟩ := bestOfF_spec orders l.length l (le_refl _)
  have hbest2 : bestOfF orders l l.length = (ro, l2) := hbest
  rw [hbest2] at hperm
  rw [pendingCount_perm orders hperm, pendingCount_append,
    pendingCount_zero orders removed hrm]
  rfl

theorem matchLoopF_filled (s : Exchange) (oid : String) (n : ℕ) (o : Order)
    (hlook : Dict.get? s.orders oid = some o) (hge : ¬ o.filled_quantity < o.quantity) :
    s.matchLoopF oid (n + 1) = s := by
  simp only [Exchange.matchLoopF]
  rw [hlook]
  dsimp only
  rw [if_neg hge]

end AIVerse

namespace AIVerse

/-- A best-of-side run only consults the store at the oids of entries of
the list, so stores agreeing there produce identical runs. -/
theorem bestOfF_congr (orders orders2 : Dict Order) :
    ∀ (fuel : ℕ) (l : List BookEntry),
    (∀ e ∈ l, Dict.get? orders2 e.oid = Dict.get? orders e.oid) →
    bestOfF orders2 l fuel = bestOfF orders l fuel := by
  intro fuel
  induction fuel with
  | zero =>
    intro l _
    cases l <;> rfl
  | succ n ih =>
    intro l h
    match l with
    | [] => rfl
    | e :: rest =>
      simp only [bestOfF]
      rw [h e (List.mem_cons_self e rest)]
      have hmem : ∀ e2 ∈ (heappop (e :: rest)).2, e2 ∈ e :: rest := fun e2 he2 =>
        List.mem_cons_of_mem e ((heappop_snd_perm (e :: rest)).subset he2)
      cases hlook : Dict.get? orders e.oid with
      | none => exact ih _ (fun e2 he2 => h e2 (hmem e2 he2))
      | some o =>
        dsimp only
        by_cases hst : o.status = OrderStatus.pending
        · rw [if_pos hst, if_pos hst]
        · rw [if_neg hst, if_neg hst]
          exact ih _ (fun e2 he2 => h e2 (hmem e2 he2))

/-- The state of the incoming order and the opposite book when
`_match_order`'s loop has stopped: the order is full, or the book is
gone, or no PENDING counter-order remains on the opposite side, or the
best counter-order crosses the order's (set, non-zero) price bound. -/
def StopPost (s2 : Exchange) (oid : String) : Prop :=
  ∃ o2, Dict.get? s2.orders oid = some o2 ∧
    (o2.quantity ≤ o2.filled_quantity ∨
     Dict.get? s2.order_books o2.ticker = none ∨
     (∃ bk2, Dict.get? s2.order_books o2.ticker = some bk2 ∧
       (bestOf s2.orders (if o2.side = .buy then bk2.asks else bk2.bids)).1 = none) ∨
     (∃ bk2 counter, Dict.get? s2.order_books o2.ticker = some bk2 ∧
       (bestOf s2.orders (if o2.side = .buy then bk2.asks else bk2.bids)).1 = some counter ∧
       Exchange.truthy o2.price = true ∧
       (if o2.side = .buy then counter.price.getD 0 > o2.price.getD 0
        else counter.price.getD 0 < o2.price.getD 0)))

theorem matchLoop_trade_stop (n : ℕ)
    (IH : ∀ (s : Exchange) (oid : String) (o : Order), Inv s → NotInBooks s oid →
      Dict.get? s.orders oid = some o →
      (∀ bk, Dict.get? s.order_books o.ticker = some bk →
        pendingCount s.orders (if o.side = OrderSide.buy then bk.asks else bk.bids) + 1 ≤ n) →
      StopPost (s.matchLoopF oid n) oid)
    (s1 : Exchange) (oid : String) (o counter : Order) (e : BookEntry)
    (rest : List BookEntry) (bk1 : OrderBook)
    (hI : Inv s1) (hNB : NotInBooks s1 oid)
    (ho1 : Dict.get? s1.orders oid = some o)
    (hc1 : Dict.get? s1.orders counter.id = some counter)
    (hcPend : counter.status = .pending)
    (heid : e.oid = counter.id)
    (hbk1 : Dict.get? s1.order_books o.ticker = some bk1)
    (hsl : (if o.side = OrderSide.buy then bk1.asks else bk1.bids) = e :: rest)
    (hneq : oid ≠ counter.id)
    (hfo : o.filled_quantity < o.quantity)
    (hfc : counter.filled_quantity < counter.quantity)
    (hpc : pendingCount s1.orders (e :: rest) + 1 ≤ n + 1) :
    StopPost ((s1.execute_trade oid counter.id
      (min (o.quantity - o.filled_quantity) (counter.quantity - counter.filled_quantity))
      (counter.price.getD 0)).matchLoopF oid n) oid := by
  set tq := min (o.quantity - o.filled_quantity)
    (counter.quantity - counter.filled_quantity) with htq
  have hoid : o.id = oid := (hI.1 oid o ho1).1.1.symm
  have htqpos : 0 < tq := by
    rw [htq]
    exact lt_min (by linarith) (by linarith)
  obtain ⟨hI2, hB2, hG2⟩ := execute_trade_inv s1 oid counter.id o counter tq
      (counter.price.getD 0) ho1 hc1 hoid rfl hneq htqpos
      (by rw [htq]; exact min_le_left _ _) (by rw [htq]; exact min_le_right _ _) hI
  have hNB2 := notInBooks_of_books_eq s1 _ oid hB2 hNB
  have hheadpend : entryPending s1.orders e = true := by
    unfold entryPending
    rw [heid, hc1]
    dsimp only
    rw [hcPend]
    rfl
  have hnotoid : ∀ e2 ∈ rest, e2.oid ≠ oid := by
    intro e2 he2
    have he2side : e2 ∈ (if o.side = OrderSide.buy then bk1.asks else bk1.bids) := by
      rw [hsl]
      exact List.mem_cons_of_mem e he2
    by_cases hsd2 : o.side = OrderSide.buy
    · rw [if_pos hsd2] at he2side
      exact (hNB o.ticker bk1 hbk1).2 e2 he2side
    · rw [if_neg hsd2] at he2side
      exact (hNB o.ticker bk1 hbk1).1 e2 he2side
  by_cases hcf : counter.quantity ≤ counter.filled_quantity + tq
  · -- counter fills: one fewer PENDING entry, recurse
    have hcadv : (advance tq (counter.price.getD 0) counter).status = OrderStatus.filled := by
      unfold advance
      dsimp only
      rw [if_pos (by linarith : counter.filled_quantity + tq ≥ counter.quantity)]
    refine IH _ oid (advance tq (counter.price.getD 0) o) hI2 hNB2
      (by rw [hG2 oid, if_pos rfl]) ?_
    intro bk2 hbk2
    rw [hB2, (advance_frame tq (counter.price.getD 0) o).2.2.1, hbk1] at hbk2
    have hbb := Option.some.inj hbk2
    subst hbb
    rw [(advance_frame tq (counter.price.getD 0) o).1, hsl]
    have hheadnp : entryPending (s1.execute_trade oid counter.id tq
        (counter.price.getD 0)).orders e = false := by
      unfold entryPending
      rw [heid, hG2 counter.id, if_neg (fun hcc : counter.id = oid => hneq hcc.symm),
        if_pos rfl]
      dsimp only
      rw [hcadv]
      rfl
    have hrestp : ∀ e2 ∈ rest, entryPending (s1.execute_trade oid counter.id tq
        (counter.price.getD 0)).orders e2 = true → entryPending s1.orders e2 = true := by
      intro e2 he2 hp2
      unfold entryPending at hp2 ⊢
      rw [hG2 e2.oid, if_neg (hnotoid e2 he2)] at hp2
      by_cases h2 : e2.oid = counter.id
      · rw [if_pos h2] at hp2
        dsimp only at hp2
        rw [hcadv] at hp2
        exact absurd hp2 (by decide)
      · rw [if_neg h2] at hp2
        exact hp2
    have hold : pendingCount s1.orders (e :: rest) = pendingCount s1.orders rest + 1 :=
      pendingCount_cons_pending s1.orders e rest hheadpend
    have hmono := pendingCount_mono s1.orders
      (s1.execute_trade oid counter.id tq (counter.price.getD 0)).orders rest hrestp
    rw [pendingCount_cons_nonpending _ e rest hheadnp]
    omega
  · -- the order itself fills: the next iteration exits at the while check
    push_neg at hcf
    have htqo : tq = o.quantity - o.filled_quantity := by
      rcases min_choice (o.quantity - o.filled_quantity)
        (counter.quantity - counter.filled_quantity) with hmc | hmc
      · exact htq.trans hmc
      · exfalso
        have h2 : tq = counter.quantity - counter.filled_quantity := htq.trans hmc
        rw [h2] at hcf
        linarith
    have hoadv : (advance tq (counter.price.getD 0) o).status = OrderStatus.filled := by
      unfold advance
      dsimp only
      rw [if_pos (by rw [htqo]; linarith : o.filled_quantity + tq ≥ o.quantity)]
    have hofull : (advance tq (counter.price.getD 0) o).quantity ≤
        (advance tq (counter.price.getD 0) o).filled_quantity := by
      unfold advance
      dsimp only
      rw [if_pos (by rw [htqo]; linarith : o.filled_quantity + tq ≥ o.quantity)]
      dsimp only
      rw [htqo]
      linarith
    have hofilled : ¬ (advance tq (counter.price.getD 0) o).filled_quantity <
        (advance tq (counter.price.getD 0) o).quantity := not_lt.2 hofull
    cases n with
    | zero =>
      exfalso
      have hold : pendingCount s1.orders (e :: rest) = pendingCount s1.orders rest + 1 :=
        pendingCount_cons_pending s1.orders e rest hheadpend
      omega
    | succ m =>
      rw [matchLoopF_filled _ oid m (advance tq (counter.price.getD 0) o)
        (by rw [hG2 oid, if_pos rfl]) hofilled]
      exact ⟨advance tq (counter.price.getD 0) o, by rw [hG2 oid, if_pos rfl],
        Or.inl hofull⟩

end AIVerse

namespace AIVerse

theorem matchLoopF_stop : ∀ (fuel : ℕ) (s : Exchange) (oid : String) (o : Order),
    Inv s → NotInBooks s oid → Dict.get? s.orders oid = some o →
    (∀ bk, Dict.get? s.order_books o.ticker = some bk →
      pendingCount s.orders (if o.side = OrderSide.buy then bk.asks else bk.bids) + 1 ≤ fuel) →
    StopPost (s.matchLoopF oid fuel) oid := by
  intro fuel
  induction fuel with
  | zero =>
    intro s oid o hI hn hlook hpc
    cases hbk : Dict.get? s.order_books o.ticker with
    | none => exact ⟨o, hlook, Or.inr (Or.inl hbk)⟩
    | some bk => exact absurd (hpc bk hbk) (by omega)
  | succ n ih =>
    intro s oid o hI hn hlook hpc
    simp only [Exchange.matchLoopF]
    rw [hlook]
    dsimp only
    by_cases hcond : o.filled_quantity < o.quantity
    · rw [if_pos hcond]
      cases hbk : Dict.get? s.order_books o.ticker with
      | none => exact ⟨o, hlook, Or.inr (Or.inl hbk)⟩
      | some bk =>
        dsimp only
        have hoid2 : o.id = oid := (hI.1 oid o hlook).1.1.symm
        by_cases hside : o.side = OrderSide.buy
        · rw [if_pos hside]
          simp only [OrderBook.best_ask]
          cases hbest : bestOf s.orders bk.asks with
          | mk ro l2 =>
            dsimp only
            have hsubA : ∀ e2 ∈ l2, e2 ∈ bk.asks := fun e2 he2 =>
              bestOf_snd_subset s.orders bk.asks e2 (by rw [hbest]; exact he2)
            cases ro with
            | none =>
              refine ⟨o, hlook, Or.inr (Or.inr (Or.inl
                ⟨{ bk with asks := l2 }, Dict.get?_set_self s.order_books o.ticker _, ?_⟩))⟩
              rw [if_pos hside]
              have hall : ∀ e2 ∈ bk.asks, entryPending s.orders e2 = false :=
                (bestOfF_none_iff s.orders bk.asks.length bk.asks (le_refl _)).1
                  (congrArg Prod.fst hbest)
              exact (bestOfF_none_iff s.orders l2.length l2 (le_refl _)).2
                (fun e2 he2 => hall e2 (hsubA e2 he2))
            | some counter =>
              dsimp only
              obtain ⟨hcPend, e, rest, hl2, hce⟩ :=
                bestOfF_some_shape s.orders bk.asks.length bk.asks l2 counter hbest
              have heid : e.oid = counter.id := (hI.1 e.oid counter hce).1.1
              have hcid : Dict.get? s.orders counter.id = some counter := by
                rw [← heid]
                exact hce
              have hcfq : counter.filled_quantity < counter.quantity :=
                (hI.1 e.oid counter hce).2 hcPend
              have heMem : e ∈ bk.asks := hsubA e (by rw [hl2]; exact List.mem_cons_self e rest)
              have hneq : oid ≠ counter.id := by
                intro hcc
                exact (hn o.ticker bk hbk).2 e heMem (by rw [heid, ← hcc])
              by_cases hb1 : o.side = OrderSide.buy ∧ Exchange.truthy o.price = true ∧
                  counter.price.getD 0 > o.price.getD 0
              · rw [if_pos hb1]
                refine ⟨o, hlook, Or.inr (Or.inr (Or.inr ⟨{ bk with asks := l2 }, counter,
                  Dict.get?_set_self s.order_books o.ticker _, ?_, hb1.2.1, ?_⟩))⟩
                · rw [if_pos hside]
                  show (bestOf s.orders l2).1 = some counter
                  rw [hl2, bestOf_head_pending s.orders e rest counter hce hcPend]
                · rw [if_pos hside]
                  exact hb1.2.2
              · rw [if_neg hb1,
                  if_neg (fun hx : o.side = OrderSide.sell ∧ Exchange.truthy o.price = true ∧
                    counter.price.getD 0 < o.price.getD 0 =>
                    OrderSide.noConfusion (hside.symm.trans hx.1))]
                have hI1 : Inv { s with
                    order_books := Dict.set s.order_books o.ticker
                      { bk with asks := l2 } } :=
                  ⟨hI.1, booksInv_set_sub s o.ticker bk _ hbk (fun e2 he2 => he2) hsubA
                    hI.2.1, hI.2.2⟩
                have hn1 : NotInBooks { s with
                    order_books := Dict.set s.order_books o.ticker
                      { bk with asks := l2 } } oid :=
                  notInBooks_set_sub s oid o.ticker bk _ hbk (fun e2 he2 => he2) hsubA hn
                refine matchLoop_trade_stop n ih
                  { s with
                    order_books := Dict.set s.order_books o.ticker { bk with asks := l2 } }
                  oid o counter e rest { bk with asks := l2 } hI1 hn1 hlook hcid hcPend heid
                  (Dict.get?_set_self s.order_books o.ticker _) (by rw [if_pos hside]; exact hl2)
                  hneq hcond hcfq ?_
                have hpc2 := hpc bk hbk
                rw [if_pos hside] at hpc2
                rw [← hl2, ← pendingCount_bestOf s.orders bk.asks (some counter) l2 hbest]
                exact hpc2
        · rw [if_neg hside]
          simp only [OrderBook.best_bid]
          cases hbest : bestOf s.orders bk.bids with
          | mk ro l2 =>
            dsimp only
            have hsubB : ∀ e2 ∈ l2, e2 ∈ bk.bids := fun e2 he2 =>
              bestOf_snd_subset s.orders bk.bids e2 (by rw [hbest]; exact he2)
            cases ro with
            | none =>
              refine ⟨o, hlook, Or.inr (Or.inr (Or.inl
                ⟨{ bk with bids := l2 }, Dict.get?_set_self s.order_books o.ticker _, ?_⟩))⟩
              rw [if_neg hside]
              have hall : ∀ e2 ∈ bk.bids, entryPending s.orders e2 = false :=
                (bestOfF_none_iff s.orders bk.bids.length bk.bids (le_refl _)).1
                  (congrArg Prod.fst hbest)
              exact (bestOfF_none_iff s.orders l2.length l2 (le_refl _)).2
                (fun e2 he2 => hall e2 (hsubB e2 he2))
            | some counter =>
              dsimp only
              obtain ⟨hcPend, e, rest, hl2, hce⟩ :=
                bestOfF_some_shape s.orders bk.bids.length bk.bids l2 counter hbest
              have heid : e.oid = counter.id := (hI.1 e.oid counter hce).1.1
              have hcid : Dict.get? s.orders counter.id = some counter := by
                rw [← heid]
                exact hce
              have hcfq : counter.filled_quantity < counter.quantity :=
                (hI.1 e.oid counter hce).2 hcPend
              have heMem : e ∈ bk.bids := hsubB e (by rw [hl2]; exact List.mem_cons_self e rest)
              have hneq : oid ≠ counter.id := by
                intro hcc
                exact (hn o.ticker bk hbk).1 e heMem (by rw [heid, ← hcc])
              rw [if_neg (fun hx : o.side = OrderSide.buy ∧ Exchange.truthy o.price = true ∧
                  counter.price.getD 0 > o.price.getD 0 => hside hx.1)]
              by_cases hb2 : o.side = OrderSide.sell ∧ Exchange.truthy o.price = true ∧
                  counter.price.getD 0 < o.price.getD 0
              · rw [if_pos hb2]
                refine ⟨o, hlook, Or.inr (Or.inr (Or.inr ⟨{ bk with bids := l2 }, counter,
                  Dict.get?_set_self s.order_books o.ticker _, ?_, hb2.2.1, ?_⟩))⟩
                · rw [if_neg hside]
                  show (bestOf s.orders l2).1 = some counter
                  rw [hl2, bestOf_head_pending s.orders e rest counter hce hcPend]
                · rw [if_neg hside]
                  exact hb2.2.2
              · rw [if_neg hb2]
                have hI1 : Inv { s with
                    order_books := Dict.set s.order_books o.ticker
                      { bk with bids := l2 } } :=
                  ⟨hI.1, booksInv_set_sub s o.ticker bk _ hbk hsubB (fun e2 he2 => he2)
                    hI.2.1, hI.2.2⟩
                have hn1 : NotInBooks { s with
                    order_books := Dict.set s.order_books o.ticker
                      { bk with bids := l2 } } oid :=
                  notInBooks_set_sub s oid o.ticker bk _ hbk hsubB (fun e2 he2 => he2) hn
                refine matchLoop_trade_stop n ih
                  { s with
                    order_books := Dict.set s.order_books o.ticker { bk with bids := l2 } }
                  oid o counter e rest { bk with bids := l2 } hI1 hn1 hlook hcid hcPend heid
                  (Dict.get?_set_self s.order_books o.ticker _) (by rw [if_neg hside]; exact hl2)
                  hneq hcond hcfq ?_
                have hpc2 := hpc bk hbk
                rw [if_neg hside] at hpc2
                rw [← hl2, ← pendingCount_bestOf s.orders bk.bids (some counter) l2 hbest]
                exact hpc2
    · rw [if_neg hcond]
      exact ⟨o, hlook, Or.inl (not_lt.1 hcond)⟩

end AIVerse

namespace AIVerse

/-- The status epilogue `_match_order` applies to the incoming order
after its loop. -/
def finishStatus (ob : Order) : Order :=
  if ob.filled_quantity ≥ ob.quantity then { ob with status := OrderStatus.filled }
  else if ob.filled_quantity > 0 then { ob with status := OrderStatus.partialFilled }
  else ob

theorem match_order_eq_nobook (s : Exchange) (oid : String) (o : Order)
    (hlook : Dict.get? s.orders oid = some o)
    (hbk : Dict.get? s.order_books o.ticker = none) :
    s.match_order oid = s := by
  unfold Exchange.match_order
  rw [hlook]
  dsimp only
  rw [hbk]

theorem match_order_eq (s : Exchange) (oid : String) (o : Order) (bk : OrderBook)
    (hlook : Dict.get? s.orders oid = some o)
    (hbk : Dict.get? s.order_books o.ticker = some bk) :
    s.match_order oid = (s.matchLoopF oid
      ((if o.side = OrderSide.buy then bk.asks else bk.bids).length + 1)).updateOrder oid
      finishStatus := by
  unfold Exchange.match_order
  rw [hlook]
  dsimp only
  rw [hbk]
  exact rfl

/-- C5, amended.  On any well-formed state, `_match_order` stops only
when the incoming order is fully filled, or the raw-ticker book is
absent, or no PENDING counter-order remains on the opposite side, or the
best remaining counter-order's price crosses the order's price bound —
which requires `order.price` to be set and non-zero (Python truthiness).
Since `_execute_market_order` assigns `order.price` before matching, a
MARKET order is price-bounded too and does not walk the book
(`claim_C5_counterexample`). -/
theorem claim_C5_amended (s : Exchange) (oid : String) (o : Order)
    (hI : Inv s) (hn : NotInBooks s oid)
    (hlook : Dict.get? s.orders oid = some o) :
    ∃ o2, Dict.get? (s.match_order oid).orders oid = some o2 ∧ sameFrame o o2 ∧
      (o2.quantity ≤ o2.filled_quantity ∨
       Dict.get? (s.match_order oid).order_books o2.ticker = none ∨
       (∃ bk2, Dict.get? (s.match_order oid).order_books o2.ticker = some bk2 ∧
         (bestOf (s.match_order oid).orders
           (if o2.side = OrderSide.buy then bk2.asks else bk2.bids)).1 = none) ∨
       (∃ bk2 counter,
         Dict.get? (s.match_order oid).order_books o2.ticker = some bk2 ∧
         (bestOf (s.match_order oid).orders
           (if o2.side = OrderSide.buy then bk2.asks else bk2.bids)).1 = some counter ∧
         Exchange.truthy o2.price = true ∧
         (if o2.side = OrderSide.buy then counter.price.getD 0 > o2.price.getD 0
          else counter.price.getD 0 < o2.price.getD 0))) := by
  cases hbk : Dict.get? s.order_books o.ticker with
  | none =>
    rw [match_order_eq_nobook s oid o hlook hbk]
    exact ⟨o, hlook, sameFrame_refl o, Or.inr (Or.inl hbk)⟩
  | some bk =>
    rw [match_order_eq s oid o bk hlook hbk]
    have hpc : ∀ bk2, Dict.get? s.order_books o.ticker = some bk2 →
        pendingCount s.orders (if o.side = OrderSide.buy then bk2.asks else bk2.bids) + 1 ≤
        (if o.side = OrderSide.buy then bk.asks else bk.bids).length + 1 := by
      intro bk2 hbk2
      rw [hbk] at hbk2
      have hbb := Option.some.inj hbk2
      subst hbb
      have hle : pendingCount s.orders
          (if o.side = OrderSide.buy then bk.asks else bk.bids) ≤
          (if o.side = OrderSide.buy then bk.asks else bk.bids).length :=
        List.length_filter_le _ _
      omega
    have hstop := matchLoopF_stop
      ((if o.side = OrderSide.buy then bk.asks else bk.bids).length + 1) s oid o hI hn
      hlook hpc
    obtain ⟨hI2, hNB2, hES2, hEN2⟩ := matchLoopF_inv
      ((if o.side = OrderSide.buy then bk.asks else bk.bids).length + 1) s oid hI hn
    generalize hgen : s.matchLoopF oid
      ((if o.side = OrderSide.buy then bk.asks else bk.bids).length + 1) = s2
    rw [hgen] at hstop hI2 hNB2 hES2
    obtain ⟨o2, ho2, hdisj⟩ := hstop
    obtain ⟨ob2, hob2, hfr⟩ := hES2 oid o hlook
    have hobeq : ob2 = o2 := Option.some.inj (hob2.symm.trans ho2)
    have hfr2 : sameFrame o o2 := hobeq ▸ hfr
    have hepi : ∃ st, finishStatus o2 = { o2 with status := st } := by
      unfold finishStatus
      by_cases h1 : o2.filled_quantity ≥ o2.quantity
      · rw [if_pos h1]
        exact ⟨OrderStatus.filled, rfl⟩
      · rw [if_neg h1]
        by_cases h2 : o2.filled_quantity > 0
        · rw [if_pos h2]
          exact ⟨OrderStatus.partialFilled, rfl⟩
        · rw [if_neg h2]
          exact ⟨o2.status, rfl⟩
    obtain ⟨st3, hst3⟩ := hepi
    have hordeq : ∀ i : String, i ≠ oid →
        Dict.get? (s2.updateOrder oid finishStatus).orders i = Dict.get? s2.orders i := by
      intro i hi
      rw [updateOrder_orders]
      exact Dict.get?_modify_ne _ _ _ _ hi
    refine ⟨{ o2 with status := st3 },
      by rw [updateOrder_orders, Dict.get?_modify_self, ho2, Option.map_some', hst3],
      sameFrame_trans hfr2 ⟨rfl, rfl, rfl, rfl, rfl, rfl⟩, ?_⟩
    rcases hdisj with hB | hNone | ⟨bk2, hbk2, hbest⟩ |
      ⟨bk2, counter, hbk2, hbest, htr, hcmp⟩
    · exact Or.inl hB
    · refine Or.inr (Or.inl ?_)
      show Dict.get? (s2.updateOrder oid finishStatus).order_books
        ({ o2 with status := st3 } : Order).ticker = none
      rw [updateOrder_books]
      exact hNone
    · refine Or.inr (Or.inr (Or.inl ⟨bk2, ?_, ?_⟩))
      · show Dict.get? (s2.updateOrder oid finishStatus).order_books
          ({ o2 with status := st3 } : Order).ticker = some bk2
        rw [updateOrder_books]
        exact hbk2
      · have hents : ∀ e ∈ (if o2.side = OrderSide.buy then bk2.asks else bk2.bids),
            e.oid ≠ oid := by
          intro e he
          by_cases hs2 : o2.side = OrderSide.buy
          · rw [if_pos hs2] at he
            exact (hNB2 o2.ticker bk2 hbk2).2 e he
          · rw [if_neg hs2] at he
            exact (hNB2 o2.ticker bk2 hbk2).1 e he
        have hcongr := bestOfF_congr s2.orders (s2.updateOrder oid finishStatus).orders
          ((if o2.side = OrderSide.buy then bk2.asks else bk2.bids).length)
          (if o2.side = OrderSide.buy then bk2.asks else bk2.bids)
          (fun e he => hordeq e.oid (hents e he))
        show (bestOfF (s2.updateOrder oid finishStatus).orders
          (if o2.side = OrderSide.buy then bk2.asks else bk2.bids)
          (if o2.side = OrderSide.buy then bk2.asks else bk2.bids).length).1 = none
        rw [hcongr]
        exact hbest
    · refine Or.inr (Or.inr (Or.inr ⟨bk2, counter, ?_, ?_, htr, hcmp⟩))
      · show Dict.get? (s2.updateOrder oid finishStatus).order_books
          ({ o2 with status := st3 } : Order).ticker = some bk2
        rw [updateOrder_books]
        exact hbk2
      · have hents : ∀ e ∈ (if o2.side = OrderSide.buy then bk2.asks else bk2.bids),
            e.oid ≠ oid := by
          intro e he
          by_cases hs2 : o2.side = OrderSide.buy
          · rw [if_pos hs2] at he
            exact (hNB2 o2.ticker bk2 hbk2).2 e he
          · rw [if_neg hs2] at he
            exact (hNB2 o2.ticker bk2 hbk2).1 e he
        have hcongr := bestOfF_congr s2.orders (s2.updateOrder oid finishStatus).orders
          ((if o2.side = OrderSide.buy then bk2.asks else bk2.bids).length)
          (if o2.side = OrderSide.buy then bk2.asks else bk2.bids)
          (fun e he => hordeq e.oid (hents e he))
        show (bestOfF (s2.updateOrder oid finishStatus).orders
          (if o2.side = OrderSide.buy then bk2.asks else bk2.bids)
          (if o2.side = OrderSide.buy then bk2.asks else bk2.bids).length).1 = some counter
        rw [hcongr]
        exact hbest

theorem claim_C5_witness :
    ((wC4.exchange.match_order "bA").orders.get? "bA").isSome = true := by
  rcases hk : Dict.get? wC4.exchange.orders "bA" with _ | o
  · exact absurd hk (by decide)
  · have hI : Inv wC4.exchange := run_inv opsC4 w0 (by decide) inv_empty
    have hbooks : wC4.exchange.order_books =
        [("XYZ", { ticker := "XYZ", bids := [],
                   asks := [{ key1 := 10, key2 := 1, oid := "sB" }] })] := by decide
    have hNB : NotInBooks wC4.exchange "bA" := by
      intro t bk hbk
      rw [hbooks] at hbk
      simp only [Dict.get?] at hbk
      split at hbk
      · have hbb := Option.some.inj hbk
        subst hbb
        constructor
        · intro e he
          exact absurd he (List.not_mem_nil e)
        · intro e he
          have he2 := List.mem_singleton.1 he
          subst he2
          decide
      · exact Option.noConfusion hbk
    obtain ⟨o2, h2, hfr, hdisj⟩ := claim_C5_amended wC4.exchange "bA" o hI hNB hk
    rw [h2]
    rfl

end AIVerse

namespace AIVerse

namespace Dict

/-- Modifying under a valuation the modification cannot change leaves the
sum alone (no key-uniqueness needed). -/
theorem dsum_modify_invariant {α : Type} (d : Dict α) (k : String) (f : α → α)
    (g : α → ℚ) (h : ∀ a, g (f a) = g a) : dsum (d.modify k f) g = dsum d g := by
  induction d with
  | nil => rfl
  | cons p rest ih =>
    by_cases hk : p.1 = k
    · simp only [Dict.modify, List.map_cons, if_pos hk, dsum, List.sum_cons, h]
      rw [show List.map (fun q => g q.2)
        (List.map (fun q => if q.1 = k then (q.1, f q.2) else q) rest) =
        List.map (fun q => g q.2) (Dict.modify rest k f) from rfl]
      rw [show (List.map (fun q => g q.2) (Dict.modify rest k f)).sum =
        dsum (Dict.modify rest k f) g from rfl, ih]
      rfl
    · simp only [Dict.modify, List.map_cons, if_neg hk, dsum, List.sum_cons]
      rw [show List.map (fun q => g q.2)
        (List.map (fun q => if q.1 = k then (q.1, f q.2) else q) rest) =
        List.map (fun q => g q.2) (Dict.modify rest k f) from rfl]
      rw [show (List.map (fun q => g q.2) (Dict.modify rest k f)).sum =
        dsum (Dict.modify rest k f) g from rfl, ih]
      rfl

theorem dsum_map {α : Type} (d : Dict α) (F : String × α → String × α) (g : α → ℚ)
    (h : ∀ p ∈ d, g (F p).2 = g p.2) : dsum (d.map F) g = dsum d g := by
  induction d with
  | nil => rfl
  | cons p rest ih =>
    simp only [List.map_cons, dsum, List.sum_cons] at ih ⊢
    rw [h p (List.mem_cons_self p rest),
      ih (fun q hq => h q (List.mem_cons_of_mem p hq))]

theorem dsum_nonneg {α : Type} (d : Dict α) (g : α → ℚ)
    (h : ∀ p ∈ d, 0 ≤ g p.2) : 0 ≤ dsum d g := by
  refine List.sum_nonneg ?_
  intro x hx
  obtain ⟨p, hp, hpx⟩ := List.mem_map.1 hx
  rw [← hpx]
  exact h p hp

theorem dsum_single_le {α : Type} (d : Dict α) (g : α → ℚ) (p : String × α)
    (hp : p ∈ d) (h : ∀ q ∈ d, 0 ≤ g q.2) : g p.2 ≤ dsum d g :=
  List.single_le_sum (fun x hx => by
    obtain ⟨q, hq, hqx⟩ := List.mem_map.1 hx
    rw [← hqx]
    exact h q hq) _ (List.mem_map.2 ⟨p, hp, rfl⟩)

theorem dsum_zero {α : Type} (d : Dict α) (g : α → ℚ)
    (h : ∀ p ∈ d, g p.2 = 0) : dsum d g = 0 := by
  induction d with
  | nil => rfl
  | cons p rest ih =>
    simp only [dsum, List.map_cons, List.sum_cons] at ih ⊢
    rw [h p (List.mem_cons_self p rest),
      ih (fun q hq => h q (List.mem_cons_of_mem p hq)), zero_add]

theorem uniq_map_keyfix {α : Type} (d : Dict α) (F : String × α → String × α)
    (hF : ∀ p, (F p).1 = p.1) (h : d.Uniq) : Dict.Uniq (d.map F) := by
  unfold Dict.Uniq at h ⊢
  rw [List.map_map, show (Prod.fst ∘ F) = fun p : String × α => (F p).1 from rfl]
  rw [show (fun p : String × α => (F p).1) = fun p : String × α => p.1 from funext hF]
  exact h

theorem mem_get?_uniq {α : Type} (d : Dict α) (p : String × α)
    (hu : d.Uniq) (hp : p ∈ d) : Dict.get? d p.1 = some p.2 := by
  induction d with
  | nil => exact absurd hp (List.not_mem_nil p)
  | cons q rest ih =>
    simp only [Dict.Uniq, List.map_cons, List.nodup_cons] at hu
    rcases List.mem_cons.1 hp with hpq | hp2
    · subst hpq
      simp [Dict.get?]
    · have hne : ¬ q.1 = p.1 := fun hc => hu.1 (hc ▸ List.mem_map.2 ⟨p, hp2, rfl⟩)
      simp only [Dict.get?, if_neg hne]
      exact ih hu.2 hp2

theorem get?_map_keyfix {α : Type} (F : String × α → String × α)
    (hF : ∀ p, (F p).1 = p.1) : ∀ (d : Dict α) (k : String),
    Dict.get? (d.map F) k = (Dict.get? d k).map (fun a => (F (k, a)).2) := by
  intro d
  induction d with
  | nil => intro k; rfl
  | cons p rest ih =>
    intro k
    show Dict.get? (F p :: rest.map F) k = _
    simp only [Dict.get?]
    rw [hF p]
    by_cases hk : p.1 = k
    · rw [if_pos hk, if_pos hk, Option.map_some']
      subst hk
      rfl
    · rw [if_neg hk, if_neg hk]
      exact ih k

theorem isSome_set {α : Type} (d : Dict α) (k k2 : String) (v : α)
    (h : (Dict.get? d k2).isSome = true) : (Dict.get? (d.set k v) k2).isSome = true := by
  by_cases hk : k2 = k
  · subst hk
    rw [Dict.get?_set_self]
    rfl
  · rw [Dict.get?_set_ne _ _ _ _ hk]
    exact h

theorem isSome_modify {α : Type} (d : Dict α) (k k2 : String) (f : α → α)
    (h : (Dict.get? d k2).isSome = true) : (Dict.get? (d.modify k f) k2).isSome = true := by
  by_cases hk : k2 = k
  · subst hk
    rw [Dict.get?_modify_self]
    cases hx : Dict.get? d k2 with
    | none =>
      rw [hx] at h
      exact Bool.noConfusion h
    | some v => rfl
  · rw [Dict.get?_modify_ne _ _ _ _ hk]
    exact h

end Dict

end AIVerse

namespace AIVerse

/-! ### Share-conservation bookkeeping (claim C1) -/

/-- `agent.portfolio.get(t, 0)`, read through the agent store. -/
def holdings (ex : Exchange) (aid t : String) : ℚ :=
  ((Dict.get? ex.agents aid).map (fun a => (Dict.get? a.portfolio t).getD 0)).getD 0

/-- One order's contribution to `sellCommit`. -/
def scTerm (aid t : String) (o : Order) : ℚ :=
  if o.agent_id = aid ∧ o.status = .pending ∧ o.side = .sell ∧ String.upper o.ticker = t
  then o.quantity - o.filled_quantity else 0

theorem sellCommit_eq (ex : Exchange) (aid t : String) :
    sellCommit ex aid t = Dict.dsum ex.orders (scTerm aid t) := rfl

theorem sumShares_eq (ex : Exchange) (t : String) :
    sumShares ex t = Dict.dsum ex.agents (fun a => (Dict.get? a.portfolio t).getD 0) := rfl

theorem updateAgent_agents (s : Exchange) (aid : String) (f : Agent → Agent) :
    (s.updateAgent aid f).agents = s.agents.modify aid f := rfl

theorem scTerm_nonneg (aid t : String) (o : Order)
    (h : o.filled_quantity ≤ o.quantity) : 0 ≤ scTerm aid t o := by
  unfold scTerm
  split
  · linarith
  · exact le_refl 0

theorem sellCommit_nonneg (s : Exchange) (hO : OrdersInv s) (hU : s.orders.Uniq)
    (aid t : String) : 0 ≤ sellCommit s aid t := by
  rw [sellCommit_eq]
  refine Dict.dsum_nonneg _ _ ?_
  intro p hp
  have hget := Dict.mem_get?_uniq s.orders p hU hp
  exact scTerm_nonneg aid t p.2 (hO p.1 p.2 hget).1.2.2.2.1

theorem sellCommit_single_le (s : Exchange) (hO : OrdersInv s) (hU : s.orders.Uniq)
    (oid : String) (o : Order) (ho : Dict.get? s.orders oid = some o) (aid t : String) :
    scTerm aid t o ≤ sellCommit s aid t := by
  rw [sellCommit_eq]
  have hmem : (oid, o) ∈ s.orders := Dict.get?_mem _ _ _ ho
  refine Dict.dsum_single_le s.orders (scTerm aid t) (oid, o) hmem ?_
  intro q hq
  have hget := Dict.mem_get?_uniq s.orders q hU hq
  exact scTerm_nonneg aid t q.2 (hO q.1 q.2 hget).1.2.2.2.1

theorem sellCommit_updateOrder (s : Exchange) (k : String) (f : Order → Order)
    (ob : Order) (hU : s.orders.Uniq) (hk : Dict.get? s.orders k = some ob)
    (aid t : String) :
    sellCommit (s.updateOrder k f) aid t =
      sellCommit s aid t - scTerm aid t ob + scTerm aid t (f ob) := by
  rw [sellCommit_eq, sellCommit_eq, updateOrder_orders]
  exact Dict.dsum_modify s.orders (scTerm aid t) k f ob hU hk

theorem sellCommit_indexOrder (s : Exchange) (order : Order)
    (hfresh : Dict.get? s.orders order.id = none) (aid t : String) :
    sellCommit { s with orders := Dict.set s.orders order.id order } aid t =
      sellCommit s aid t + scTerm aid t order := by
  rw [sellCommit_eq, sellCommit_eq]
  exact Dict.dsum_set_fresh s.orders _ order.id order hfresh

theorem sumShares_updateAgent (s : Exchange) (aid : String) (f : Agent → Agent)
    (a : Agent) (hU : s.agents.Uniq) (ha : Dict.get? s.agents aid = some a) (t : String) :
    sumShares (s.updateAgent aid f) t = sumShares s t
      - (Dict.get? a.portfolio t).getD 0 + (Dict.get? (f a).portfolio t).getD 0 := by
  rw [sumShares_eq, sumShares_eq, updateAgent_agents]
  exact Dict.dsum_modify s.agents _ aid f a hU ha

theorem sumShares_updateAgent_keep (s : Exchange) (aid : String) (f : Agent → Agent)
    (hf : ∀ a, (f a).portfolio = a.portfolio) (t : String) :
    sumShares (s.updateAgent aid f) t = sumShares s t := by
  rw [sumShares_eq, sumShares_eq, updateAgent_agents]
  exact Dict.dsum_modify_invariant s.agents aid f _ (fun a => by rw [hf a])

theorem holdings_updateAgent_self (s : Exchange) (aid : String) (f : Agent → Agent)
    (a : Agent) (ha : Dict.get? s.agents aid = some a) (t : String) :
    holdings (s.updateAgent aid f) aid t = (Dict.get? (f a).portfolio t).getD 0 := by
  unfold holdings
  rw [updateAgent_agents, Dict.get?_modify_self, ha, Option.map_some', Option.map_some',
    Option.getD_some]

theorem holdings_updateAgent_ne (s : Exchange) (aid aid2 : String) (f : Agent → Agent)
    (h : aid2 ≠ aid) (t : String) :
    holdings (s.updateAgent aid f) aid2 t = holdings s aid2 t := by
  unfold holdings
  rw [updateAgent_agents, Dict.get?_modify_ne _ _ _ _ h]

theorem holdings_of_get? (s : Exchange) (aid : String) (a : Agent)
    (ha : Dict.get? s.agents aid = some a) (t : String) :
    holdings s aid t = (Dict.get? a.portfolio t).getD 0 := by
  unfold holdings
  rw [ha, Option.map_some', Option.getD_some]

theorem holdings_nonneg (s : Exchange) (hP : PortInv s) (aid t : String) :
    0 ≤ holdings s aid t := by
  unfold holdings
  cases ha : Dict.get? s.agents aid with
  | none => exact le_refl 0
  | some a =>
    rw [Option.map_some']
    show (0:ℚ) ≤ (Dict.get? a.portfolio t).getD 0
    cases hq : Dict.get? a.portfolio t with
    | none => exact le_refl 0
    | some v =>
      rw [Option.getD_some]
      exact (hP (aid, a) (Dict.get?_mem _ _ _ ha) (t, v) (Dict.get?_mem _ _ _ hq)).le

/-- Extra discipline the `consRun` traces keep, on top of `Inv`. -/
structure ConsInv (ex : Exchange) : Prop where
  inv : Inv ex
  uA : Dict.Uniq ex.agents
  uO : Dict.Uniq ex.orders
  oAg : ∀ p ∈ ex.orders, (Dict.get? ex.agents p.2.agent_id).isSome = true
  oCo : ∀ p ∈ ex.orders, (Dict.get? ex.companies (String.upper p.2.ticker)).isSome = true
  oUp : ∀ p ∈ ex.orders, String.upper p.2.ticker = p.2.ticker
  pCo : ∀ p ∈ ex.agents, ∀ q ∈ p.2.portfolio, (Dict.get? ex.companies q.1).isSome = true
  cKey : ∀ t c, Dict.get? ex.companies t = some c → c.ticker = t
  backed : ∀ aid t c, Dict.get? ex.companies t = some c → c.status ≠ .bankrupt →
    sellCommit ex aid t ≤ holdings ex aid t
  cons : ∀ t c, Dict.get? ex.companies t = some c → c.status ≠ .bankrupt →
    sumShares ex t = c.total_shares

end AIVerse

namespace AIVerse

theorem scTerm_advance (aid t : String) (qty price : ℚ) (o : Order)
    (hst : o.status = .pending) (hle : qty ≤ o.quantity - o.filled_quantity) :
    scTerm aid t (advance qty price o) =
      scTerm aid t o -
        (if o.agent_id = aid ∧ o.side = .sell ∧ String.upper o.ticker = t
         then qty else 0) := by
  have hredF : scTerm aid t
      { o with filled_quantity := o.filled_quantity + qty,
               filled_price := price, status := OrderStatus.filled } = 0 := by
    unfold scTerm
    exact if_neg (fun hx => OrderStatus.noConfusion
      (hx.2.1 : OrderStatus.filled = OrderStatus.pending))
  have hredP : scTerm aid t
      { o with filled_quantity := o.filled_quantity + qty,
               filled_price := price } =
      (if o.agent_id = aid ∧ o.status = OrderStatus.pending ∧ o.side = OrderSide.sell ∧
        String.upper o.ticker = t then o.quantity - (o.filled_quantity + qty) else 0) := rfl
  have hredO : scTerm aid t o =
      (if o.agent_id = aid ∧ o.status = OrderStatus.pending ∧ o.side = OrderSide.sell ∧
        String.upper o.ticker = t then o.quantity - o.filled_quantity else 0) := rfl
  unfold advance
  dsimp only
  by_cases hge : o.filled_quantity + qty ≥ o.quantity
  · rw [if_pos hge]
    rw [hredF, hredO]
    by_cases hc : o.agent_id = aid ∧ o.side = OrderSide.sell ∧ String.upper o.ticker = t
    · rw [if_pos (⟨hc.1, hst, hc.2.1, hc.2.2⟩ : o.agent_id = aid ∧
        o.status = OrderStatus.pending ∧ o.side = OrderSide.sell ∧
        String.upper o.ticker = t), if_pos hc]
      linarith
    · rw [if_neg (fun hx : o.agent_id = aid ∧ o.status = OrderStatus.pending ∧
        o.side = OrderSide.sell ∧ String.upper o.ticker = t =>
        hc ⟨hx.1, hx.2.2.1, hx.2.2.2⟩), if_neg hc]
      ring
  · rw [if_neg hge]
    rw [hredP, hredO]
    by_cases hc : o.agent_id = aid ∧ o.side = OrderSide.sell ∧ String.upper o.ticker = t
    · rw [if_pos (⟨hc.1, hst, hc.2.1, hc.2.2⟩ : o.agent_id = aid ∧
        o.status = OrderStatus.pending ∧ o.side = OrderSide.sell ∧
        String.upper o.ticker = t),
        if_pos (⟨hc.1, hst, hc.2.1, hc.2.2⟩ : o.agent_id = aid ∧
        o.status = OrderStatus.pending ∧ o.side = OrderSide.sell ∧
        String.upper o.ticker = t), if_pos hc]
      ring
    · rw [if_neg (fun hx : o.agent_id = aid ∧ o.status = OrderStatus.pending ∧
        o.side = OrderSide.sell ∧ String.upper o.ticker = t =>
        hc ⟨hx.1, hx.2.2.1, hx.2.2.2⟩),
        if_neg (fun hx : o.agent_id = aid ∧ o.status = OrderStatus.pending ∧
        o.side = OrderSide.sell ∧ String.upper o.ticker = t =>
        hc ⟨hx.1, hx.2.2.1, hx.2.2.2⟩), if_neg hc]
      ring

theorem scTerm_status_le (aid t : String) (o : Order) (st : OrderStatus)
    (hf : o.filled_quantity ≤ o.quantity) (hst : st = .pending → st = o.status) :
    scTerm aid t { o with status := st } ≤ scTerm aid t o := by
  have hredS : scTerm aid t { o with status := st } =
      (if o.agent_id = aid ∧ st = OrderStatus.pending ∧ o.side = OrderSide.sell ∧
        String.upper o.ticker = t then o.quantity - o.filled_quantity else 0) := rfl
  have hredO : scTerm aid t o =
      (if o.agent_id = aid ∧ o.status = OrderStatus.pending ∧ o.side = OrderSide.sell ∧
        String.upper o.ticker = t then o.quantity - o.filled_quantity else 0) := rfl
  rw [hredS, hredO]
  by_cases hp : st = OrderStatus.pending
  · have ho : o.status = OrderStatus.pending := (hst hp).symm.trans hp
    by_cases hc : o.agent_id = aid ∧ o.side = OrderSide.sell ∧ String.upper o.ticker = t
    · rw [if_pos (⟨hc.1, hp, hc.2.1, hc.2.2⟩ : o.agent_id = aid ∧
        st = OrderStatus.pending ∧ o.side = OrderSide.sell ∧ String.upper o.ticker = t),
        if_pos (⟨hc.1, ho, hc.2.1, hc.2.2⟩ : o.agent_id = aid ∧
        o.status = OrderStatus.pending ∧ o.side = OrderSide.sell ∧
        String.upper o.ticker = t)]
    · rw [if_neg (fun hx : o.agent_id = aid ∧ st = OrderStatus.pending ∧
        o.side = OrderSide.sell ∧ String.upper o.ticker = t =>
        hc ⟨hx.1, hx.2.2.1, hx.2.2.2⟩),
        if_neg (fun hx : o.agent_id = aid ∧ o.status = OrderStatus.pending ∧
        o.side = OrderSide.sell ∧ String.upper o.ticker = t =>
        hc ⟨hx.1, hx.2.2.1, hx.2.2.2⟩)]
  · rw [if_neg (fun hx : o.agent_id = aid ∧ st = OrderStatus.pending ∧
      o.side = OrderSide.sell ∧ String.upper o.ticker = t => hp hx.2.1)]
    split
    · linarith
    · exact le_refl 0

theorem scTerm_price (aid t : String) (o : Order) (p : Option ℚ) :
    scTerm aid t { o with price := p } = scTerm aid t o := rfl

end AIVerse

namespace AIVerse

theorem holdings_updateAgent_get (s : Exchange) (k : String) (f : Agent → Agent)
    (t2 : String)
    (hf : ∀ a, Dict.get? (f a).portfolio t2 = Dict.get? a.portfolio t2) (aid : String) :
    holdings (s.updateAgent k f) aid t2 = holdings s aid t2 := by
  unfold holdings
  rw [updateAgent_agents]
  by_cases hk : aid = k
  · subst hk
    rw [Dict.get?_modify_self]
    cases ha : Dict.get? s.agents aid with
    | none => rfl
    | some a => simp only [Option.map_some', Option.getD_some, hf a]
  · rw [Dict.get?_modify_ne _ _ _ _ hk]

theorem Dict.mem_set_keys {α : Type} (d : Dict α) (k : String) (v : α) (p : String × α)
    (hp : p ∈ d.set k v) : (∃ q ∈ d, p.1 = q.1) ∨ p = (k, v) := by
  unfold Dict.set at hp
  split at hp
  · obtain ⟨q, hq, hpq⟩ := List.mem_map.1 hp
    left
    refine ⟨q, hq, ?_⟩
    by_cases h : q.1 = k
    · rw [if_pos h] at hpq
      rw [← hpq]
    · rw [if_neg h] at hpq
      rw [← hpq]
  · rcases List.mem_append.1 hp with h | h
    · exact Or.inl ⟨p, h, rfl⟩
    · exact Or.inr (List.mem_singleton.1 h)

end AIVerse

namespace AIVerse

theorem tradeStep_companies (s : Exchange) (t : String) (bo so : Order) (qty price : ℚ) :
    (tradeStep s t bo so qty price).companies =
      Dict.modify s.companies t (fun c =>
        { c with share_price := price, market_cap := c.total_shares * price }) := rfl

theorem portfolioPred_modify (ag : Dict Agent) (aid : String) (f : Agent → Agent)
    (P : String × ℚ → Prop)
    (hf : ∀ a, (∀ q ∈ a.portfolio, P q) → ∀ q ∈ (f a).portfolio, P q)
    (h : ∀ p ∈ ag, ∀ q ∈ p.2.portfolio, P q) :
    ∀ p ∈ ag.modify aid f, ∀ q ∈ p.2.portfolio, P q := by
  intro p hp
  rcases Dict.mem_modify ag aid f p hp with hmem | ⟨q0, hq0, hpq⟩
  · exact h p hmem
  · rw [hpq]
    exact hf q0.2 (h q0 hq0)

theorem holdings_agents_eq (s1 s2 : Exchange) (h : s1.agents = s2.agents)
    (aid t2 : String) : holdings s1 aid t2 = holdings s2 aid t2 := by
  unfold holdings
  rw [h]

end AIVerse

namespace AIVerse

theorem Dict.get2_modify_pf (d : Dict Agent) (A B : String) (f1 f2 : Agent → Agent)
    (h1 : ∀ a, (f1 a).portfolio = a.portfolio) (h2 : ∀ a, (f2 a).portfolio = a.portfolio)
    (aB : Agent) (haB : d.get? A = some aB) :
    ∃ a2, Dict.get? ((d.modify A f1).modify B f2) A = some a2 ∧
      a2.portfolio = aB.portfolio := by
  by_cases hAB : A = B
  · subst hAB
    rw [Dict.get?_modify_self, Dict.get?_modify_self, haB, Option.map_some',
      Option.map_some']
    exact ⟨_, rfl, by rw [h2, h1]⟩
  · rw [Dict.get?_modify_ne _ _ _ _ hAB, Dict.get?_modify_self, haB, Option.map_some']
    exact ⟨_, rfl, h1 aB⟩

theorem Dict.get3_modify_pf_set (d : Dict Agent) (A B : String)
    (f1 f2 f3 : Agent → Agent)
    (h1 : ∀ a, (f1 a).portfolio = a.portfolio) (h2 : ∀ a, (f2 a).portfolio = a.portfolio)
    (t : String) (qty : ℚ)
    (hf3 : ∀ a : Agent,
      (f3 a).portfolio = a.portfolio.set t ((Dict.get? a.portfolio t).getD 0 + qty))
    (aB aS : Agent) (haB : d.get? A = some aB) (haS : d.get? B = some aS) :
    ∃ a3, Dict.get? (((d.modify A f1).modify B f2).modify A f3) B = some a3 ∧
      (Dict.get? a3.portfolio t).getD 0 =
        (if A = B then (Dict.get? aB.portfolio t).getD 0 + qty
         else (Dict.get? aS.portfolio t).getD 0) := by
  by_cases hAB : A = B
  · subst hAB
    rw [Dict.get?_modify_self, Dict.get?_modify_self, Dict.get?_modify_self, haB,
      Option.map_some', Option.map_some', Option.map_some']
    refine ⟨_, rfl, ?_⟩
    rw [if_pos rfl, hf3, Dict.get?_set_self, Option.getD_some, h2, h1]
  · rw [Dict.get?_modify_ne _ _ _ _ (fun hc : B = A => hAB hc.symm),
      Dict.get?_modify_self,
      Dict.get?_modify_ne _ _ _ _ (fun hc : B = A => hAB hc.symm), haS,
      Option.map_some']
    refine ⟨_, rfl, ?_⟩
    rw [if_neg hAB, h2]

/-- One trade moves every `sellCommit` account by exactly the seller's
`qty` on the traded ticker and nothing else. -/
theorem tradeStep_sellCommit (s : Exchange) (t : String) (bo so : Order) (qty price : ℚ)
    (hbo : Dict.get? s.orders bo.id = some bo) (hso : Dict.get? s.orders so.id = some so)
    (hne : bo.id ≠ so.id)
    (hqb : qty ≤ bo.quantity - bo.filled_quantity)
    (hqs : qty ≤ so.quantity - so.filled_quantity)
    (hbop : bo.status = .pending) (hsop : so.status = .pending)
    (hbos : bo.side = .buy) (hsos : so.side = .sell)
    (hsot : so.ticker = t) (htup : String.upper t = t)
    (hU : s.orders.Uniq) :
    ∀ aid t2, sellCommit (tradeStep s t bo so qty price) aid t2 =
      sellCommit s aid t2 - (if so.agent_id = aid ∧ t = t2 then qty else 0) := by
  intro aid t2
  have hso2 : Dict.get? (Dict.modify s.orders bo.id (advance qty price)) so.id =
      some so := by
    rw [Dict.get?_modify_ne _ _ _ _ (fun hc : so.id = bo.id => hne hc.symm)]
    exact hso
  have h1 : sellCommit (tradeStep s t bo so qty price) aid t2 =
      sellCommit s aid t2 - scTerm aid t2 bo + scTerm aid t2 (advance qty price bo)
        - scTerm aid t2 so + scTerm aid t2 (advance qty price so) := by
    rw [sellCommit_eq, sellCommit_eq, tradeStep_orders]
    rw [Dict.dsum_modify _ _ so.id _ so (Dict.uniq_modify _ _ _ hU) hso2]
    rw [Dict.dsum_modify _ _ bo.id _ bo hU hbo]
  rw [h1, scTerm_advance aid t2 qty price bo hbop hqb,
    scTerm_advance aid t2 qty price so hsop hqs]
  rw [if_neg (fun hx : bo.agent_id = aid ∧ bo.side = OrderSide.sell ∧
    String.upper bo.ticker = t2 => OrderSide.noConfusion (hbos.symm.trans hx.2.1))]
  by_cases hcond : so.agent_id = aid ∧ t = t2
  · rw [if_pos (show so.agent_id = aid ∧ so.side = OrderSide.sell ∧
      String.upper so.ticker = t2 from
      ⟨hcond.1, hsos, by rw [hsot, htup]; exact hcond.2⟩), if_pos hcond]
    ring
  · rw [if_neg (fun hx : so.agent_id = aid ∧ so.side = OrderSide.sell ∧
      String.upper so.ticker = t2 =>
      hcond ⟨hx.1, by rw [← hx.2.2, hsot, htup]⟩), if_neg hcond]
    ring

/-- Off the traded ticker, the share sum is untouched by a trade. -/
theorem tradeStep_sumShares_ne (s : Exchange) (t : String) (bo so : Order)
    (qty price : ℚ) (t2 : String) (hne2 : t2 ≠ t) :
    sumShares (tradeStep s t bo so qty price) t2 = sumShares s t2 := by
  rw [sumShares_eq, sumShares_eq, tradeStep_agents]
  refine (Dict.dsum_modify_invariant _ _ _ _ ?_).trans
    ((Dict.dsum_modify_invariant _ _ _ _ ?_).trans
    ((Dict.dsum_modify_invariant _ _ _ _ ?_).trans
    ((Dict.dsum_modify_invariant _ _ _ _ ?_).trans
    ((Dict.dsum_modify_invariant _ _ _ _ ?_).trans
    (Dict.dsum_modify_invariant _ _ _ _ ?_)))))
  · exact fun a => rfl
  · exact fun a => rfl
  · intro a
    dsimp only
    split
    · rw [Dict.get?_erase_ne _ _ _ hne2, Dict.get?_set_ne _ _ _ _ hne2]
    · rw [Dict.get?_set_ne _ _ _ _ hne2]
  · intro a
    dsimp only
    rw [Dict.get?_set_ne _ _ _ _ hne2]
  · exact fun a => rfl
  · exact fun a => rfl

end AIVerse

namespace AIVerse

/-- On the traded ticker the share sum is conserved: the buyer gains
`qty`, the seller loses `qty`, and the purge-on-nonpositive branch can
only fire when the remainder is exactly zero (given the seller holds at
least `qty`). -/
theorem tradeStep_sumShares_t (s : Exchange) (t : String) (bo so : Order)
    (qty price : ℚ) (hUa : s.agents.Uniq) (aB aS : Agent)
    (haB : Dict.get? s.agents bo.agent_id = some aB)
    (haS : Dict.get? s.agents so.agent_id = some aS)
    (hqle : qty ≤ (if bo.agent_id = so.agent_id
      then (Dict.get? aB.portfolio t).getD 0 + qty
      else (Dict.get? aS.portfolio t).getD 0)) :
    sumShares (tradeStep s t bo so qty price) t = sumShares s t := by
  obtain ⟨aA2, haA2, hpfA2⟩ := Dict.get2_modify_pf s.agents bo.agent_id so.agent_id
    (fun a => { a with balance := a.balance - qty * price })
    (fun a => { a with balance := a.balance + qty * price })
    (fun a => rfl) (fun a => rfl) aB haB
  obtain ⟨aS3, haS3, hvS3⟩ := Dict.get3_modify_pf_set s.agents bo.agent_id so.agent_id
    (fun a => { a with balance := a.balance - qty * price })
    (fun a => { a with balance := a.balance + qty * price })
    (fun a =>
      { a with
        portfolio := a.portfolio.set t ((Dict.get? a.portfolio t).getD 0 + qty) })
    (fun a => rfl) (fun a => rfl) t qty (fun a => rfl) aB aS haB haS
  rw [sumShares_eq, sumShares_eq, tradeStep_agents]
  refine (Dict.dsum_modify_invariant _ _ _ _ ?_).trans
    ((Dict.dsum_modify_invariant _ _ _ _ ?_).trans ?_)
  · exact fun a => rfl
  · exact fun a => rfl
  rw [Dict.dsum_modify _ _ so.agent_id _ aS3
    (Dict.uniq_modify _ _ _ (Dict.uniq_modify _ _ _ (Dict.uniq_modify _ _ _ hUa))) haS3]
  rw [Dict.dsum_modify _ _ bo.agent_id _ aA2
    (Dict.uniq_modify _ _ _ (Dict.uniq_modify _ _ _ hUa)) haA2]
  have h2 : Dict.dsum ((s.agents.modify bo.agent_id
      (fun a => { a with balance := a.balance - qty * price })).modify so.agent_id
      (fun a => { a with balance := a.balance + qty * price }))
      (fun a => (Dict.get? a.portfolio t).getD 0) =
      Dict.dsum s.agents (fun a => (Dict.get? a.portfolio t).getD 0) := by
    refine (Dict.dsum_modify_invariant _ _ _ _ ?_).trans
      (Dict.dsum_modify_invariant _ _ _ _ ?_)
    · exact fun a => rfl
    · exact fun a => rfl
  rw [h2]
  dsimp only
  rw [Dict.get?_set_self, Option.getD_some]
  have hv : qty ≤ (Dict.get? aS3.portfolio t).getD 0 := by
    rw [hvS3]
    exact hqle
  by_cases hc4 : (Dict.get? (aS3.portfolio.set t
      ((Dict.get? aS3.portfolio t).getD 0 - qty)) t).getD 0 ≤ 0
  · rw [if_pos hc4, Dict.get?_erase_self, Option.getD_none]
    rw [Dict.get?_set_self, Option.getD_some] at hc4
    linarith
  · rw [if_neg hc4, Dict.get?_set_self, Option.getD_some]
    linarith

end AIVerse

namespace AIVerse

/-- Where each agent's holdings on each ticker end up after one trade:
unchanged off the traded ticker and for bystanders, up `qty` for a
distinct buyer, and clipped at zero through the purge branch for the
seller. -/
theorem tradeStep_holdings (s : Exchange) (t : String) (bo so : Order) (qty price : ℚ)
    (aB aS : Agent)
    (haB : Dict.get? s.agents bo.agent_id = some aB)
    (haS : Dict.get? s.agents so.agent_id = some aS) :
    (∀ aid t2, t2 ≠ t →
      holdings (tradeStep s t bo so qty price) aid t2 = holdings s aid t2) ∧
    (∀ aid, aid ≠ bo.agent_id → aid ≠ so.agent_id →
      holdings (tradeStep s t bo so qty price) aid t = holdings s aid t) ∧
    (so.agent_id ≠ bo.agent_id →
      holdings (tradeStep s t bo so qty price) bo.agent_id t =
        (Dict.get? aB.portfolio t).getD 0 + qty) ∧
    (∀ v, v = (if bo.agent_id = so.agent_id
        then (Dict.get? aB.portfolio t).getD 0 + qty
        else (Dict.get? aS.portfolio t).getD 0) →
      holdings (tradeStep s t bo so qty price) so.agent_id t =
        (if v - qty ≤ 0 then 0 else v - qty)) := by
  obtain ⟨aA2, haA2, hpfA2⟩ := Dict.get2_modify_pf s.agents bo.agent_id so.agent_id
    (fun a => { a with balance := a.balance - qty * price })
    (fun a => { a with balance := a.balance + qty * price })
    (fun a => rfl) (fun a => rfl) aB haB
  obtain ⟨aS3, haS3, hvS3⟩ := Dict.get3_modify_pf_set s.agents bo.agent_id so.agent_id
    (fun a => { a with balance := a.balance - qty * price })
    (fun a => { a with balance := a.balance + qty * price })
    (fun a =>
      { a with
        portfolio := a.portfolio.set t ((Dict.get? a.portfolio t).getD 0 + qty) })
    (fun a => rfl) (fun a => rfl) t qty (fun a => rfl) aB aS haB haS
  have htr : ∀ aid t2, holdings (tradeStep s t bo so qty price) aid t2 =
      holdings ((((((s.updateAgent bo.agent_id
        (fun a => { a with balance := a.balance - qty * price })).updateAgent so.agent_id
        (fun a => { a with balance := a.balance + qty * price })).updateAgent bo.agent_id
        (fun a =>
          { a with
            portfolio := a.portfolio.set t
              ((Dict.get? a.portfolio t).getD 0 + qty) })).updateAgent so.agent_id
        (fun a =>
          let pf := a.portfolio.set t ((Dict.get? a.portfolio t).getD 0 - qty)
          { a with portfolio :=
              if ((Dict.get? pf t).getD 0) ≤ 0 then pf.erase t else pf })).updateAgent
        bo.agent_id
        (fun a => { a with total_trades := a.total_trades + 1 })).updateAgent so.agent_id
        (fun a => { a with total_trades := a.total_trades + 1 })) aid t2 :=
    fun aid t2 => holdings_agents_eq _ _ rfl aid t2
  have haA2' : Dict.get? ((s.updateAgent bo.agent_id
      (fun a => { a with balance := a.balance - qty * price })).updateAgent so.agent_id
      (fun a => { a with balance := a.balance + qty * price })).agents bo.agent_id =
      some aA2 := haA2
  have haS3' : Dict.get? (((s.updateAgent bo.agent_id
      (fun a => { a with balance := a.balance - qty * price })).updateAgent so.agent_id
      (fun a => { a with balance := a.balance + qty * price })).updateAgent bo.agent_id
      (fun a =>
        { a with
          portfolio := a.portfolio.set t
            ((Dict.get? a.portfolio t).getD 0 + qty) })).agents so.agent_id =
      some aS3 := haS3
  refine ⟨?_, ?_, ?_, ?_⟩
  · intro aid t2 hne2
    rw [htr aid t2]
    refine (holdings_updateAgent_get _ _ _ t2 ?_ aid).trans
      ((holdings_updateAgent_get _ _ _ t2 ?_ aid).trans
      ((holdings_updateAgent_get _ _ _ t2 ?_ aid).trans
      ((holdings_updateAgent_get _ _ _ t2 ?_ aid).trans
      ((holdings_updateAgent_get _ _ _ t2 ?_ aid).trans
      (holdings_updateAgent_get _ _ _ t2 ?_ aid)))))
    · exact fun a => rfl
    · exact fun a => rfl
    · intro a
      dsimp only
      split
      · rw [Dict.get?_erase_ne _ _ _ hne2, Dict.get?_set_ne _ _ _ _ hne2]
      · rw [Dict.get?_set_ne _ _ _ _ hne2]
    · intro a
      dsimp only
      rw [Dict.get?_set_ne _ _ _ _ hne2]
    · exact fun a => rfl
    · exact fun a => rfl
  · intro aid hA hB
    rw [htr aid t]
    refine (holdings_updateAgent_get _ _ _ t ?_ aid).trans
      ((holdings_updateAgent_get _ _ _ t ?_ aid).trans ?_)
    · exact fun a => rfl
    · exact fun a => rfl
    rw [holdings_updateAgent_ne _ _ _ _ hB t, holdings_updateAgent_ne _ _ _ _ hA t]
    refine (holdings_updateAgent_get _ _ _ t ?_ aid).trans
      (holdings_updateAgent_get _ _ _ t ?_ aid)
    · exact fun a => rfl
    · exact fun a => rfl
  · intro hsb
    rw [htr bo.agent_id t]
    refine (holdings_updateAgent_get _ _ _ t ?_ bo.agent_id).trans
      ((holdings_updateAgent_get _ _ _ t ?_ bo.agent_id).trans ?_)
    · exact fun a => rfl
    · exact fun a => rfl
    rw [holdings_updateAgent_ne _ _ _ _
      (fun hc : bo.agent_id = so.agent_id => hsb hc.symm) t]
    rw [holdings_updateAgent_self _ _ _ aA2 haA2' t]
    dsimp only
    rw [Dict.get?_set_self, Option.getD_some, hpfA2]
  · intro v hv
    rw [htr so.agent_id t]
    refine (holdings_updateAgent_get _ _ _ t ?_ so.agent_id).trans
      ((holdings_updateAgent_get _ _ _ t ?_ so.agent_id).trans ?_)
    · exact fun a => rfl
    · exact fun a => rfl
    rw [holdings_updateAgent_self _ _ _ aS3 haS3' t]
    dsimp only
    by_cases hc4 : (Dict.get? (aS3.portfolio.set t
        ((Dict.get? aS3.portfolio t).getD 0 - qty)) t).getD 0 ≤ 0
    · rw [if_pos hc4, Dict.get?_erase_self, Option.getD_none]
      rw [Dict.get?_set_self, Option.getD_some, hvS3, ← hv] at hc4
      rw [if_pos hc4]
    · rw [if_neg hc4, Dict.get?_set_self, Option.getD_some, hvS3, ← hv]
      rw [Dict.get?_set_self, Option.getD_some, hvS3, ← hv] at hc4
      rw [if_neg hc4]

end AIVerse

namespace AIVerse

/-- One executed trade between a PENDING buyer and a PENDING seller on a
listed, uppercase ticker preserves the whole conservation discipline. -/
theorem tradeStep_cons (s : Exchange) (t : String) (bo so : Order) (qty price : ℚ)
    (hbo : Dict.get? s.orders bo.id = some bo) (hso : Dict.get? s.orders so.id = some so)
    (hne : bo.id ≠ so.id) (hq : 0 < qty)
    (hqb : qty ≤ bo.quantity - bo.filled_quantity)
    (hqs : qty ≤ so.quantity - so.filled_quantity)
    (hbop : bo.status = .pending) (hsop : so.status = .pending)
    (hbos : bo.side = .buy) (hsos : so.side = .sell)
    (hbot : bo.ticker = t) (hsot : so.ticker = t)
    (hC : ConsInv s) : ConsInv (tradeStep s t bo so qty price) := by
  obtain ⟨hInv, hUa, hUo, hOAg, hOCo, hOUp, hPCo, hCKey, hBack, hCons⟩ := hC
  have htup : String.upper t = t := by
    have h := hOUp (bo.id, bo) (Dict.get?_mem _ _ _ hbo)
    rw [hbot] at h
    exact h
  have hcT : (Dict.get? s.companies t).isSome = true := by
    have h := hOCo (bo.id, bo) (Dict.get?_mem _ _ _ hbo)
    rw [hbot, htup] at h
    exact h
  obtain ⟨cT, hcTval⟩ : ∃ c, Dict.get? s.companies t = some c := by
    cases hx : Dict.get? s.companies t with
    | none =>
      rw [hx] at hcT
      exact Bool.noConfusion hcT
    | some c => exact ⟨c, rfl⟩
  have haBs : (Dict.get? s.agents bo.agent_id).isSome = true :=
    hOAg (bo.id, bo) (Dict.get?_mem _ _ _ hbo)
  obtain ⟨aB, haB⟩ : ∃ a, Dict.get? s.agents bo.agent_id = some a := by
    cases hx : Dict.get? s.agents bo.agent_id with
    | none =>
      rw [hx] at haBs
      exact Bool.noConfusion haBs
    | some a => exact ⟨a, rfl⟩
  have haSs : (Dict.get? s.agents so.agent_id).isSome = true :=
    hOAg (so.id, so) (Dict.get?_mem _ _ _ hso)
  obtain ⟨aS, haS⟩ : ∃ a, Dict.get? s.agents so.agent_id = some a := by
    cases hx : Dict.get? s.agents so.agent_id with
    | none =>
      rw [hx] at haSs
      exact Bool.noConfusion haSs
    | some a => exact ⟨a, rfl⟩
  have hsc2 := tradeStep_sellCommit s t bo so qty price hbo hso hne hqb hqs
    hbop hsop hbos hsos hsot htup hUo
  obtain ⟨hH1, hH2, hH3, hH4⟩ := tradeStep_holdings s t bo so qty price aB aS haB haS
  have hscso : scTerm so.agent_id t so = so.quantity - so.filled_quantity := by
    unfold scTerm
    rw [if_pos (show so.agent_id = so.agent_id ∧ so.status = OrderStatus.pending ∧
      so.side = OrderSide.sell ∧ String.upper so.ticker = t from
      ⟨rfl, hsop, hsos, by rw [hsot]; exact htup⟩)]
  have hqsc : qty ≤ sellCommit s so.agent_id t := by
    have h1 := sellCommit_single_le s hInv.1 hUo so.id so hso so.agent_id t
    rw [hscso] at h1
    linarith
  have hhv : holdings s so.agent_id t ≤ (if bo.agent_id = so.agent_id
      then (Dict.get? aB.portfolio t).getD 0 + qty
      else (Dict.get? aS.portfolio t).getD 0) := by
    by_cases halias : bo.agent_id = so.agent_id
    · rw [if_pos halias]
      have haseq : aS = aB := by
        rw [halias] at haB
        exact Option.some.inj (haS.symm.trans haB)
      rw [holdings_of_get? s so.agent_id aS haS t, haseq]
      linarith
    · rw [if_neg halias, holdings_of_get? s so.agent_id aS haS t]
  have hCoSome : ∀ k, (Dict.get? s.companies k).isSome = true →
      (Dict.get? (tradeStep s t bo so qty price).companies k).isSome = true := by
    intro k h
    rw [tradeStep_companies]
    exact Dict.isSome_modify _ _ _ _ h
  have hAgSome : ∀ k, (Dict.get? s.agents k).isSome = true →
      (Dict.get? (tradeStep s t bo so qty price).agents k).isSome = true := by
    intro k h
    rw [tradeStep_agents]
    exact Dict.isSome_modify _ _ _ _ (Dict.isSome_modify _ _ _ _
      (Dict.isSome_modify _ _ _ _ (Dict.isSome_modify _ _ _ _
      (Dict.isSome_modify _ _ _ _ (Dict.isSome_modify _ _ _ _ h)))))
  have hofield : ∀ p ∈ (tradeStep s t bo so qty price).orders, ∃ q ∈ s.orders,
      p.2.agent_id = q.2.agent_id ∧ p.2.ticker = q.2.ticker := by
    intro p hp
    rw [tradeStep_orders] at hp
    rcases Dict.mem_modify _ _ _ _ hp with hp1 | ⟨q1, hq1, hpe⟩
    · rcases Dict.mem_modify _ _ _ _ hp1 with hp2 | ⟨q2, hq2, hpe2⟩
      · exact ⟨p, hp2, rfl, rfl⟩
      · refine ⟨q2, hq2, ?_, ?_⟩
        · rw [hpe2]
          exact (advance_frame qty price q2.2).2.2.2.2.2
        · rw [hpe2]
          exact (advance_frame qty price q2.2).2.2.1
    · rcases Dict.mem_modify _ _ _ _ hq1 with hq2 | ⟨q3, hq3, hpe3⟩
      · refine ⟨q1, hq2, ?_, ?_⟩
        · rw [hpe]
          exact (advance_frame qty price q1.2).2.2.2.2.2
        · rw [hpe]
          exact (advance_frame qty price q1.2).2.2.1
      · refine ⟨q3, hq3, ?_, ?_⟩
        · rw [hpe, hpe3]
          exact ((advance_frame qty price (advance qty price q3.2)).2.2.2.2.2).trans
            ((advance_frame qty price q3.2).2.2.2.2.2)
        · rw [hpe, hpe3]
          exact ((advance_frame qty price (advance qty price q3.2)).2.2.1).trans
            ((advance_frame qty price q3.2).2.2.1)
  have hP : ∀ p ∈ (tradeStep s t bo so qty price).agents, ∀ q ∈ p.2.portfolio,
      (q.1 = t ∨ (Dict.get? s.companies q.1).isSome = true) := by
    intro p hp
    rw [tradeStep_agents] at hp
    revert p hp
    refine portfolioPred_modify _ _ _ _ ?_ (portfolioPred_modify _ _ _ _ ?_
      (portfolioPred_modify _ _ _ _ ?_ (portfolioPred_modify _ _ _ _ ?_
      (portfolioPred_modify _ _ _ _ ?_ (portfolioPred_modify _ _ _ _ ?_ ?_)))))
    · exact fun a ha => ha
    · exact fun a ha => ha
    · intro a ha q hq
      dsimp only at hq
      split at hq
      · have hq' := Dict.mem_erase _ _ _ hq
        rcases Dict.mem_set_keys _ _ _ _ hq' with ⟨q0, hq0, hk⟩ | hqt
        · rw [hk]
          exact ha q0 hq0
        · rw [hqt]
          exact Or.inl rfl
      · rcases Dict.mem_set_keys _ _ _ _ hq with ⟨q0, hq0, hk⟩ | hqt
        · rw [hk]
          exact ha q0 hq0
        · rw [hqt]
          exact Or.inl rfl
    · intro a ha q hq
      dsimp only at hq
      rcases Dict.mem_set_keys _ _ _ _ hq with ⟨q0, hq0, hk⟩ | hqt
      · rw [hk]
        exact ha q0 hq0
      · rw [hqt]
        exact Or.inl rfl
    · exact fun a ha => ha
    · exact fun a ha => ha
    · exact fun p hp q hq => Or.inr (hPCo p hp q hq)
  refine ⟨tradeStep_inv s t bo so qty price hbo hso hne hq hqb hqs hInv,
    ?_, ?_, ?_, ?_, ?_, ?_, ?_, ?_, ?_⟩
  · rw [tradeStep_agents]
    exact Dict.uniq_modify _ _ _ (Dict.uniq_modify _ _ _ (Dict.uniq_modify _ _ _
      (Dict.uniq_modify _ _ _ (Dict.uniq_modify _ _ _ (Dict.uniq_modify _ _ _ hUa)))))
  · rw [tradeStep_orders]
    exact Dict.uniq_modify _ _ _ (Dict.uniq_modify _ _ _ hUo)
  · intro p hp
    obtain ⟨q, hq2, hag, htk⟩ := hofield p hp
    rw [hag]
    exact hAgSome _ (hOAg q hq2)
  · intro p hp
    obtain ⟨q, hq2, hag, htk⟩ := hofield p hp
    rw [htk]
    exact hCoSome _ (hOCo q hq2)
  · intro p hp
    obtain ⟨q, hq2, hag, htk⟩ := hofield p hp
    rw [htk]
    exact hOUp q hq2
  · intro p hp q2 hq2
    rcases hP p hp q2 hq2 with h | h
    · rw [h]
      exact hCoSome t hcT
    · exact hCoSome _ h
  · intro t2 c hc
    rw [tradeStep_companies] at hc
    by_cases ht2 : t2 = t
    · subst ht2
      rw [Dict.get?_modify_self, hcTval, Option.map_some'] at hc
      have hcc := Option.some.inj hc
      rw [← hcc]
      exact hCKey t2 cT hcTval
    · rw [Dict.get?_modify_ne _ _ _ _ ht2] at hc
      exact hCKey t2 c hc
  · intro aid t2 c hc hnb
    rw [tradeStep_companies] at hc
    by_cases ht2 : t2 = t
    · subst ht2
      rw [Dict.get?_modify_self, hcTval, Option.map_some'] at hc
      have hcc := Option.some.inj hc
      have hnb0 : cT.status ≠ .bankrupt := by
        intro hx
        apply hnb
        rw [← hcc]
        exact hx
      have hbk := hBack aid t2 cT hcTval hnb0
      rw [hsc2 aid t2]
      by_cases haidS : aid = so.agent_id
      · subst haidS
        rw [if_pos (show so.agent_id = so.agent_id ∧ t2 = t2 from ⟨rfl, rfl⟩)]
        rw [hH4 _ rfl]
        by_cases hle : (if bo.agent_id = so.agent_id
            then (Dict.get? aB.portfolio t2).getD 0 + qty
            else (Dict.get? aS.portfolio t2).getD 0) - qty ≤ 0
        · rw [if_pos hle]
          linarith [hqsc, hbk, hhv]
        · rw [if_neg hle]
          linarith [hbk, hhv]
      · rw [if_neg (fun hx : so.agent_id = aid ∧ t2 = t2 => haidS hx.1.symm)]
        by_cases haidB : aid = bo.agent_id
        · subst haidB
          rw [hH3 (fun hc2 : so.agent_id = bo.agent_id => haidS hc2.symm)]
          have hbb : holdings s bo.agent_id t2 = (Dict.get? aB.portfolio t2).getD 0 :=
            holdings_of_get? s bo.agent_id aB haB t2
          rw [hbb] at hbk
          linarith
        · rw [hH2 aid haidB haidS]
          linarith
    · rw [Dict.get?_modify_ne _ _ _ _ ht2] at hc
      rw [hsc2 aid t2, if_neg (fun hx : so.agent_id = aid ∧ t = t2 => ht2 hx.2.symm)]
      rw [hH1 aid t2 ht2]
      have hbk := hBack aid t2 c hc hnb
      linarith
  · intro t2 c hc hnb
    rw [tradeStep_companies] at hc
    by_cases ht2 : t2 = t
    · subst ht2
      rw [Dict.get?_modify_self, hcTval, Option.map_some'] at hc
      have hcc := Option.some.inj hc
      have hnb0 : cT.status ≠ .bankrupt := by
        intro hx
        apply hnb
        rw [← hcc]
        exact hx
      have hbks := hBack so.agent_id t2 cT hcTval hnb0
      have hqle : qty ≤ (if bo.agent_id = so.agent_id
          then (Dict.get? aB.portfolio t2).getD 0 + qty
          else (Dict.get? aS.portfolio t2).getD 0) := by
        linarith [hqsc, hhv]
      rw [tradeStep_sumShares_t s t2 bo so qty price hUa aB aS haB haS hqle]
      have hx := hCons t2 cT hcTval hnb0
      rw [hx, ← hcc]
    · rw [Dict.get?_modify_ne _ _ _ _ ht2] at hc
      rw [tradeStep_sumShares_ne s t bo so qty price t2 ht2]
      exact hCons t2 c hc hnb

end AIVerse

namespace AIVerse

/-- Replacing the books leaves every non-book component of the
conservation discipline untouched. -/
theorem consInv_books (s : Exchange) (obks : Dict OrderBook)
    (hI : Inv { s with order_books := obks }) (hC : ConsInv s) :
    ConsInv { s with order_books := obks } := by
  obtain ⟨_, uA, uO, oAg, oCo, oUp, pCo, cKey, backed, cons⟩ := hC
  exact ⟨hI, uA, uO, oAg, oCo, oUp, pCo, cKey, backed, cons⟩

theorem advance_pending_or_full (q p : ℚ) (ob : Order) (hst : ob.status = .pending) :
    (advance q p ob).status = .pending ∨
      (advance q p ob).quantity ≤ (advance q p ob).filled_quantity := by
  unfold advance
  dsimp only
  by_cases hge : ob.filled_quantity + q ≥ ob.quantity
  · rw [if_pos hge]
    exact Or.inr hge
  · rw [if_neg hge]
    exact Or.inl hst

/-- The matching loop preserves the conservation discipline, as long as
the incoming order is PENDING until full. -/
theorem matchLoopF_cons : ∀ (fuel : ℕ) (s : Exchange) (oid : String),
    ConsInv s → NotInBooks s oid →
    (∀ ob, Dict.get? s.orders oid = some ob →
      ob.status = .pending ∨ ob.quantity ≤ ob.filled_quantity) →
    ConsInv (s.matchLoopF oid fuel) := by
  intro fuel
  induction fuel with
  | zero =>
    intro s oid hC hn horder
    exact hC
  | succ n ih =>
    intro s oid hC hn horder
    have h := hC.inv
    simp only [Exchange.matchLoopF]
    cases hlook : Dict.get? s.orders oid with
    | none => exact hC
    | some o =>
      dsimp only
      by_cases hcond : o.filled_quantity < o.quantity
      · rw [if_pos hcond]
        cases hbk : Dict.get? s.order_books o.ticker with
        | none => exact hC
        | some bk =>
          dsimp only
          have hoid2 : o.id = oid := (h.1 oid o hlook).1.1.symm
          have hbop : o.status = .pending := by
            rcases horder o hlook with hp | hfull
            · exact hp
            · exact absurd hcond (not_lt.mpr hfull)
          by_cases hside : o.side = .buy
          · rw [if_pos hside]
            simp only [OrderBook.best_ask]
            cases hbest : bestOf s.orders bk.asks with
            | mk ro l2 =>
              dsimp only
              have hsubA : ∀ e ∈ l2, e ∈ bk.asks := fun e he =>
                bestOf_snd_subset s.orders bk.asks e (by rw [hbest]; exact he)
              set s1 : Exchange := { s with
                order_books := Dict.set s.order_books o.ticker
                  { bk with asks := l2 } } with hs1
              have hI1 : Inv s1 := by
                rw [hs1]
                exact ⟨h.1, booksInv_set_sub s o.ticker bk _ hbk (fun e2 he2 => he2)
                  hsubA h.2.1, h.2.2⟩
              have hC1 : ConsInv s1 := by
                rw [hs1] at hI1 ⊢
                exact consInv_books s _ hI1 hC
              have hn1 : NotInBooks s1 oid := by
                rw [hs1]
                exact notInBooks_set_sub s oid o.ticker bk _ hbk (fun e2 he2 => he2)
                  hsubA hn
              have hlook1 : Dict.get? s1.orders oid = some o := by
                rw [hs1]
                exact hlook
              cases ro with
              | none => exact hC1
              | some counter =>
                dsimp only
                obtain ⟨hcPend, e, rest, hl2, hce⟩ :=
                  bestOfF_some_shape s.orders bk.asks.length bk.asks l2 counter hbest
                have heid : e.oid = counter.id := (h.1 e.oid counter hce).1.1
                have hcid : Dict.get? s.orders counter.id = some counter := by
                  rw [← heid]
                  exact hce
                have hcid1 : Dict.get? s1.orders counter.id = some counter := by
                  rw [hs1]
                  exact hcid
                have hcfq : counter.filled_quantity < counter.quantity :=
                  (h.1 e.oid counter hce).2 hcPend
                have heMem : e ∈ bk.asks := hsubA e (by rw [hl2]; exact List.mem_cons_self e rest)
                have hneq : oid ≠ counter.id := by
                  intro hcc
                  exact (hn o.ticker bk hbk).2 e heMem (by rw [heid, ← hcc])
                have hsell : counter.side = .sell ∧ String.upper counter.ticker = o.ticker := by
                  obtain ⟨ow, how, hw1, hw2, hw3⟩ := (h.2.1 o.ticker bk hbk).2 e heMem
                  have howeq : ow = counter := Option.some.inj (how.symm.trans hce)
                  rw [howeq] at hw1 hw3
                  exact ⟨hw1, hw3⟩
                have hctick : counter.ticker = o.ticker := by
                  have h2 := hC.oUp (e.oid, counter) (Dict.get?_mem _ _ _ hce)
                  exact h2.symm.trans hsell.2
                by_cases hb1 : o.side = OrderSide.buy ∧ Exchange.truthy o.price = true ∧
                    counter.price.getD 0 > o.price.getD 0
                · rw [if_pos hb1]
                  exact hC1
                · rw [if_neg hb1,
                    if_neg (fun hx : o.side = OrderSide.sell ∧ Exchange.truthy o.price = true ∧
                      counter.price.getD 0 < o.price.getD 0 =>
                      OrderSide.noConfusion (hside.symm.trans hx.1))]
                  rw [execute_trade_eq s1 oid counter.id o counter _ _ hlook1 hcid1,
                    if_pos hside, if_pos hside]
                  refine ih _ oid ?_ ?_ ?_
                  · refine tradeStep_cons s1 o.ticker o counter _ _ ?_ hcid1 ?_
                      (lt_min (by linarith) (by linarith)) (min_le_left _ _)
                      (min_le_right _ _) hbop hcPend hside hsell.1 rfl hctick hC1
                    · rw [hoid2]
                      exact hlook1
                    · rw [hoid2]
                      exact hneq
                  · exact notInBooks_of_books_eq _ _ oid (tradeStep_books _ _ _ _ _ _) hn1
                  · intro ob hob
                    rw [tradeStep_get? s1 o.ticker o counter _ _ oid
                      (by rw [hoid2]; exact hneq)] at hob
                    rw [if_pos hoid2.symm, hoid2, hlook1, Option.map_some'] at hob
                    rw [← Option.some.inj hob]
                    exact advance_pending_or_full _ _ o hbop
          · rw [if_neg hside]
            simp only [OrderBook.best_bid]
            have hsides : o.side = .sell := by
              cases hss : o.side
              · exact absurd hss hside
              · rfl
            cases hbest : bestOf s.orders bk.bids with
            | mk ro l2 =>
              dsimp only
              have hsubB : ∀ e ∈ l2, e ∈ bk.bids := fun e he =>
                bestOf_snd_subset s.orders bk.bids e (by rw [hbest]; exact he)
              set s1 : Exchange := { s with
                order_books := Dict.set s.order_books o.ticker
                  { bk with bids := l2 } } with hs1
              have hI1 : Inv s1 := by
                rw [hs1]
                exact ⟨h.1, booksInv_set_sub s o.ticker bk _ hbk hsubB
                  (fun e2 he2 => he2) h.2.1, h.2.2⟩
              have hC1 : ConsInv s1 := by
                rw [hs1] at hI1 ⊢
                exact consInv_books s _ hI1 hC
              have hn1 : NotInBooks s1 oid := by
                rw [hs1]
                exact notInBooks_set_sub s oid o.ticker bk _ hbk hsubB
                  (fun e2 he2 => he2) hn
              have hlook1 : Dict.get? s1.orders oid = some o := by
                rw [hs1]
                exact hlook
              cases ro with
              | none => exact hC1
              | some counter =>
                dsimp only
                obtain ⟨hcPend, e, rest, hl2, hce⟩ :=
                  bestOfF_some_shape s.orders bk.bids.length bk.bids l2 counter hbest
                have heid : e.oid = counter.id := (h.1 e.oid counter hce).1.1
                have hcid : Dict.get? s.orders counter.id = some counter := by
                  rw [← heid]
                  exact hce
                have hcid1 : Dict.get? s1.orders counter.id = some counter := by
                  rw [hs1]
                  exact hcid
                have hcfq : counter.filled_quantity < counter.quantity :=
                  (h.1 e.oid counter hce).2 hcPend
                have heMem : e ∈ bk.bids := hsubB e (by rw [hl2]; exact List.mem_cons_self e rest)
                have hneq : oid ≠ counter.id := by
                  intro hcc
                  exact (hn o.ticker bk hbk).1 e heMem (by rw [heid, ← hcc])
                have hbuy : counter.side = .buy ∧ String.upper counter.ticker = o.ticker := by
                  obtain ⟨ow, how, hw1, hw2, hw3⟩ := (h.2.1 o.ticker bk hbk).1 e heMem
                  have howeq : ow = counter := Option.some.inj (how.symm.trans hce)
                  rw [howeq] at hw1 hw3
                  exact ⟨hw1, hw3⟩
                have hctick : counter.ticker = o.ticker := by
                  have h2 := hC.oUp (e.oid, counter) (Dict.get?_mem _ _ _ hce)
                  exact h2.symm.trans hbuy.2
                have hneqc : counter.id ≠ o.id := by
                  intro hcc
                  apply hneq
                  rw [← hoid2, ← hcc]
                rw [if_neg (fun hx : o.side = OrderSide.buy ∧ Exchange.truthy o.price = true ∧
                    counter.price.getD 0 > o.price.getD 0 => hside hx.1)]
                by_cases hb2 : o.side = OrderSide.sell ∧ Exchange.truthy o.price = true ∧
                    counter.price.getD 0 < o.price.getD 0
                · rw [if_pos hb2]
                  exact hC1
                · rw [if_neg hb2]
                  rw [execute_trade_eq s1 oid counter.id o counter _ _ hlook1 hcid1,
                    if_neg hside, if_neg hside]
                  refine ih _ oid ?_ ?_ ?_
                  · refine tradeStep_cons s1 o.ticker counter o _ _ hcid1 ?_ hneqc
                      (lt_min (by linarith) (by linarith)) (min_le_right _ _)
                      (min_le_left _ _) hcPend hbop hbuy.1 hsides hctick rfl hC1
                    rw [hoid2]
                    exact hlook1
                  · exact notInBooks_of_books_eq _ _ oid (tradeStep_books _ _ _ _ _ _) hn1
                  · intro ob hob
                    rw [tradeStep_get? s1 o.ticker counter o _ _ oid hneqc] at hob
                    rw [if_neg hneq, if_pos hoid2.symm, hoid2, hlook1,
                      Option.map_some'] at hob
                    rw [← Option.some.inj hob]
                    exact advance_pending_or_full _ _ o hbop
      · rw [if_neg hcond]
        exact hC
end AIVerse

namespace AIVerse

/-- Transfer the conservation discipline across a state that differs only
in its books/trades (orders, agents and companies agree). -/
theorem consInv_transfer (s s2 : Exchange) (hI : Inv s2)
    (hO : s2.orders = s.orders) (hA : s2.agents = s.agents)
    (hCo : s2.companies = s.companies) (hC : ConsInv s) : ConsInv s2 := by
  obtain ⟨_, uA, uO, oAg, oCo, oUp, pCo, cKey, backed, cons⟩ := hC
  have hsc : ∀ aid t, sellCommit s2 aid t = sellCommit s aid t := by
    intro aid t
    rw [sellCommit_eq, sellCommit_eq, hO]
  have hh : ∀ aid t, holdings s2 aid t = holdings s aid t := by
    intro aid t
    unfold holdings
    rw [hA]
  have hss : ∀ t, sumShares s2 t = sumShares s t := by
    intro t
    rw [sumShares_eq, sumShares_eq, hA]
  refine ⟨hI, ?_, ?_, ?_, ?_, ?_, ?_, ?_, ?_, ?_⟩
  · rw [hA]
    exact uA
  · rw [hO]
    exact uO
  · rw [hO, hA]
    exact oAg
  · rw [hO, hCo]
    exact oCo
  · rw [hO]
    exact oUp
  · rw [hA, hCo]
    exact pCo
  · rw [hCo]
    exact cKey
  · intro aid t c hc hnb
    rw [hCo] at hc
    rw [hsc, hh]
    exact backed aid t c hc hnb
  · intro t c hc hnb
    rw [hCo] at hc
    rw [hss]
    exact cons t c hc hnb

/-- An order rewrite that keeps agent/ticker and never increases the
remaining PENDING sell commitment preserves the discipline. -/
theorem consInv_updateOrder (s : Exchange) (k : String) (f : Order → Order)
    (hI : Inv (s.updateOrder k f))
    (hframe : ∀ ob, (f ob).agent_id = ob.agent_id ∧ (f ob).ticker = ob.ticker)
    (hsc : ∀ aid t ob, Dict.get? s.orders k = some ob →
      scTerm aid t (f ob) ≤ scTerm aid t ob)
    (hC : ConsInv s) : ConsInv (s.updateOrder k f) := by
  obtain ⟨hInv0, uA, uO, oAg, oCo, oUp, pCo, cKey, backed, cons⟩ := hC
  have hscle : ∀ aid t, sellCommit (s.updateOrder k f) aid t ≤ sellCommit s aid t := by
    intro aid t
    cases hob : Dict.get? s.orders k with
    | none =>
      rw [sellCommit_eq, sellCommit_eq, updateOrder_orders,
        Dict.modify_eq_self s.orders k f hob]
    | some ob =>
      rw [sellCommit_updateOrder s k f ob uO hob]
      have := hsc aid t ob hob
      linarith
  have hh : ∀ aid t, holdings (s.updateOrder k f) aid t = holdings s aid t :=
    fun aid t => holdings_agents_eq _ _ rfl aid t
  refine ⟨hI, uA, ?_, ?_, ?_, ?_, pCo, cKey, ?_, cons⟩
  · rw [updateOrder_orders]
    exact Dict.uniq_modify _ _ _ uO
  · intro p hp
    rw [updateOrder_orders] at hp
    rcases Dict.mem_modify _ _ _ _ hp with hmem | ⟨q, hq, hpq⟩
    · exact oAg p hmem
    · rw [hpq]
      have h2 := oAg q hq
      rw [(hframe q.2).1]
      exact h2
  · intro p hp
    rw [updateOrder_orders] at hp
    rcases Dict.mem_modify _ _ _ _ hp with hmem | ⟨q, hq, hpq⟩
    · exact oCo p hmem
    · rw [hpq]
      have h2 := oCo q hq
      rw [(hframe q.2).2]
      exact h2
  · intro p hp
    rw [updateOrder_orders] at hp
    rcases Dict.mem_modify _ _ _ _ hp with hmem | ⟨q, hq, hpq⟩
    · exact oUp p hmem
    · rw [hpq]
      have h2 := oUp q hq
      rw [(hframe q.2).2]
      exact h2
  · intro aid t c hc hnb
    have hc2 : Dict.get? s.companies t = some c := hc
    have := backed aid t c hc2 hnb
    have h1 := hscle aid t
    rw [hh]
    linarith

/-- An agent absent from the store has no resting orders. -/
theorem sellCommit_absent (s : Exchange)
    (hOAg : ∀ p ∈ s.orders, (Dict.get? s.agents p.2.agent_id).isSome = true)
    (aid t : String) (hnone : Dict.get? s.agents aid = none) :
    sellCommit s aid t = 0 := by
  rw [sellCommit_eq]
  refine Dict.dsum_zero _ _ ?_
  intro p hp
  unfold scTerm
  refine if_neg ?_
  intro hx
  have h1 := hOAg p hp
  rw [hx.1, hnone] at h1
  exact Bool.noConfusion h1

/-- No order can rest on an unlisted ticker. -/
theorem sellCommit_nocompany (s : Exchange)
    (hOCo : ∀ p ∈ s.orders, (Dict.get? s.companies (String.upper p.2.ticker)).isSome = true)
    (aid t : String) (hnone : Dict.get? s.companies t = none) :
    sellCommit s aid t = 0 := by
  rw [sellCommit_eq]
  refine Dict.dsum_zero _ _ ?_
  intro p hp
  unfold scTerm
  refine if_neg ?_
  intro hx
  have h1 := hOCo p hp
  rw [hx.2.2.2, hnone] at h1
  exact Bool.noConfusion h1

/-- No portfolio holds shares of an unlisted ticker. -/
theorem sumShares_nocompany (s : Exchange)
    (hpCo : ∀ p ∈ s.agents, ∀ q ∈ p.2.portfolio,
      (Dict.get? s.companies q.1).isSome = true)
    (t : String) (hnone : Dict.get? s.companies t = none) :
    sumShares s t = 0 := by
  rw [sumShares_eq]
  refine Dict.dsum_zero _ _ ?_
  intro p hp
  cases hq : Dict.get? p.2.portfolio t with
  | none => rfl
  | some v =>
    have h1 := hpCo p hp (t, v) (Dict.get?_mem _ _ _ hq)
    rw [hnone] at h1
    exact Bool.noConfusion h1

theorem foldl_cons {β : Type} (f : Exchange → β → Exchange)
    (hf : ∀ ex b, ConsInv ex → ConsInv (f ex b)) :
    ∀ (l : List β) (ex : Exchange), ConsInv ex → ConsInv (l.foldl f ex) := by
  intro l
  induction l with
  | nil =>
    intro ex h
    exact h
  | cons b rest ih =>
    intro ex h
    exact ih (f ex b) (hf ex b h)

theorem consInv_empty : ConsInv ({} : Exchange) := by
  refine ⟨inv_empty, List.nodup_nil, List.nodup_nil, ?_, ?_, ?_, ?_, ?_, ?_, ?_⟩
  · intro p hp
    exact absurd hp (List.not_mem_nil p)
  · intro p hp
    exact absurd hp (List.not_mem_nil p)
  · intro p hp
    exact absurd hp (List.not_mem_nil p)
  · intro p hp
    exact absurd hp (List.not_mem_nil p)
  · intro t c hc
    exact Option.noConfusion hc
  · intro aid t c hc hnb
    exact Option.noConfusion hc
  · intro t c hc hnb
    exact Option.noConfusion hc

end AIVerse

namespace AIVerse

theorem match_order_cons (s : Exchange) (oid : String) (hC : ConsInv s)
    (hn : NotInBooks s oid)
    (horder : ∀ ob, Dict.get? s.orders oid = some ob →
      ob.status = .pending ∨ ob.quantity ≤ ob.filled_quantity) :
    ConsInv (s.match_order oid) := by
  unfold Exchange.match_order
  cases hlook : Dict.get? s.orders oid with
  | none => exact hC
  | some o =>
    dsimp only
    cases hbk : Dict.get? s.order_books o.ticker with
    | none => exact hC
    | some bk =>
      dsimp only
      have hC1 : ConsInv (s.matchLoopF oid
          ((if o.side = OrderSide.buy then bk.asks else bk.bids).length + 1)) :=
        matchLoopF_cons _ s oid hC hn horder
      obtain ⟨hI1, hNB1, hES1, hEN1⟩ :=
        matchLoopF_inv ((if o.side = OrderSide.buy then bk.asks else bk.bids).length + 1)
          s oid hC.inv hn
      refine consInv_updateOrder _ oid _ ?_ ?_ ?_ hC1
      · refine inv_updateOrder _ oid _ ?_ ?_ hI1
        · intro ob
          dsimp only
          split
          · exact ⟨rfl, rfl, rfl, rfl, rfl⟩
          · split
            · exact ⟨rfl, rfl, rfl, rfl, rfl⟩
            · exact ⟨rfl, rfl, rfl, rfl, rfl⟩
        · intro i2 ob hOI hp
          dsimp only
          by_cases h1 : ob.filled_quantity ≥ ob.quantity
          · rw [if_pos h1]
            obtain ⟨hid, hq0, hf0, hfq, hfil, hpart⟩ := hOI
            exact ⟨⟨hid, hq0, hf0, hfq, fun _ => le_antisymm hfq h1,
              fun hx => absurd hx (by intro hc; exact OrderStatus.noConfusion hc)⟩,
              fun hx => absurd hx (by intro hc; exact OrderStatus.noConfusion hc)⟩
          · rw [if_neg h1]
            push_neg at h1
            by_cases h2 : ob.filled_quantity > 0
            · rw [if_pos h2]
              obtain ⟨hid, hq0, hf0, hfq, hfil, hpart⟩ := hOI
              exact ⟨⟨hid, hq0, hf0, hfq,
                fun hx => absurd hx (by intro hc; exact OrderStatus.noConfusion hc),
                fun _ => ⟨h2, h1⟩⟩,
                fun hx => absurd hx (by intro hc; exact OrderStatus.noConfusion hc)⟩
            · rw [if_neg h2]
              exact ⟨hOI, fun _ => h1⟩
      · intro ob
        dsimp only
        split
        · exact ⟨rfl, rfl⟩
        · split
          · exact ⟨rfl, rfl⟩
          · exact ⟨rfl, rfl⟩
      · intro aid t ob hob
        dsimp only
        have hfq : ob.filled_quantity ≤ ob.quantity := (hI1.1 oid ob hob).1.2.2.2.1
        by_cases h1 : ob.filled_quantity ≥ ob.quantity
        · rw [if_pos h1]
          exact scTerm_status_le aid t ob .filled hfq
            (fun hx => absurd hx (by intro hc; exact OrderStatus.noConfusion hc))
        · rw [if_neg h1]
          by_cases h2 : ob.filled_quantity > 0
          · rw [if_pos h2]
            exact scTerm_status_le aid t ob .partialFilled hfq
              (fun hx => absurd hx (by intro hc; exact OrderStatus.noConfusion hc))
          · rw [if_neg h2]

theorem execute_market_order_cons (s : Exchange) (oid : String) (hC : ConsInv s)
    (hn : NotInBooks s oid)
    (horder : ∀ ob, Dict.get? s.orders oid = some ob →
      ob.status = .pending ∨ ob.quantity ≤ ob.filled_quantity) :
    ConsInv (s.execute_market_order oid) := by
  unfold Exchange.execute_market_order
  cases hlook : Dict.get? s.orders oid with
  | none => exact hC
  | some o =>
    dsimp only
    obtain ⟨hI1, hOeq, hAeq, hCeq, hNtr⟩ := get_market_price_inv s o.ticker o.side hC.inv
    have hCmp : ConsInv (s.get_market_price o.ticker o.side).2 :=
      consInv_transfer s _ hI1 hOeq hAeq hCeq hC
    have hI2 : Inv ((s.get_market_price o.ticker o.side).2.updateOrder oid
        (fun o2 => { o2 with price := some (s.get_market_price o.ticker o.side).1 })) :=
      inv_updateOrder _ oid _ (fun ob => ⟨rfl, rfl, rfl, rfl, rfl⟩)
        (fun i2 ob hOI hp => ⟨hOI, hp⟩) hI1
    have hC2 : ConsInv ((s.get_market_price o.ticker o.side).2.updateOrder oid
        (fun o2 => { o2 with price := some (s.get_market_price o.ticker o.side).1 })) :=
      consInv_updateOrder _ oid _ hI2 (fun ob => ⟨rfl, rfl⟩)
        (fun aid t ob hob => le_of_eq (scTerm_price aid t ob _)) hCmp
    have hNB2 : NotInBooks ((s.get_market_price o.ticker o.side).2.updateOrder oid
        (fun o2 => { o2 with price := some (s.get_market_price o.ticker o.side).1 })) oid :=
      hNtr oid hn
    have hord2 : ∀ ob, Dict.get?
        ((s.get_market_price o.ticker o.side).2.updateOrder oid
          (fun o2 => { o2 with
            price := some (s.get_market_price o.ticker o.side).1 })).orders oid =
        some ob → ob.status = .pending ∨ ob.quantity ≤ ob.filled_quantity := by
      intro ob hob
      rw [updateOrder_orders, Dict.get?_modify_self, hOeq] at hob
      cases hx : Dict.get? s.orders oid with
      | none =>
        rw [hx] at hob
        exact Option.noConfusion hob
      | some ob0 =>
        rw [hx, Option.map_some'] at hob
        rw [← Option.some.inj hob]
        exact horder ob0 hx
    have hC3 : ConsInv (((s.get_market_price o.ticker o.side).2.updateOrder oid
        (fun o2 => { o2 with
          price := some (s.get_market_price o.ticker o.side).1 })).match_order oid) :=
      match_order_cons _ oid hC2 hNB2 hord2
    obtain ⟨hI3, hNB3, hES3, hEN3⟩ := match_order_post _ oid hI2 hNB2
    refine consInv_updateOrder _ oid _ ?_ ?_ ?_ hC3
    · refine inv_updateOrder _ oid _ ?_ ?_ hI3
      · intro ob
        dsimp only
        split
        · exact ⟨rfl, rfl, rfl, rfl, rfl⟩
        · exact ⟨rfl, rfl, rfl, rfl, rfl⟩
      · intro i2 ob hOI hp
        dsimp only
        by_cases hpd : ob.status = OrderStatus.pending
        · rw [if_pos hpd]
          obtain ⟨hid, hq0, hf0, hfq, hfil, hpart⟩ := hOI
          exact ⟨⟨hid, hq0, hf0, hfq,
            fun hx => absurd hx (by intro hc; exact OrderStatus.noConfusion hc),
            fun hx => absurd hx (by intro hc; exact OrderStatus.noConfusion hc)⟩,
            fun hx => absurd hx (by intro hc; exact OrderStatus.noConfusion hc)⟩
        · rw [if_neg hpd]
          exact ⟨hOI, hp⟩
    · intro ob
      dsimp only
      split
      · exact ⟨rfl, rfl⟩
      · exact ⟨rfl, rfl⟩
    · intro aid t ob hob
      dsimp only
      by_cases hpd : ob.status = OrderStatus.pending
      · rw [if_pos hpd]
        have hfq : ob.filled_quantity ≤ ob.quantity := (hI3.1 oid ob hob).1.2.2.2.1
        exact scTerm_status_le aid t ob .cancelled hfq
          (fun hx => absurd hx (by intro hc; exact OrderStatus.noConfusion hc))
      · rw [if_neg hpd]

end AIVerse

namespace AIVerse

/-- Indexing a fresh PENDING order preserves the discipline, provided the
order's agent and (normalized = raw) ticker are known and a SELL is
backed by current holdings on top of the resting commitment. -/
theorem indexOrder_cons (s : Exchange) (order : Order)
    (hfresh : Dict.get? s.orders order.id = none)
    (hst : order.status = .pending) (hfq : order.filled_quantity = 0)
    (hq : 0 < order.quantity)
    (hag : (Dict.get? s.agents order.agent_id).isSome = true)
    (hco : (Dict.get? s.companies (String.upper order.ticker)).isSome = true)
    (hup : String.upper order.ticker = order.ticker)
    (hsell : order.side = .sell →
      sellCommit s order.agent_id (String.upper order.ticker) + order.quantity ≤
        holdings s order.agent_id (String.upper order.ticker))
    (hC : ConsInv s) :
    ConsInv { s with orders := Dict.set s.orders order.id order } := by
  obtain ⟨hInv0, uA, uO, oAg, oCo, oUp, pCo, cKey, backed, cons⟩ := hC
  have hI1 : Inv { s with orders := Dict.set s.orders order.id order } := by
    refine ⟨?_, ?_, hInv0.2.2⟩
    · intro i ob hob
      have hob2 : Dict.get? (Dict.set s.orders order.id order) i = some ob := hob
      by_cases hio : i = order.id
      · subst hio
        rw [Dict.get?_set_self] at hob2
        have hoo := Option.some.inj hob2
        subst hoo
        refine ⟨⟨rfl, hq, by rw [hfq], by rw [hfq]; exact hq.le,
          fun hx => absurd (hst.symm.trans hx)
            (by intro hc; exact OrderStatus.noConfusion hc),
          fun hx => absurd (hst.symm.trans hx)
            (by intro hc; exact OrderStatus.noConfusion hc)⟩,
          fun _ => by rw [hfq]; exact hq⟩
      · rw [Dict.get?_set_ne _ _ _ _ hio] at hob2
        exact hInv0.1 i ob hob2
    · intro t bk hbk
      obtain ⟨h1, h2⟩ := hInv0.2.1 t bk hbk
      exact ⟨bookSideInv_set_fresh s.orders order.id order t .buy bk.bids hfresh h1,
             bookSideInv_set_fresh s.orders order.id order t .sell bk.asks hfresh h2⟩
  have hscTval : ∀ aid t, scTerm aid t order = 0 ∨
      (order.agent_id = aid ∧ order.side = .sell ∧ String.upper order.ticker = t ∧
        scTerm aid t order = order.quantity) := by
    intro aid t
    unfold scTerm
    by_cases hcnd : order.agent_id = aid ∧ order.status = OrderStatus.pending ∧
        order.side = OrderSide.sell ∧ String.upper order.ticker = t
    · right
      refine ⟨hcnd.1, hcnd.2.2.1, hcnd.2.2.2, ?_⟩
      rw [if_pos hcnd, hfq]
      ring
    · left
      exact if_neg hcnd
  refine ⟨hI1, uA, ?_, ?_, ?_, ?_, pCo, cKey, ?_, ?_⟩
  · exact Dict.uniq_set s.orders order.id order uO hfresh
  · intro p hp
    rcases Dict.mem_set _ _ _ _ hp with hmem | hpv
    · exact oAg p hmem
    · rw [hpv]
      exact hag
  · intro p hp
    rcases Dict.mem_set _ _ _ _ hp with hmem | hpv
    · exact oCo p hmem
    · rw [hpv]
      exact hco
  · intro p hp
    rcases Dict.mem_set _ _ _ _ hp with hmem | hpv
    · exact oUp p hmem
    · rw [hpv]
      exact hup
  · intro aid t c hc hnb
    have hc2 : Dict.get? s.companies t = some c := hc
    rw [sellCommit_indexOrder s order hfresh aid t]
    rw [holdings_agents_eq { s with orders := Dict.set s.orders order.id order } s rfl
      aid t]
    rcases hscTval aid t with h0 | ⟨ha, hs, ht, hv⟩
    · rw [h0]
      have := backed aid t c hc2 hnb
      linarith
    · rw [hv, ← ha, ← ht]
      exact hsell hs
  · intro t c hc hnb
    have hc2 : Dict.get? s.companies t = some c := hc
    have hss : sumShares { s with orders := Dict.set s.orders order.id order } t =
        sumShares s t := rfl
    rw [hss]
    exact cons t c hc2 hnb

theorem finishSubmit_cons (s : Exchange) (order : Order) (ticker : String)
    (hfresh : Dict.get? s.orders order.id = none)
    (hst : order.status = .pending) (hfq : order.filled_quantity = 0)
    (hq : 0 < order.quantity)
    (htick : String.upper order.ticker = ticker)
    (hup : String.upper order.ticker = order.ticker)
    (hag : (Dict.get? s.agents order.agent_id).isSome = true)
    (hco : (Dict.get? s.companies (String.upper order.ticker)).isSome = true)
    (hsell : order.side = .sell →
      sellCommit s order.agent_id (String.upper order.ticker) + order.quantity ≤
        holdings s order.agent_id (String.upper order.ticker))
    (hC : ConsInv s) :
    ConsInv (s.finishSubmit order ticker).2 := by
  unfold Exchange.finishSubmit
  dsimp only
  have hC1 : ConsInv { s with orders := Dict.set s.orders order.id order } :=
    indexOrder_cons s order hfresh hst hfq hq hag hco hup hsell hC
  have hI1 : Inv { s with orders := Dict.set s.orders order.id order } := hC1.inv
  have hNB1 : NotInBooks { s with orders := Dict.set s.orders order.id order } order.id :=
    notInBooks_of_fresh s order.id hfresh hC.inv.2.1
  have hord1 : ∀ ob, Dict.get?
      ({ s with orders := Dict.set s.orders order.id order }).orders order.id = some ob →
      ob.status = .pending ∨ ob.quantity ≤ ob.filled_quantity := by
    intro ob hob
    have hob2 : Dict.get? (Dict.set s.orders order.id order) order.id = some ob := hob
    rw [Dict.get?_set_self] at hob2
    rw [← Option.some.inj hob2]
    exact Or.inl hst
  by_cases hty : order.order_type = OrderType.market
  · rw [if_pos hty]
    exact execute_market_order_cons _ order.id hC1 hNB1 hord1
  · rw [if_neg hty]
    have hlim : order.order_type = OrderType.limit := by
      cases hcc : order.order_type
      · exact absurd hcc hty
      · rfl
    have hC3 : ConsInv ({ s with
        orders := Dict.set s.orders order.id order }.match_order order.id) :=
      match_order_cons _ order.id hC1 hNB1 hord1
    obtain ⟨hI3, hNB3, hES3, hEN3⟩ := match_order_post _ order.id hI1 hNB1
    obtain ⟨o2, ho2, hfr2⟩ :=
      hES3 order.id order (Dict.get?_set_self s.orders order.id order)
    rw [ho2]
    dsimp only
    by_cases hp2 : o2.status = OrderStatus.pending
    · rw [if_pos hp2]
      refine consInv_books _ _ ?_ hC3
      refine ⟨hI3.1, ?_, hI3.2.2⟩
      intro t bk4 hbk4
      have ho2id : order.id = o2.id :=
        (hI3.1 order.id o2 ho2).1.1
      have ho2get : Dict.get? ({ s with
          orders := Dict.set s.orders order.id order }.match_order order.id).orders o2.id =
          some o2 := by
        rw [← ho2id]
        exact ho2
      have hbk5 : Dict.get? (Dict.modify ({ s with
          orders := Dict.set s.orders order.id order }.match_order
            order.id).order_books ticker (fun b => b.add_order o2)) t = some bk4 := hbk4
      by_cases ht : t = ticker
      · subst ht
        rw [Dict.get?_modify_self] at hbk5
        cases hbko : Dict.get? ({ s with
            orders := Dict.set s.orders order.id order }.match_order
              order.id).order_books t with
        | none =>
          rw [hbko] at hbk5
          exact Option.noConfusion hbk5
        | some bk0 =>
          rw [hbko, Option.map_some'] at hbk5
          have hbb := Option.some.inj hbk5
          obtain ⟨hs1, hs2⟩ := hI3.2.1 t bk0 hbko
          rw [← hbb]
          unfold OrderBook.add_order
          dsimp only
          have hticker2 : String.upper o2.ticker = t := by
            rw [hfr2.2.2.2.1, htick]
          have hlim2 : o2.order_type = OrderType.limit := by
            rw [hfr2.2.2.1, hlim]
          by_cases hsd : o2.side = OrderSide.buy
          · rw [if_pos hsd]
            dsimp only
            constructor
            · intro e2 he2
              rcases heappush_mem _ _ _ he2 with he3 | he3
              · refine ⟨o2, ?_, hsd, hlim2, hticker2⟩
                rw [he3]
                exact ho2get
              · exact hs1 e2 he3
            · exact hs2
          · rw [if_neg hsd]
            dsimp only
            have hsd2 : o2.side = OrderSide.sell := by
              cases hcc : o2.side
              · exact absurd hcc hsd
              · rfl
            constructor
            · exact hs1
            · intro e2 he2
              rcases heappush_mem _ _ _ he2 with he3 | he3
              · refine ⟨o2, ?_, hsd2, hlim2, hticker2⟩
                rw [he3]
                exact ho2get
              · exact hs2 e2 he3
      · rw [Dict.get?_modify_ne _ _ _ _ ht] at hbk5
        exact hI3.2.1 t bk4 hbk5
    · rw [if_neg hp2]
      exact hC3

end AIVerse

namespace AIVerse

theorem submit_order_cons (s : Exchange) (order : Order)
    (hfresh : Dict.get? s.orders order.id = none)
    (hst : order.status = .pending) (hfq : order.filled_quantity = 0)
    (hq : 0 < order.quantity)
    (hup : String.upper order.ticker = order.ticker)
    (hbacked : order.side = .buy ∨
      sellCommit s order.agent_id order.ticker + order.quantity ≤
        holdings s order.agent_id order.ticker)
    (hC : ConsInv s) : ConsInv (s.submit_order order).2 := by
  unfold Exchange.submit_order
  cases hag : Dict.get? s.agents order.agent_id with
  | none => exact hC
  | some agent =>
    dsimp only
    by_cases hco : (Dict.get? s.companies (String.upper order.ticker)).isNone = true
    · rw [if_pos hco]
      exact hC
    · rw [if_neg hco]
      have hcoS : (Dict.get? s.companies (String.upper order.ticker)).isSome = true := by
        cases hx : Dict.get? s.companies (String.upper order.ticker) with
        | none =>
          rw [hx] at hco
          exact absurd rfl hco
        | some cc => rfl
      have hagS : (Dict.get? s.agents order.agent_id).isSome = true := by
        rw [hag]
        rfl
      by_cases hsd : order.side = OrderSide.buy
      · rw [if_pos hsd]
        have hnosell : order.side = .sell →
            sellCommit s order.agent_id (String.upper order.ticker) + order.quantity ≤
              holdings s order.agent_id (String.upper order.ticker) :=
          fun hxs => absurd (hsd.symm.trans hxs) (fun hcc => OrderSide.noConfusion hcc)
        by_cases htr : Exchange.truthy order.price = true
        · rw [if_pos htr]
          dsimp only
          by_cases hbal : agent.balance < order.quantity * order.price.getD 0
          · rw [if_pos hbal]
            exact hC
          · rw [if_neg hbal]
            exact finishSubmit_cons s order (String.upper order.ticker) hfresh hst hfq hq
              rfl hup hagS hcoS hnosell hC
        · rw [if_neg htr]
          obtain ⟨hI1, hOeq, hAeq, hCeq, hNtr⟩ :=
            get_market_price_inv s (String.upper order.ticker) OrderSide.buy hC.inv
          have hCmp : ConsInv (s.get_market_price (String.upper order.ticker)
              OrderSide.buy).2 := consInv_transfer s _ hI1 hOeq hAeq hCeq hC
          by_cases hbal : agent.balance <
              order.quantity * (s.get_market_price (String.upper order.ticker)
                OrderSide.buy).1
          · rw [if_pos hbal]
            exact hCmp
          · rw [if_neg hbal]
            refine finishSubmit_cons _ order (String.upper order.ticker) ?_ hst hfq hq
              rfl hup ?_ ?_ ?_ hCmp
            · rw [hOeq]
              exact hfresh
            · rw [hAeq]
              exact hagS
            · rw [hCeq]
              exact hcoS
            · exact fun hxs => absurd (hsd.symm.trans hxs)
                (fun hcc => OrderSide.noConfusion hcc)
      · rw [if_neg hsd]
        have hsds : order.side = OrderSide.sell := by
          cases hcc : order.side
          · exact absurd hcc hsd
          · rfl
        have hbacked2 : sellCommit s order.agent_id order.ticker + order.quantity ≤
            holdings s order.agent_id order.ticker := by
          rcases hbacked with hb | hb
          · exact absurd (hsds.symm.trans hb) (fun hcc => OrderSide.noConfusion hcc)
          · exact hb
        by_cases hhold : (Dict.get? agent.portfolio (String.upper order.ticker)).getD 0 <
            order.quantity
        · rw [if_pos hhold]
          exact hC
        · rw [if_neg hhold]
          refine finishSubmit_cons s order (String.upper order.ticker) hfresh hst hfq hq
            rfl hup hagS hcoS ?_ hC
          intro hxs
          rw [hup]
          exact hbacked2

theorem register_agent_cons (s : Exchange) (aid n : String) (b : ℚ) (hC : ConsInv s) :
    ConsInv (s.register_agent aid n b).2 := by
  unfold Exchange.register_agent
  cases hag : Dict.get? s.agents aid with
  | some a => exact hC
  | none =>
    dsimp only
    obtain ⟨hInv0, uA, uO, oAg, oCo, oUp, pCo, cKey, backed, cons⟩ := hC
    have hI1 : Inv { s with agents := Dict.set s.agents aid { id := aid, name := n, balance := b } } := by
      refine ⟨hInv0.1, hInv0.2.1, ?_⟩
      intro p hp
      rcases Dict.mem_set _ _ _ _ hp with hmem | hpv
      · exact hInv0.2.2 p hmem
      · rw [hpv]
        intro q hq2
        exact absurd hq2 (List.not_mem_nil q)
    refine ⟨hI1, ?_, uO, ?_, oCo, oUp, ?_, cKey, ?_, ?_⟩
    · exact Dict.uniq_set s.agents aid _ uA hag
    · intro p hp
      exact Dict.isSome_set _ _ _ _ (oAg p hp)
    · intro p hp q hq2
      rcases Dict.mem_set _ _ _ _ hp with hmem | hpv
      · exact pCo p hmem q hq2
      · rw [hpv] at hq2
        exact absurd hq2 (List.not_mem_nil q)
    · intro aid2 t c hc hnb
      have hc2 : Dict.get? s.companies t = some c := hc
      have hscq : sellCommit { s with agents := Dict.set s.agents aid { id := aid, name := n, balance := b } } aid2 t = sellCommit s aid2 t := rfl
      rw [hscq]
      by_cases haid : aid2 = aid
      · subst haid
        have h0 : sellCommit s aid2 t = 0 := sellCommit_absent s oAg aid2 t hag
        rw [h0]
        exact holdings_nonneg _ hI1.2.2 aid2 t
      · have hh : holdings { s with agents := Dict.set s.agents aid { id := aid, name := n, balance := b } } aid2 t = holdings s aid2 t := by
          unfold holdings
          dsimp only
          rw [Dict.get?_set_ne _ _ _ _ haid]
        rw [hh]
        exact backed aid2 t c hc2 hnb
    · intro t c hc hnb
      have hc2 : Dict.get? s.companies t = some c := hc
      have hss : sumShares { s with agents := Dict.set s.agents aid { id := aid, name := n, balance := b } } t = sumShares s t := by
        rw [sumShares_eq, sumShares_eq]
        dsimp only
        rw [Dict.dsum_set_fresh s.agents _ aid _ hag]
        have hz : (Dict.get? ({ id := aid, name := n, balance := b } : Agent).portfolio
            t).getD 0 = 0 := rfl
        rw [hz, add_zero]
      rw [hss]
      exact cons t c hc2 hnb

end AIVerse

namespace AIVerse

theorem getD_port_nonneg (ag : Dict Agent)
    (h : ∀ p ∈ ag, ∀ q ∈ p.2.portfolio, 0 < q.2) (aid t : String) :
    0 ≤ ((Dict.get? ag aid).map (fun a => (Dict.get? a.portfolio t).getD 0)).getD 0 := by
  cases ha : Dict.get? ag aid with
  | none => exact le_refl 0
  | some a =>
    rw [Option.map_some', Option.getD_some]
    cases hq : Dict.get? a.portfolio t with
    | none => exact le_refl 0
    | some v =>
      rw [Option.getD_some]
      exact (h (aid, a) (Dict.get?_mem _ _ _ ha) (t, v) (Dict.get?_mem _ _ _ hq)).le

theorem create_company_cons (s : Exchange) (fid t n d st : String) (sc : ℚ)
    (hfreshU : (Dict.get? s.companies (String.upper t)).isNone = true)
    (hC : ConsInv s) : ConsInv (s.create_company fid t n d st sc).2 := by
  obtain ⟨hInv0, uA, uO, oAg, oCo, oUp, pCo, cKey, backed, cons⟩ := hC
  have hnoU : Dict.get? s.companies (String.upper t) = none := by
    cases hx : Dict.get? s.companies (String.upper t) with
    | none => rfl
    | some c =>
      rw [hx] at hfreshU
      exact Bool.noConfusion hfreshU
  unfold Exchange.create_company
  cases hag : Dict.get? s.agents fid with
  | none => exact ⟨hInv0, uA, uO, oAg, oCo, oUp, pCo, cKey, backed, cons⟩
  | some founder =>
    dsimp only
    by_cases hbal : founder.balance < 10000
    · rw [if_pos hbal]
      exact ⟨hInv0, uA, uO, oAg, oCo, oUp, pCo, cKey, backed, cons⟩
    · rw [if_neg hbal]
      by_cases hdup : (Dict.get? s.companies t).isSome = true
      · rw [if_pos hdup]
        exact ⟨hInv0, uA, uO, oAg, oCo, oUp, pCo, cKey, backed, cons⟩
      · rw [if_neg hdup]
        dsimp only
        show ConsInv { s with
          agents := (s.agents.modify fid
            (fun a => { a with balance := a.balance - 10000 })).modify fid
            (fun a =>
              { a with
                portfolio := a.portfolio.set (String.upper t) (1000000 : ℚ) }),
          companies := Dict.set s.companies (String.upper t)
            { id := String.lower t, ticker := String.upper t, name := n,
              description := d, founder_id := fid, service_type := st,
              service_cost := sc },
          order_books := Dict.set s.order_books (String.upper t)
            { ticker := String.upper t } }
        have hport3 : ∀ p ∈ (s.agents.modify fid
            (fun a => { a with balance := a.balance - 10000 })).modify fid
            (fun a =>
              { a with
                portfolio := a.portfolio.set (String.upper t) (1000000 : ℚ) }),
            ∀ q ∈ p.2.portfolio, 0 < q.2 := by
          refine portInv_modify_mem _ fid _ ?_ (portInv_modify_mem _ fid _ ?_ hInv0.2.2)
          · intro a ha q hq2
            dsimp only at hq2
            rcases Dict.mem_set _ _ _ _ hq2 with hmem | hpv
            · exact ha q hmem
            · rw [hpv]
              norm_num
          · exact fun a ha => ha
        have hf0 : Dict.get? founder.portfolio (String.upper t) = none := by
          cases hx : Dict.get? founder.portfolio (String.upper t) with
          | none => rfl
          | some v =>
            have h2 := pCo (fid, founder) (Dict.get?_mem _ _ _ hag)
              (String.upper t, v) (Dict.get?_mem _ _ _ hx)
            rw [hnoU] at h2
            exact Bool.noConfusion h2
        refine ⟨?_, ?_, uO, ?_, ?_, oUp, ?_, ?_, ?_, ?_⟩
        · refine ⟨hInv0.1, ?_, ?_⟩
          · intro t2 bk hbk
            dsimp only at hbk
            by_cases ht2 : t2 = String.upper t
            · subst ht2
              rw [Dict.get?_set_self] at hbk
              have hbb := Option.some.inj hbk
              rw [← hbb]
              exact ⟨fun e he => absurd he (List.not_mem_nil e),
                     fun e he => absurd he (List.not_mem_nil e)⟩
            · rw [Dict.get?_set_ne _ _ _ _ ht2] at hbk
              exact hInv0.2.1 t2 bk hbk
          · intro p hp
            dsimp only at hp
            exact hport3 p hp
        · dsimp only
          exact Dict.uniq_modify _ _ _ (Dict.uniq_modify _ _ _ uA)
        · intro p hp
          dsimp only at hp ⊢
          exact Dict.isSome_modify _ _ _ _ (Dict.isSome_modify _ _ _ _ (oAg p hp))
        · intro p hp
          dsimp only at hp ⊢
          exact Dict.isSome_set _ _ _ _ (oCo p hp)
        · intro p hp q hq2
          dsimp only at hp ⊢
          have hkey : ∀ p2 ∈ (s.agents.modify fid
              (fun a => { a with balance := a.balance - 10000 })).modify fid
              (fun a =>
                { a with
                  portfolio := a.portfolio.set (String.upper t) (1000000 : ℚ) }),
              ∀ q2 ∈ p2.2.portfolio,
              (q2.1 = String.upper t ∨ (Dict.get? s.companies q2.1).isSome = true) := by
            refine portfolioPred_modify _ fid _ _ ?_
              (portfolioPred_modify _ fid _ _ ?_ ?_)
            · intro a ha q2 hq3
              dsimp only at hq3
              rcases Dict.mem_set_keys _ _ _ _ hq3 with ⟨q0, hq0, hk⟩ | hqt
              · rw [hk]
                exact ha q0 hq0
              · rw [hqt]
                exact Or.inl rfl
            · exact fun a ha => ha
            · exact fun p2 hp2 q2 hq3 => Or.inr (pCo p2 hp2 q2 hq3)
          rcases hkey p hp q hq2 with hnew | hold
          · rw [hnew, Dict.get?_set_self]
            rfl
          · exact Dict.isSome_set _ _ _ _ hold
        · intro t2 c hc
          dsimp only at hc
          by_cases ht2 : t2 = String.upper t
          · subst ht2
            rw [Dict.get?_set_self] at hc
            have hcc := Option.some.inj hc
            rw [← hcc]
          · rw [Dict.get?_set_ne _ _ _ _ ht2] at hc
            exact cKey t2 c hc
        · intro aid t2 c hc hnb
          dsimp only at hc
          rw [sellCommit_eq]
          unfold holdings
          dsimp only
          by_cases ht2 : t2 = String.upper t
          · subst ht2
            have h0 := sellCommit_nocompany s oCo aid (String.upper t) hnoU
            rw [sellCommit_eq] at h0
            rw [h0]
            exact getD_port_nonneg _ hport3 aid (String.upper t)
          · rw [Dict.get?_set_ne _ _ _ _ ht2] at hc
            have hh : ((Dict.get? ((s.agents.modify fid
                (fun a => { a with balance := a.balance - 10000 })).modify fid
                (fun a =>
                  { a with
                    portfolio := a.portfolio.set (String.upper t) (1000000 : ℚ) }))
                aid).map (fun a => (Dict.get? a.portfolio t2).getD 0)).getD 0 =
                ((Dict.get? s.agents aid).map
                  (fun a => (Dict.get? a.portfolio t2).getD 0)).getD 0 := by
              by_cases haid : aid = fid
              · subst haid
                rw [Dict.get?_modify_self, Dict.get?_modify_self, hag]
                simp only [Option.map_some', Option.getD_some]
                rw [Dict.get?_set_ne _ _ _ _ ht2]
              · rw [Dict.get?_modify_ne _ _ _ _ haid, Dict.get?_modify_ne _ _ _ _ haid]
            rw [hh]
            have hb2 := backed aid t2 c hc hnb
            rw [sellCommit_eq] at hb2
            unfold holdings at hb2
            exact hb2
        · intro t2 c hc hnb
          dsimp only at hc
          rw [sumShares_eq]
          dsimp only
          by_cases ht2 : t2 = String.upper t
          · subst ht2
            rw [Dict.get?_set_self] at hc
            have hcc := Option.some.inj hc
            rw [Dict.dsum_modify _ _ fid _
              ((fun a => { a with balance := a.balance - 10000 }) founder)
              (Dict.uniq_modify _ _ _ uA)
              (by rw [Dict.get?_modify_self, hag, Option.map_some'])]
            have h1 : Dict.dsum (s.agents.modify fid
                (fun a => { a with balance := a.balance - 10000 }))
                (fun a => (Dict.get? a.portfolio (String.upper t)).getD 0) =
                Dict.dsum s.agents
                  (fun a => (Dict.get? a.portfolio (String.upper t)).getD 0) := by
              refine Dict.dsum_modify_invariant _ _ _ _ ?_
              exact fun a => rfl
            rw [h1]
            have h0 := sumShares_nocompany s pCo (String.upper t) hnoU
            rw [sumShares_eq] at h0
            rw [h0]
            dsimp only
            rw [hf0, Dict.get?_set_self, Option.getD_some, Option.getD_none, ← hcc]
            show (0:ℚ) - 0 + 1000000 = (1000000:ℚ)
            norm_num
          · rw [Dict.get?_set_ne _ _ _ _ ht2] at hc
            have hcons2 := cons t2 c hc hnb
            rw [sumShares_eq] at hcons2
            have h1 : Dict.dsum ((s.agents.modify fid
                (fun a => { a with balance := a.balance - 10000 })).modify fid
                (fun a =>
                  { a with
                    portfolio := a.portfolio.set (String.upper t) (1000000 : ℚ) }))
                (fun a => (Dict.get? a.portfolio t2).getD 0) =
                Dict.dsum s.agents (fun a => (Dict.get? a.portfolio t2).getD 0) := by
              refine (Dict.dsum_modify_invariant _ _ _ _ ?_).trans
                (Dict.dsum_modify_invariant _ _ _ _ ?_)
              · intro a
                dsimp only
                rw [Dict.get?_set_ne _ _ _ _ ht2]
              · exact fun a => rfl
            rw [h1]
            exact hcons2

end AIVerse

namespace AIVerse

theorem getD_port_modify_keep (ag : Dict Agent) (k : String) (f : Agent → Agent)
    (hf : ∀ a, (f a).portfolio = a.portfolio) (aid t : String) :
    ((Dict.get? (ag.modify k f) aid).map
      (fun a => (Dict.get? a.portfolio t).getD 0)).getD 0 =
    ((Dict.get? ag aid).map (fun a => (Dict.get? a.portfolio t).getD 0)).getD 0 := by
  by_cases haid : aid = k
  · subst haid
    rw [Dict.get?_modify_self]
    cases hx : Dict.get? ag aid with
    | none => rfl
    | some a => simp only [Option.map_some', Option.getD_some, hf]
  · rw [Dict.get?_modify_ne _ _ _ _ haid]

theorem getD_port_map_get (ag : Dict Agent) (F : String × Agent → String × Agent)
    (hF : ∀ p, (F p).1 = p.1) (t : String)
    (hpf : ∀ p, Dict.get? ((F p).2).portfolio t = Dict.get? p.2.portfolio t)
    (aid : String) :
    ((Dict.get? (ag.map F) aid).map
      (fun a => (Dict.get? a.portfolio t).getD 0)).getD 0 =
    ((Dict.get? ag aid).map (fun a => (Dict.get? a.portfolio t).getD 0)).getD 0 := by
  rw [Dict.get?_map_keyfix F hF]
  cases hx : Dict.get? ag aid with
  | none => rfl
  | some a =>
    simp only [Option.map_some', Option.getD_some]
    rw [hpf (aid, a)]

/-- An agent-store map that keeps keys and portfolios preserves the
discipline. -/
theorem consInv_agents_map (s : Exchange) (F : String × Agent → String × Agent)
    (hI : Inv { s with agents := s.agents.map F })
    (hF : ∀ p, (F p).1 = p.1)
    (hpf : ∀ p, ((F p).2).portfolio = p.2.portfolio)
    (hC : ConsInv s) : ConsInv { s with agents := s.agents.map F } := by
  obtain ⟨hInv0, uA, uO, oAg, oCo, oUp, pCo, cKey, backed, cons⟩ := hC
  refine ⟨hI, ?_, uO, ?_, oCo, oUp, ?_, cKey, ?_, ?_⟩
  · exact Dict.uniq_map_keyfix s.agents F hF uA
  · intro p hp
    have h2 := oAg p hp
    dsimp only
    rw [Dict.get?_map_keyfix F hF]
    cases hx : Dict.get? s.agents p.2.agent_id with
    | none =>
      rw [hx] at h2
      exact Bool.noConfusion h2
    | some a => rfl
  · intro p hp q hq
    obtain ⟨q0, hq0, hpq⟩ := List.mem_map.1 hp
    rw [← hpq] at hq
    rw [hpf q0] at hq
    exact pCo q0 hq0 q hq
  · intro aid t c hc hnb
    have hc2 : Dict.get? s.companies t = some c := hc
    rw [sellCommit_eq]
    unfold holdings
    dsimp only
    rw [getD_port_map_get s.agents F hF t (fun p => by rw [hpf p]) aid]
    have hb2 := backed aid t c hc2 hnb
    rw [sellCommit_eq] at hb2
    unfold holdings at hb2
    exact hb2
  · intro t c hc hnb
    have hc2 : Dict.get? s.companies t = some c := hc
    rw [sumShares_eq]
    dsimp only
    rw [Dict.dsum_map s.agents F _ (fun p hp => by rw [hpf p])]
    have hb2 := cons t c hc2 hnb
    rw [sumShares_eq] at hb2
    exact hb2

/-- A company rewrite that keeps status, total shares and ticker
preserves the discipline. -/
theorem consInv_companies_modify (s : Exchange) (k : String) (f : Company → Company)
    (hf : ∀ c, (f c).status = c.status ∧ (f c).total_shares = c.total_shares ∧
      (f c).ticker = c.ticker)
    (hC : ConsInv s) : ConsInv { s with companies := s.companies.modify k f } := by
  obtain ⟨hInv0, uA, uO, oAg, oCo, oUp, pCo, cKey, backed, cons⟩ := hC
  have hcget : ∀ t2 c, Dict.get? (s.companies.modify k f) t2 = some c →
      ∃ c0, Dict.get? s.companies t2 = some c0 ∧ c0.status = c.status ∧
        c0.total_shares = c.total_shares ∧ c0.ticker = c.ticker := by
    intro t2 c hc
    by_cases ht2 : t2 = k
    · subst ht2
      rw [Dict.get?_modify_self] at hc
      cases hx : Dict.get? s.companies t2 with
      | none =>
        rw [hx] at hc
        exact Option.noConfusion hc
      | some c0 =>
        rw [hx, Option.map_some'] at hc
        have hcc := Option.some.inj hc
        refine ⟨c0, rfl, ?_, ?_, ?_⟩
        · rw [← hcc, (hf c0).1]
        · rw [← hcc, (hf c0).2.1]
        · rw [← hcc, (hf c0).2.2]
    · rw [Dict.get?_modify_ne _ _ _ _ ht2] at hc
      exact ⟨c, hc, rfl, rfl, rfl⟩
  refine ⟨⟨hInv0.1, hInv0.2.1, hInv0.2.2⟩, uA, uO, oAg, ?_, oUp, ?_, ?_, ?_, ?_⟩
  · intro p hp
    exact Dict.isSome_modify _ _ _ _ (oCo p hp)
  · intro p hp q hq
    exact Dict.isSome_modify _ _ _ _ (pCo p hp q hq)
  · intro t2 c hc
    dsimp only at hc
    obtain ⟨c0, hc0, _, _, htk⟩ := hcget t2 c hc
    rw [← htk]
    exact cKey t2 c0 hc0
  · intro aid t2 c hc hnb
    dsimp only at hc
    obtain ⟨c0, hc0, hst0, _, _⟩ := hcget t2 c hc
    have hnb0 : c0.status ≠ .bankrupt := by
      rw [hst0]
      exact hnb
    exact backed aid t2 c0 hc0 hnb0
  · intro t2 c hc hnb
    dsimp only at hc
    obtain ⟨c0, hc0, hst0, hts0, _⟩ := hcget t2 c hc
    have hnb0 : c0.status ≠ .bankrupt := by
      rw [hst0]
      exact hnb
    have h2 := cons t2 c0 hc0 hnb0
    rw [← hts0]
    exact h2

end AIVerse

namespace AIVerse

theorem use_service_cons (w : World) (aid t : String) (hC : ConsInv w.exchange) :
    ConsInv (w.use_service aid t).2.exchange := by
  unfold World.use_service
  cases hag : Dict.get? w.exchange.agents aid with
  | none => exact hC
  | some agent =>
    dsimp only
    cases hco : Dict.get? w.exchange.companies (String.upper t) with
    | none => exact hC
    | some company =>
      dsimp only
      by_cases hbk : company.status = CompanyStatus.bankrupt
      · rw [if_pos hbk]
        exact hC
      · rw [if_neg hbk]
        by_cases hbal : agent.balance < company.service_cost
        · rw [if_pos hbal]
          exact hC
        · rw [if_neg hbal]
          obtain ⟨hInv0, uA, uO, oAg, oCo, oUp, pCo, cKey, backed, cons⟩ := hC
          show ConsInv { w.exchange with
            agents := w.exchange.agents.modify aid
              (fun a => { a with balance := a.balance - company.service_cost }),
            companies := Dict.modify w.exchange.companies (String.upper t)
              (fun c =>
                { c with
                  revenue := c.revenue + company.service_cost,
                  total_api_calls := c.total_api_calls + 1 }) }
          have hcget : ∀ t2 c, Dict.get? (Dict.modify w.exchange.companies
              (String.upper t) (fun c =>
                { c with
                  revenue := c.revenue + company.service_cost,
                  total_api_calls := c.total_api_calls + 1 })) t2 = some c →
              ∃ c0, Dict.get? w.exchange.companies t2 = some c0 ∧
                c0.status = c.status ∧ c0.total_shares = c.total_shares ∧
                c0.ticker = c.ticker := by
            intro t2 c hc
            by_cases ht2 : t2 = String.upper t
            · subst ht2
              rw [Dict.get?_modify_self] at hc
              cases hx : Dict.get? w.exchange.companies (String.upper t) with
              | none =>
                rw [hx] at hc
                exact Option.noConfusion hc
              | some c0 =>
                rw [hx, Option.map_some'] at hc
                have hcc := Option.some.inj hc
                exact ⟨c0, rfl, by rw [← hcc], by rw [← hcc], by rw [← hcc]⟩
            · rw [Dict.get?_modify_ne _ _ _ _ ht2] at hc
              exact ⟨c, hc, rfl, rfl, rfl⟩
          refine ⟨⟨hInv0.1, hInv0.2.1, ?_⟩, ?_, uO, ?_, ?_, oUp, ?_, ?_, ?_, ?_⟩
          · intro p hp
            dsimp only at hp
            refine portInv_modify_mem w.exchange.agents aid _ ?_ hInv0.2.2 p hp
            exact fun a ha => ha
          · dsimp only
            exact Dict.uniq_modify _ _ _ uA
          · intro p hp
            dsimp only at hp ⊢
            exact Dict.isSome_modify _ _ _ _ (oAg p hp)
          · intro p hp
            dsimp only at hp ⊢
            exact Dict.isSome_modify _ _ _ _ (oCo p hp)
          · intro p hp q hq
            dsimp only at hp ⊢
            rcases Dict.mem_modify _ _ _ _ hp with hmem | ⟨q0, hq0, hpq⟩
            · exact Dict.isSome_modify _ _ _ _ (pCo p hmem q hq)
            · rw [hpq] at hq
              dsimp only at hq
              exact Dict.isSome_modify _ _ _ _ (pCo q0 hq0 q hq)
          · intro t2 c hc
            dsimp only at hc
            obtain ⟨c0, hc0, _, _, htk⟩ := hcget t2 c hc
            rw [← htk]
            exact cKey t2 c0 hc0
          · intro aid2 t2 c hc hnb
            dsimp only at hc
            obtain ⟨c0, hc0, hst0, _, _⟩ := hcget t2 c hc
            have hnb0 : c0.status ≠ .bankrupt := by
              rw [hst0]
              exact hnb
            rw [sellCommit_eq]
            unfold holdings
            dsimp only
            have hkeep := getD_port_modify_keep w.exchange.agents aid
              (fun a => { a with balance := a.balance - company.service_cost })
              (fun a => rfl) aid2 t2
            rw [hkeep]
            have hb2 := backed aid2 t2 c0 hc0 hnb0
            rw [sellCommit_eq] at hb2
            unfold holdings at hb2
            exact hb2
          · intro t2 c hc hnb
            dsimp only at hc
            obtain ⟨c0, hc0, hst0, hts0, _⟩ := hcget t2 c hc
            have hnb0 : c0.status ≠ .bankrupt := by
              rw [hst0]
              exact hnb
            rw [sumShares_eq]
            dsimp only
            refine (Dict.dsum_modify_invariant _ _ _ _ ?_).trans ?_
            · exact fun a => rfl
            · rw [← hts0]
              have h2 := cons t2 c0 hc0 hnb0
              rw [sumShares_eq] at h2
              exact h2

theorem daily_income_cons (s : Exchange) (hC : ConsInv s) : ConsInv s.daily_income :=
  consInv_agents_map s _ (daily_income_inv s hC.inv) (fun p => rfl) (fun p => rfl) hC

theorem distributeDividends_cons (ex : Exchange) (rate : ℚ) (t : String)
    (hC : ConsInv ex) : ConsInv (World.distributeDividends ex rate t) := by
  unfold World.distributeDividends
  cases hco : Dict.get? ex.companies t with
  | none => exact hC
  | some company =>
    dsimp only
    refine consInv_agents_map ex _ ?_ ?_ ?_ hC
    · refine ⟨hC.inv.1, hC.inv.2.1, ?_⟩
      refine portInv_map_mem ex.agents _ ?_ hC.inv.2.2
      intro p hp
      dsimp only
      split
      · exact hp
      · exact hp
    · intro p
      dsimp only
      split
      · rfl
      · rfl
    · intro p
      dsimp only
      split
      · rfl
      · rfl

end AIVerse

namespace AIVerse

theorem bankruptCompany_cons (ex : Exchange) (t : String) (hC : ConsInv ex) :
    ConsInv (World.bankruptCompany ex t) := by
  obtain ⟨hInv0, uA, uO, oAg, oCo, oUp, pCo, cKey, backed, cons⟩ := hC
  unfold World.bankruptCompany
  dsimp only
  cases hco : Dict.get? (Dict.modify ex.companies t (fun c =>
      { c with status := CompanyStatus.bankrupt, share_price := 0, market_cap := 0 })) t with
  | none =>
    have hnone : Dict.get? ex.companies t = none := by
      rw [Dict.get?_modify_self] at hco
      cases hx : Dict.get? ex.companies t with
      | none => rfl
      | some c0 =>
        rw [hx, Option.map_some'] at hco
        exact Option.noConfusion hco
    rw [Dict.modify_eq_self ex.companies t _ hnone]
    exact ⟨hInv0, uA, uO, oAg, oCo, oUp, pCo, cKey, backed, cons⟩
  | some company =>
    dsimp only
    have hrec : ∃ c0, Dict.get? ex.companies t = some c0 ∧
        company =
          { c0 with status := CompanyStatus.bankrupt, share_price := 0, market_cap := 0 } := by
      rw [Dict.get?_modify_self] at hco
      cases hx : Dict.get? ex.companies t with
      | none =>
        rw [hx] at hco
        exact Option.noConfusion hco
      | some c0 =>
        rw [hx, Option.map_some'] at hco
        exact ⟨c0, rfl, (Option.some.inj hco).symm⟩
    obtain ⟨c0, hc0, hcompany⟩ := hrec
    have htick : company.ticker = t := by
      rw [hcompany]
      exact cKey t c0 hc0
    rw [htick]
    show ConsInv { ex with
      agents := ex.agents.map
        (fun p => (p.1, { p.2 with portfolio := p.2.portfolio.erase t })),
      companies := Dict.modify ex.companies t
        (fun c =>
          { c with status := CompanyStatus.bankrupt, share_price := 0, market_cap := 0 }) }
    refine ⟨?_, ?_, uO, ?_, ?_, oUp, ?_, ?_, ?_, ?_⟩
    · refine ⟨hInv0.1, hInv0.2.1, ?_⟩
      intro p hp
      dsimp only at hp
      obtain ⟨q0, hq0, hpq⟩ := List.mem_map.1 hp
      rw [← hpq]
      intro q hq
      dsimp only at hq
      exact hInv0.2.2 q0 hq0 q (Dict.mem_erase _ _ _ hq)
    · dsimp only
      exact Dict.uniq_map_keyfix _ _ (fun p => rfl) uA
    · intro p hp
      dsimp only at hp ⊢
      have h2 := oAg p hp
      rw [Dict.get?_map_keyfix
        (fun p : String × Agent => (p.1, { p.2 with portfolio := p.2.portfolio.erase t }))
        (fun p => rfl)]
      cases hx : Dict.get? ex.agents p.2.agent_id with
      | none =>
        rw [hx] at h2
        exact Bool.noConfusion h2
      | some a => rfl
    · intro p hp
      dsimp only at hp ⊢
      exact Dict.isSome_modify _ _ _ _ (oCo p hp)
    · intro p hp q hq
      dsimp only at hp ⊢
      obtain ⟨q0, hq0, hpq⟩ := List.mem_map.1 hp
      rw [← hpq] at hq
      dsimp only at hq
      exact Dict.isSome_modify _ _ _ _ (pCo q0 hq0 q (Dict.mem_erase _ _ _ hq))
    · intro t2 c hc
      dsimp only at hc
      by_cases ht2 : t2 = t
      · subst ht2
        rw [Dict.get?_modify_self, hc0, Option.map_some'] at hc
        have hcc := Option.some.inj hc
        rw [← hcc]
        exact cKey _ c0 hc0
      · rw [Dict.get?_modify_ne _ _ _ _ ht2] at hc
        exact cKey t2 c hc
    · intro aid t2 c hc hnb
      dsimp only at hc
      by_cases ht2 : t2 = t
      · subst ht2
        rw [Dict.get?_modify_self, hc0, Option.map_some'] at hc
        have hcc := Option.some.inj hc
        exact absurd (show c.status = CompanyStatus.bankrupt from by rw [← hcc]) hnb
      · rw [Dict.get?_modify_ne _ _ _ _ ht2] at hc
        rw [sellCommit_eq]
        unfold holdings
        dsimp only
        have hkeep := getD_port_map_get ex.agents
          (fun p => (p.1, { p.2 with portfolio := p.2.portfolio.erase t }))
          (fun p => rfl) t2
          (fun p => by
            dsimp only
            rw [Dict.get?_erase_ne _ _ _ ht2]) aid
        rw [hkeep]
        have hb2 := backed aid t2 c hc hnb
        rw [sellCommit_eq] at hb2
        unfold holdings at hb2
        exact hb2
    · intro t2 c hc hnb
      dsimp only at hc
      by_cases ht2 : t2 = t
      · subst ht2
        rw [Dict.get?_modify_self, hc0, Option.map_some'] at hc
        have hcc := Option.some.inj hc
        exact absurd (show c.status = CompanyStatus.bankrupt from by rw [← hcc]) hnb
      · rw [Dict.get?_modify_ne _ _ _ _ ht2] at hc
        rw [sumShares_eq]
        dsimp only
        have hdm := Dict.dsum_map ex.agents
          (fun p => (p.1, { p.2 with portfolio := p.2.portfolio.erase t }))
          (fun a => (Dict.get? a.portfolio t2).getD 0)
          (fun p hp => by
            dsimp only
            rw [Dict.get?_erase_ne _ _ _ ht2])
        rw [hdm]
        have h2 := cons t2 c hc hnb
        rw [sumShares_eq] at h2
        exact h2

theorem daily_cycle_cons (w : World) (hC : ConsInv w.exchange) :
    ConsInv w.daily_cycle.exchange := by
  unfold World.daily_cycle
  dsimp only
  refine foldl_cons _ ?_ _ _ (daily_income_cons w.exchange hC)
  intro ex t hex
  dsimp only
  cases hc1 : Dict.get? ex.companies t with
  | none => exact hex
  | some c =>
    dsimp only
    by_cases hcond : c.status = CompanyStatus.publicC ∧ c.revenue > 0
    · rw [if_pos hcond]
      dsimp only
      have hex1 : ConsInv { World.distributeDividends ex w.dividend_rate t with
          companies := Dict.modify
            (World.distributeDividends ex w.dividend_rate t).companies t
            (fun c2 => { c2 with revenue := 0 }) } :=
        consInv_companies_modify _ t _ (fun c2 => ⟨rfl, rfl, rfl⟩)
          (distributeDividends_cons ex w.dividend_rate t hex)
      cases hc2 : Dict.get? (Dict.modify
          (World.distributeDividends ex w.dividend_rate t).companies t
          (fun c2 => { c2 with revenue := 0 })) t with
      | none => exact hex1
      | some c1 =>
        dsimp only
        split
        · exact bankruptCompany_cons _ t hex1
        · exact hex1
    · rw [if_neg hcond]
      rw [hc1]
      dsimp only
      split
      · exact bankruptCompany_cons ex t hex
      · exact hex

end AIVerse

namespace AIVerse

theorem applyOp_cons (w : World) (op : Op) (hcons : World.consOp w op = true)
    (hC : ConsInv w.exchange) : ConsInv (w.applyOp op).exchange := by
  cases op with
  | register aid n b => exact register_agent_cons w.exchange aid n b hC
  | create fid t n d st sc =>
    simp only [World.consOp] at hcons
    exact create_company_cons w.exchange fid t n d st sc hcons hC
  | submit o =>
    simp only [World.consOp, World.safeSubmit, Bool.and_eq_true, Bool.or_eq_true,
      decide_eq_true_eq, Option.isNone_iff_eq_none] at hcons
    obtain ⟨⟨hS, hU⟩, hV⟩ := hcons
    exact submit_order_cons w.exchange o hS.1.1.1.1.1 hS.1.1.1.1.2 hS.1.1.1.2
      hS.1.1.2 hU hV hC
  | use aid t => exact use_service_cons w aid t hC
  | daily => exact daily_cycle_cons w hC

theorem run_cons : ∀ (ops : List Op) (w : World), World.consRun w ops = true →
    ConsInv w.exchange → ConsInv (w.run ops).exchange := by
  intro ops
  induction ops with
  | nil =>
    intro w _ h
    exact h
  | cons op rest ih =>
    intro w hcons h
    simp only [World.consRun, Bool.and_eq_true] at hcons
    exact ih (w.applyOp op) hcons.2 (applyOp_cons w op hcons.1 h)

/-- C1, amended.  Share conservation holds over every trace from the
empty world in which each submitted SELL is backed at submission — the
agent's resting PENDING sell commitment on the (uppercase, freshly
created) ticker plus the new quantity does not exceed their holdings
(`consRun`): for every listed, non-bankrupt company the portfolio
entries for its ticker sum exactly to `total_shares`.  Without that
discipline the claim is false (`claim_C1_counterexample`): the engine
checks each SELL only against instantaneous holdings, so overlapping
resting SELLs both fill, the seller's entry is deleted when it drops to
or below zero — discarding the negative remainder — and the sum ends
strictly above `total_shares`. -/
theorem claim_C1_amended (ops : List Op) (hcons : World.consRun w0 ops = true) :
    ∀ t c, Dict.get? (w0.run ops).exchange.companies t = some c →
      c.status ≠ .bankrupt → sumShares (w0.run ops).exchange t = c.total_shares :=
  (run_cons ops w0 hcons consInv_empty).cons

theorem claim_C1_witness :
    World.consRun w0 opsC4 = true ∧
    sumShares (w0.run opsC4).exchange "XYZ" = 1000000 := by
  refine ⟨by decide, ?_⟩
  rcases hk : Dict.get? (w0.run opsC4).exchange.companies "XYZ" with _ | c
  · exact absurd hk (by decide)
  · have hnb : c.status ≠ CompanyStatus.bankrupt := by
      have hst : (Dict.get? (w0.run opsC4).exchange.companies "XYZ").map Company.status =
          some CompanyStatus.privateC := by decide
      rw [hk, Option.map_some'] at hst
      have h2 := Option.some.inj hst
      rw [h2]
      intro hcc
      exact CompanyStatus.noConfusion hcc
    have happ := claim_C1_amended opsC4 (by decide) "XYZ" c hk hnb
    rw [happ]
    have hts : (Dict.get? (w0.run opsC4).exchange.companies "XYZ").map
        Company.total_shares = some (1000000 : ℚ) := by decide
    rw [hk, Option.map_some'] at hts
    exact Option.some.inj hts

end AIVerse
